import Mathlib

/-!
# go-markov-bot: the log tokenizer and the Markov corpus engine

A shallow embedding of `markov/markov.go`, `generator/logs.go` and the part of
`generator/generator.go` that creates models.

Conventions.
* A Go `[]byte` is a `List Nat` whose entries are byte values (below 256).
* Go `int` positions are `Nat`; none of the modelled subtractions goes below zero
  on a state the program can reach from `newBuffer`.
* A Go `error` is `GoError`; a nil error is `none`.
* The channel of tokens is the list of the tokens sent so far together with a
  flag telling whether the channel has been closed.
* The key-value store `kv.DB` is a finite map from keys to values. It refuses a
  write whose key or value is longer than the largest content it can hold;
  failures of the underlying file (I/O) are not modelled.
* Loops that the source does not bound take a `fuel` argument; running out of
  fuel is reported explicitly and never confused with a result.
-/

namespace MarkovBot

/-! ## Go library helpers -/

/-- A Go byte slice. -/
abbrev Bytes := List Nat

/-- The bytes of an ASCII string literal. -/
def ascii (s : String) : Bytes := s.toList.map Char.toNat

/-- The slice expression `s[i:j]`. -/
def slice (s : Bytes) (i j : Nat) : Bytes := (s.take j).drop i

/-- Go `copy(dst, src)`: the first `min (len dst) (len src)` elements of `dst` are overwritten. -/
def goCopy {α : Type} (dst src : List α) : List α :=
  src.take dst.length ++ dst.drop src.length

/-- Go `bytes.Join(s, sep)`. -/
def bytesJoin (s : List Bytes) (sep : Bytes) : Bytes :=
  match s with
  | [] => []
  | [a] => a
  | a :: b :: rest => a ++ sep ++ bytesJoin (b :: rest) sep

/-- Go `bytes.Split(s, sep)` for a separator of one byte: the pieces between
the occurrences of the separator; never the empty list. -/
def bytesSplit (s : Bytes) (sep : Nat) : List Bytes :=
  match s with
  | [] => [[]]
  | c :: t =>
    if c = sep then [] :: bytesSplit t sep
    else
      match bytesSplit t sep with
      | [] => [[c]]
      | w :: ws => (c :: w) :: ws

/-- A Go error value: the sentinel `io.EOF`, or an error made by `errors.New`. -/
inductive GoError where
  | EOF
  | text (msg : Bytes)
  deriving DecidableEq, Repr

/-- The method `Error()` of an error value. -/
def GoError.Error : GoError → Bytes
  | .EOF => ascii "EOF"
  | .text m => m

/-- The outcome of a Go call: it returns, it panics, or it blocks forever
(a receive on a channel nobody sends on, or a loop that does not end). -/
inductive Outcome (α : Type) where
  | ret (a : α)
  | panic
  | blocked
  deriving DecidableEq, Repr

/-! ## markov/markov.go -/

/-- The constants `TokEOF`, `TokEOL`, `TokError`, `TokWord` (iota order). -/
inductive TokenType where
  | TokEOF
  | TokEOL
  | TokError
  | TokWord
  deriving DecidableEq, Repr

/-- The struct `Token`. -/
structure Token where
  Typ : TokenType
  Value : Bytes
  deriving DecidableEq, Repr

/-- A channel of tokens as its consumer sees it: what is still to be received,
and whether the producer closes the channel after that. -/
structure Chan where
  pending : List Token
  closed : Bool
  deriving DecidableEq, Repr

/-- The type `prefix`. -/
abbrev Prefix := List Bytes

/-- Go `make(prefix, plen)`: `plen` nil words. -/
def makePrefix (plen : Nat) : Prefix := List.replicate plen []

/-- The method `prefix.bytes`. -/
def Prefix.bytes (p : Prefix) : Bytes := bytesJoin p [32]

/-- The method `prefix.buildNext`; `none` is the index panic of `p[len(p)-1]` on an
empty prefix. -/
def Prefix.buildNext (p : Prefix) (lastword : Bytes) : Option Prefix :=
  let q := goCopy p (p.drop 1)
  if p.length = 0 then none else some (q.set (p.length - 1) lastword)

/-- The type `suffix`. -/
abbrev Suffix := List Bytes

/-- The function `createSuffix`. -/
def createSuffix (buf : Bytes) : Suffix := bytesSplit buf 32

/-- The method `suffix.pick`, with the value drawn by `rand.Intn(len(s))` given as
`draw % len(s)`; `none` is the panic of `rand.Intn(0)`. -/
def Suffix.pick (s : Suffix) (draw : Nat) : Option Bytes :=
  if s.length = 0 then none else s.get? (draw % s.length)

/-- The store `kv.DB`: a key is absent (`none`) or bound to a value. -/
abbrev DB := Bytes → Option Bytes

/-- The empty store. -/
def DB.empty : DB := fun _ => none

/-- The method `kv.DB.Get`: the value, or nil when the key is absent. A nil and
an empty slice are not told apart by the callers. -/
def DB.Get (db : DB) (key : Bytes) : Except GoError Bytes :=
  .ok ((db key).getD [])

/-- The largest content, in bytes, that the store holds: a key or a value that
is longer is refused (`kv` keeps each of them in one block of its allocator,
whose content is limited to 65787 bytes). -/
def kvMaxContent : Nat := 65787

/-- The error with which the store refuses a content of `n` bytes. The wording
is the library's. -/
def kvTooLong (n : Nat) : GoError :=
  .text (ascii "content size out of limits: " ++ (Nat.toDigits 10 n).map Char.toNat)

/-- The method `kv.DB.Put`: the updater receives the old value, or nil (`none`)
when the key is absent, and returns the new value, whether to write it, and
an error. The write is refused, and the store left as it was, when the key or
the new value is longer than `kvMaxContent`. -/
def DB.Put (db : DB) (key : Bytes)
    (upd : Bytes → Option Bytes → Bytes × Bool × Option GoError) : Except GoError DB :=
  match upd key (db key) with
  | (_, _, some e) => .error e
  | (new, true, none) =>
    if kvMaxContent < key.length then .error (kvTooLong key.length)
    else if kvMaxContent < new.length then .error (kvTooLong new.length)
    else .ok (fun k => if k = key then some new else db k)
  | (_, false, none) => .ok db

/-- The function `suffixUpdater`. -/
def suffixUpdater (word : Bytes) : Bytes → Option Bytes → Bytes × Bool × Option GoError :=
  fun _key old =>
    let buf := old.getD []
    let buf := if old ≠ none then buf ++ [32] else buf
    let buf := buf ++ word
    (buf, true, none)

/-- The struct `MarkovChain`. -/
structure MarkovChain where
  prefixLen : Nat
  CorpusDB : DB

/-- The loop of `PopulateCorpus`, one token per step. The result is the store
as the loop leaves it and what the call does: it returns an error or nil, it
panics, or it blocks on a channel that is neither fed nor closed. A receive on
a closed and drained channel yields the zero `Token`, whose type is `TokEOF`. -/
def populateLoop (plen : Nat) : List Token → Bool → Prefix → DB → DB × Outcome (Option GoError)
  | [], closed, _, db => if closed then (db, .ret none) else (db, .blocked)
  | token :: c, closed, pfix, db =>
    match token.Typ with
    | .TokWord =>
      match db.Put pfix.bytes (suffixUpdater token.Value) with
      | .error err =>
        (db, .ret (some (.text (ascii "cannot add/update key to the db file : " ++ err.Error))))
      | .ok db1 =>
        match pfix.buildNext token.Value with
        | none => (db1, .panic)
        | some pfix1 => populateLoop plen c closed pfix1 db1
    | .TokError => (db, .ret (some (.text token.Value)))
    | .TokEOF => (db, .ret none)
    | .TokEOL => populateLoop plen c closed (makePrefix plen) db

/-- The method `MarkovChain.PopulateCorpus`. -/
def MarkovChain.PopulateCorpus (mc : MarkovChain) (c : Chan) : MarkovChain × Outcome (Option GoError) :=
  let r := populateLoop mc.prefixLen c.pending c.closed (makePrefix mc.prefixLen) mc.CorpusDB
  ({ mc with CorpusDB := r.1 }, r.2)

/-- The loop of `Generate`: `n` iterations are left, `k` draws have been made. -/
def generateLoop (db : DB) (draws : Nat → Nat) : Nat → Nat → Prefix → List Bytes →
    Outcome (Except GoError (List Bytes))
  | 0, _, _, words => .ret (.ok words)
  | n + 1, k, pfx, words =>
    match db.Get pfx.bytes with
    | .error err => .ret (.error err)
    | .ok suffixes =>
      let suf := createSuffix suffixes
      match suf.pick (draws k) with
      | none => .panic
      | some word =>
        if word.length = 0 then .ret (.ok words)
        else
          match pfx.buildNext word with
          | none => .panic
          | some pfx1 => generateLoop db draws n (k + 1) pfx1 (words ++ [word])

/-- The words `Generate` collects before joining them. -/
def MarkovChain.generateWords (mc : MarkovChain) (maxsize : Int) (draws : Nat → Nat) :
    Outcome (Except GoError (List Bytes)) :=
  generateLoop mc.CorpusDB draws maxsize.toNat 0 (makePrefix mc.prefixLen) []

/-- The method `MarkovChain.Generate`: the string and the error it returns. The
`k`-th call of `rand.Intn(n)` returns `draws k % n`. -/
def MarkovChain.Generate (mc : MarkovChain) (maxsize : Int) (draws : Nat → Nat) :
    Outcome (Bytes × Option GoError) :=
  match mc.generateWords maxsize draws with
  | .ret (.ok words) => .ret (bytesJoin words [32], none)
  | .ret (.error err) => .ret ([], some err)
  | .panic => .panic
  | .blocked => .blocked

/-! ## Go library: UTF-8 and Unicode classes -/

/-- The constant `utf8.RuneError`, U+FFFD. -/
def RuneError : Nat := 0xFFFD

/-- Whether `b` is in the range `lo..hi` of bytes. -/
def inRange (lo hi b : Nat) : Bool := decide (lo ≤ b) && decide (b ≤ hi)

/-- Go `utf8.DecodeRune(p)`: the rune that starts `p` and the number of bytes of
its encoding; `(RuneError, 0)` on the empty slice and `(RuneError, 1)` on an
encoding that is invalid or cut short. The second byte of a rune has a range
of its own after the lead bytes E0, ED, F0 and F4. The masks of the Go code
are written as subtractions, which agree with them on the accepted ranges. -/
def DecodeRune (p : Bytes) : Nat × Nat :=
  match p with
  | [] => (RuneError, 0)
  | p0 :: rest =>
    if p0 < 0x80 then (p0, 1)
    else if p0 < 0xC2 then (RuneError, 1)
    else if p0 < 0xE0 then
      match rest with
      | b1 :: _ =>
        if inRange 0x80 0xBF b1 then ((p0 - 0xC0) * 64 + (b1 - 0x80), 2) else (RuneError, 1)
      | _ => (RuneError, 1)
    else if p0 < 0xF0 then
      match rest with
      | b1 :: b2 :: _ =>
        if inRange (if p0 = 0xE0 then 0xA0 else 0x80) (if p0 = 0xED then 0x9F else 0xBF) b1
            && inRange 0x80 0xBF b2 then
          ((p0 - 0xE0) * 4096 + (b1 - 0x80) * 64 + (b2 - 0x80), 3)
        else (RuneError, 1)
      | _ => (RuneError, 1)
    else if p0 < 0xF5 then
      match rest with
      | b1 :: b2 :: b3 :: _ =>
        if inRange (if p0 = 0xF0 then 0x90 else 0x80) (if p0 = 0xF4 then 0x8F else 0xBF) b1
            && inRange 0x80 0xBF b2 && inRange 0x80 0xBF b3 then
          ((p0 - 0xF0) * 262144 + (b1 - 0x80) * 4096 + (b2 - 0x80) * 64 + (b3 - 0x80), 4)
        else (RuneError, 1)
      | _ => (RuneError, 1)
    else (RuneError, 1)

/-- Go `utf8.EncodeRune`, as used by the verb `%c`: surrogates and values above
U+10FFFF are written as U+FFFD. -/
def EncodeRune (r : Nat) : Bytes :=
  if r < 0x80 then [r]
  else if r < 0x800 then [0xC0 + r / 64, 0x80 + r % 64]
  else if (0xD800 ≤ r ∧ r ≤ 0xDFFF) ∨ 0x10FFFF < r then [0xEF, 0xBF, 0xBD]
  else if r < 0x10000 then [0xE0 + r / 4096, 0x80 + r / 64 % 64, 0x80 + r % 64]
  else [0xF0 + r / 262144, 0x80 + r / 4096 % 64, 0x80 + r / 64 % 64, 0x80 + r % 64]

/-- The range tables `unicode.Digit`, `unicode.Letter` and `unicode.White_Space`
of the Go library for the runes above Latin-1, the only runes they are
consulted for. The tables belong to the library and depend on its Unicode
version, so they are a parameter; U+FFFD (category So) is in none of them. -/
structure RangeTables where
  Digit : Nat → Bool
  Letter : Nat → Bool
  White_Space : Nat → Bool
  Digit_RuneError : Digit 0xFFFD = false
  Letter_RuneError : Letter 0xFFFD = false
  White_Space_RuneError : White_Space 0xFFFD = false

/-- Range tables that hold no rune above Latin-1. -/
def RangeTables.latin1 : RangeTables :=
  ⟨fun _ => false, fun _ => false, fun _ => false, rfl, rfl, rfl⟩

/-- The constant `unicode.MaxLatin1`. -/
def MaxLatin1 : Nat := 0xFF

/-- Go `unicode.IsDigit`. -/
def IsDigit (T : RangeTables) (r : Nat) : Bool :=
  if r ≤ MaxLatin1 then decide (0x30 ≤ r) && decide (r ≤ 0x39) else T.Digit r

/-- Go `unicode.IsSpace`. -/
def IsSpace (T : RangeTables) (r : Nat) : Bool :=
  if r ≤ MaxLatin1 then
    r == 0x09 || r == 0x0A || r == 0x0B || r == 0x0C || r == 0x0D || r == 0x20
      || r == 0x85 || r == 0xA0
  else T.White_Space r

/-- Go `unicode.IsLetter`; on Latin-1 the letters are A-Z, a-z, U+00AA, U+00B5,
U+00BA, U+00C0-U+00D6, U+00D8-U+00F6 and U+00F8-U+00FF. -/
def IsLetter (T : RangeTables) (r : Nat) : Bool :=
  if r ≤ MaxLatin1 then
    inRange 0x41 0x5A r || inRange 0x61 0x7A r || r == 0xAA || r == 0xB5 || r == 0xBA
      || inRange 0xC0 0xD6 r || inRange 0xD8 0xF6 r || inRange 0xF8 0xFF r
  else T.Letter r

/-- One hexadecimal digit, lower case. -/
def hexDigit (d : Nat) : Nat := if d < 10 then 0x30 + d else 0x61 + (d - 10)

/-- The verb `%x` on a byte slice. -/
def fmtHex (bs : Bytes) : Bytes := bs.flatMap fun b => [hexDigit (b / 16), hexDigit (b % 16)]

/-- The verb `%d`. -/
def fmtInt (i : Int) : Bytes :=
  match i with
  | .ofNat n => (Nat.toDigits 10 n).map Char.toNat
  | .negSucc n => 0x2D :: (Nat.toDigits 10 (n + 1)).map Char.toNat

/-- The verb `%s` on an error value, nil included. -/
def fmtError (err : Option GoError) : Bytes :=
  match err with
  | none => ascii "%!s(<nil>)"
  | some e => e.Error

/-! ## generator/logs.go: the rune buffer -/

/-- The constant `iosize`. -/
def iosize : Nat := 4096

/-- The transcript file as an `io.Reader`: the bytes not read yet. -/
structure Reader where
  data : Bytes
  deriving DecidableEq, Repr

/-- The method `Read` of a regular file on a slice of `n` bytes: the slice is
filled as far as the file goes; the end of the file is reported as `io.EOF`
with no byte, and a slice of length zero reads nothing and reports nothing. -/
def Reader.Read (rd : Reader) (n : Nat) : Bytes × Option GoError × Reader :=
  if n = 0 then ([], none, rd)
  else if rd.data.isEmpty then ([], some .EOF, rd)
  else (rd.data.take n, none, ⟨rd.data.drop n⟩)

/-- The struct `Buffer`. -/
structure Buffer where
  Buf : Bytes
  err : Option GoError
  runefailed : Bool
  rd : Reader
  start_pos : Nat
  end_pos : Nat
  cur_point : Nat
  last_rune_len : Nat
  bufstart : Nat
  deriving DecidableEq, Repr

/-- The function `newBuffer`. -/
def newBuffer (rd : Reader) (size : Nat) : Buffer :=
  { Buf := List.replicate size 0, err := none, runefailed := false, rd := rd,
    start_pos := 0, end_pos := 0, cur_point := 0, last_rune_len := 0, bufstart := 0 }

/-- The method `Buffer.fill`. -/
def Buffer.fill (b : Buffer) : Buffer :=
  let b :=
    if b.start_pos > 0 then
      { b with
        Buf := goCopy b.Buf (slice b.Buf b.start_pos b.end_pos)
        end_pos := b.end_pos - b.start_pos
        cur_point := b.cur_point - b.start_pos
        start_pos := 0 }
    else b
  let r := b.rd.Read (b.Buf.length - b.end_pos)
  let size := r.1.length
  { b with
    Buf := b.Buf.take b.end_pos ++ goCopy (b.Buf.drop b.end_pos) r.1
    rd := r.2.2
    err := r.2.1
    end_pos := if size > 0 then b.end_pos + size else b.end_pos }

/-- The method `Buffer.lastError`. -/
def Buffer.lastError (b : Buffer) : Option GoError :=
  if b.runefailed then b.err else none

/-- The method `Buffer.ignoreToken`. -/
def Buffer.ignoreToken (b : Buffer) : Buffer :=
  { b with bufstart := b.bufstart + (b.cur_point - b.start_pos), start_pos := b.cur_point }

/-- The method `Buffer.tokenValue`: the copy of the pending token, and the buffer
after `ignoreToken`. -/
def Buffer.tokenValue (b : Buffer) : Bytes × Buffer :=
  (slice b.Buf b.start_pos b.cur_point, b.ignoreToken)

/-- The method `Buffer.backup`. -/
def Buffer.backup (b : Buffer) : Buffer :=
  { b with cur_point := b.cur_point - b.last_rune_len, last_rune_len := 0 }

/-- The method `Buffer.next`. -/
def Buffer.next (b : Buffer) : Nat × Buffer :=
  let b := if b.end_pos - b.cur_point < 4 then b.fill else b
  let d := DecodeRune (slice b.Buf b.cur_point b.end_pos)
  let b := { b with last_rune_len := d.2 }
  let b :=
    if d.1 = RuneError then
      let b := { b with runefailed := true }
      if b.err = none then
        if (slice b.Buf b.cur_point b.end_pos).length > 4 then
          { b with err := some (.text (ascii "Unable to decode rune '"
              ++ fmtHex (slice b.Buf b.cur_point (b.cur_point + 4)) ++ ascii "'")) }
        else
          { b with err := some (.text (ascii "Unable to decode rune '"
              ++ fmtHex (slice b.Buf b.cur_point b.end_pos) ++ ascii "'")) }
      else b
    else b
  (d.1, { b with cur_point := b.cur_point + b.last_rune_len })

/-- The method `Buffer.peek`. -/
def Buffer.peek (b : Buffer) : Nat × Buffer :=
  let r := b.next
  (r.1, r.2.backup)

/-- The method `Buffer.acceptWhile`, `n` runes accepted so far; `none` when the
fuel runs out before the loop ends. -/
def Buffer.acceptWhile (test : Nat → Bool) : Nat → Nat → Buffer → Option (Nat × Buffer)
  | 0, _, _ => none
  | fuel + 1, n, b =>
    let r := b.next
    if test r.1 then Buffer.acceptWhile test fuel (n + 1) r.2
    else some (n, r.2.backup)

/-- The method `Buffer.ignoreWhile`, `n` runes ignored so far; `none` when the
fuel runs out before the loop ends. -/
def Buffer.ignoreWhile (test : Nat → Bool) : Nat → Nat → Buffer → Option (Nat × Buffer)
  | 0, _, _ => none
  | fuel + 1, n, b =>
    let r := b.next
    if test r.1 then Buffer.ignoreWhile test fuel (n + 1) r.2.ignoreToken
    else some (n, r.2.backup)

/-! ## generator/logs.go: the tokenizer -/

/-- The errors `ErrPrematuredEOF` of the package. -/
def ErrPrematuredEOF : GoError := .text (ascii "logparser : prematured end of file")

/-- The struct `LogLexer`. `file` is the name of the transcript file and
`Tokens` lists, in order, the tokens sent on the channel so far, under the
assumption that the consumer keeps receiving. -/
structure LogLexer where
  Nick : Bytes
  file : Bytes
  buf : Buffer
  Tokens : List Token
  curline : Nat
  last_line_start : Nat
  deriving DecidableEq, Repr

/-- The values of type `stateFn` that the package defines; the nil `stateFn` is
`none : Option StateFn`. -/
inductive StateFn where
  | lexDate
  | lexIgnoredLine
  | lexAction
  | lexNick
  | lexPrivmsg
  deriving DecidableEq, Repr

/-- What a call of a state function does: it returns the next state (nil is
`none`), or the fuel ran out inside one of its loops. -/
inductive Step where
  | next (state : Option StateFn) (l : LogLexer)
  | timeout (l : LogLexer)
  deriving DecidableEq, Repr

/-- The function `InitLogLexer` on a file that could be opened: `name` is its
path and `content` its bytes. -/
def InitLogLexer (name content nick : Bytes) : LogLexer :=
  { Nick := nick, file := name, buf := newBuffer ⟨content⟩ iosize, Tokens := [],
    curline := 1, last_line_start := 0 }

/-- The method `LogLexer.newline`. -/
def LogLexer.newline (l : LogLexer) : LogLexer :=
  { l with curline := l.curline + 1, last_line_start := l.buf.cur_point + l.buf.bufstart }

/-- The method `LogLexer.emit`. -/
def LogLexer.emit (l : LogLexer) (t : TokenType) : LogLexer :=
  let tok := l.buf.tokenValue
  { l with buf := tok.2, Tokens := l.Tokens ++ [⟨t, tok.1⟩] }

/-- The column that `errorf` prints. -/
def LogLexer.column (l : LogLexer) : Int :=
  ((l.buf.bufstart + (l.buf.cur_point - l.buf.start_pos) : Nat) : Int) - (l.last_line_start : Int)

/-- The method `LogLexer.errorf`: it sends the `Error` token and returns the nil
state. -/
def LogLexer.errorf (l : LogLexer) (err : Option GoError) : Option StateFn × LogLexer :=
  (none, { l with Tokens := l.Tokens ++ [⟨.TokError,
    fmtError err ++ ascii " at " ++ l.file ++ ascii ":" ++ fmtInt l.curline
      ++ ascii ":" ++ fmtInt l.column⟩] })

/-- The method `LogLexer.errorfEOF`. -/
def LogLexer.errorfEOF (l : LogLexer) (err : Option GoError) : Option StateFn × LogLexer :=
  match l.buf.lastError with
  | none => l.errorf err
  | some .EOF => l.errorf (some ErrPrematuredEOF)
  | some _ => l.errorf l.buf.err

/-- The method `LogLexer.errorfEOFValid`. Its last case panics when `l.buf.err` is
nil, which cannot be: `lastError` has just returned that very field, non-nil. -/
def LogLexer.errorfEOFValid (l : LogLexer) (err : Option GoError) : Option StateFn × LogLexer :=
  match l.buf.lastError with
  | none => l.errorf err
  | some .EOF => (none, l.emit .TokEOF)
  | some _ => l.errorf l.buf.err

/-- The test of `lexDate`: a digit. -/
def isDateRune (T : RangeTables) (r : Nat) : Bool := IsDigit T r

/-- The test of `lexIgnoredLine`: anything but a newline, U+FFFD included. -/
def notNewline (r : Nat) : Bool := decide (r ≠ 0x0A)

/-- The test of `lexNick`: a letter, a digit, `-`, `_`, a backtick or a caret. -/
def isNickRune (T : RangeTables) (r : Nat) : Bool :=
  IsLetter T r || IsDigit T r || r == 0x2D || r == 0x5F || r == 0x60 || r == 0x5E

/-- The first test of `lexPrivmsg`: white space other than the newline. -/
def isBlankRune (T : RangeTables) (r : Nat) : Bool := IsSpace T r && decide (r ≠ 0x0A)

/-- The second test of `lexPrivmsg`: neither U+FFFD nor white space. -/
def isWordRune (T : RangeTables) (r : Nat) : Bool := decide (r ≠ RuneError) && !IsSpace T r

/-- One round of the loop of `lexDate`, for the index `i`. -/
def lexDateGroup (T : RangeTables) (fuel : Nat) (i : Nat) (l : LogLexer) : Option LogLexer :=
  match l.buf.acceptWhile (isDateRune T) fuel 0 with
  | none => none
  | some (n, b) =>
    let l := { l with buf := b }
    let l :=
      if n ≠ 2 then
        let p := l.buf.peek
        let l := { l with buf := p.2 }
        (l.errorfEOFValid (some (.text (ascii "Invalid date format, got " ++ EncodeRune p.1
          ++ ascii " expected DIGIT")))).2
      else l
    let l :=
      if i ≠ 2 then
        let r : Nat × Buffer := l.buf.next
        let l := { l with buf := r.2 }
        if r.1 ≠ 0x3A then
          (l.errorfEOF (some (.text (ascii "Invalid date format, got " ++ EncodeRune r.1
            ++ ascii " expected \":\"")))).2
        else l
      else l
    some { l with buf := l.buf.ignoreToken }

/-- The state function `lexDate`. -/
def lexDate (T : RangeTables) (fuel : Nat) (l : LogLexer) : Step :=
  match lexDateGroup T fuel 0 l with
  | none => .timeout l
  | some l0 =>
  match lexDateGroup T fuel 1 l0 with
  | none => .timeout l0
  | some l1 =>
  match lexDateGroup T fuel 2 l1 with
  | none => .timeout l1
  | some l =>
    let r := l.buf.next
    let l := { l with buf := r.2 }
    if IsSpace T r.1 then
      let r2 := l.buf.peek
      let l := { l with buf := r2.2 }
      if IsSpace T r2.1 then .next (some .lexIgnoredLine) l
      else if r2.1 = 0x2A then .next (some .lexAction) l
      else
        let e := l.errorfEOF (some (.text (ascii "Invalid char, got " ++ EncodeRune r2.1
          ++ ascii " expected \"*\" or SPACE")))
        .next e.1 e.2
    else if r.1 = 0x3C then .next (some .lexNick) l
    else if r.1 = 0x21 then .next (some .lexIgnoredLine) l
    else
      let e := l.errorfEOF (some (.text (ascii "Invalid char, got " ++ EncodeRune r.1
        ++ ascii " expected \"<\" or SPACE")))
      .next e.1 e.2

/-- The state function `lexIgnoredLine`. -/
def lexIgnoredLine (fuel : Nat) (l : LogLexer) : Step :=
  match l.buf.ignoreWhile notNewline fuel 0 with
  | none => .timeout l
  | some (_, b) =>
    let l := { l with buf := b }
    let l := { l with buf := l.buf.next.2 }
    let l := if l.buf.runefailed then (l.errorfEOFValid none).2 else l
    let l := l.newline
    .next (some .lexDate) l

/-- The state function `lexAction`. -/
def lexAction (l : LogLexer) : Step :=
  .next (some .lexIgnoredLine) l

/-- The state function `lexNick`. -/
def lexNick (T : RangeTables) (fuel : Nat) (l : LogLexer) : Step :=
  let r := l.buf.next
  let l := { l with buf := r.2 }
  let l :=
    if r.1 = 0x3E then
      (l.errorfEOF (some (.text (ascii "Invalid nick, got " ++ EncodeRune r.1
        ++ ascii " expected \" \", \"+\", \"@\"")))).2
    else l
  let l := { l with buf := l.buf.ignoreToken }
  match l.buf.acceptWhile (isNickRune T) fuel 0 with
  | none => .timeout l
  | some (n, b) =>
    let l := { l with buf := b }
    let l := if l.buf.runefailed then (l.errorfEOF none).2 else l
    let nick := l.buf.tokenValue
    let l := { l with buf := nick.2 }
    let l :=
      if n < 1 then
        (l.errorfEOF (some (.text (ascii "Invalid nick, too short : " ++ nick.1)))).2
      else l
    let r := l.buf.next
    let l := { l with buf := r.2 }
    let l :=
      if r.1 ≠ 0x3E then
        (l.errorfEOF (some (.text (ascii "Invalid nick, got " ++ EncodeRune r.1
          ++ ascii " expected '>'")))).2
      else l
    let l := { l with buf := l.buf.ignoreToken }
    if nick.1 = l.Nick then .next (some .lexPrivmsg) l else .next (some .lexIgnoredLine) l

/-- The loop of the state function `lexPrivmsg`, `rounds` rounds of it at most. -/
def lexPrivmsgLoop (T : RangeTables) (fuel : Nat) : Nat → LogLexer → Step
  | 0, l => .timeout l
  | rounds + 1, l =>
    match l.buf.ignoreWhile (isBlankRune T) fuel 0 with
    | none => .timeout l
    | some (_, b) =>
      let l := { l with buf := b }
      match l.buf.acceptWhile (isWordRune T) fuel 0 with
      | none => .timeout l
      | some (n, b) =>
        let l := { l with buf := b }
        let l := if n > 0 then l.emit .TokWord else l
        let r := l.buf.peek
        let l := { l with buf := r.2 }
        if r.1 = 0x0A then
          let l := l.emit .TokEOL
          let l := { l with buf := l.buf.next.2 }
          let l := { l with buf := l.buf.ignoreToken }
          let l := l.newline
          .next (some .lexDate) l
        else if r.1 = RuneError then
          lexPrivmsgLoop T fuel rounds (l.errorfEOFValid none).2
        else lexPrivmsgLoop T fuel rounds l

/-- The state function `lexPrivmsg`. -/
def lexPrivmsg (T : RangeTables) (fuel : Nat) (l : LogLexer) : Step :=
  lexPrivmsgLoop T fuel fuel l

/-- The call `state(l)` of a state function. -/
def StateFn.call (T : RangeTables) (fuel : Nat) (state : StateFn) (l : LogLexer) : Step :=
  match state with
  | .lexDate => MarkovBot.lexDate T fuel l
  | .lexIgnoredLine => MarkovBot.lexIgnoredLine fuel l
  | .lexAction => MarkovBot.lexAction l
  | .lexNick => MarkovBot.lexNick T fuel l
  | .lexPrivmsg => MarkovBot.lexPrivmsg T fuel l

/-- The loop of `LogLexer.Run`, `steps` state calls at most: the lexer as the loop
leaves it and whether the loop ended, that is, reached the nil state, after
which `Run` closes the channel. -/
def runLoop (T : RangeTables) (fuel : Nat) : Nat → StateFn → LogLexer → LogLexer × Bool
  | 0, _, l => (l, false)
  | steps + 1, state, l =>
    match state.call T fuel l with
    | .timeout l1 => (l1, false)
    | .next none l1 => (l1, true)
    | .next (some state1) l1 => runLoop T fuel steps state1 l1

/-- The method `LogLexer.Run` with `fuel` for each of its loops: the tokens sent,
and whether the channel was closed. -/
def LogLexer.Run (T : RangeTables) (fuel : Nat) (l : LogLexer) : Chan :=
  let r := runLoop T fuel fuel .lexDate l
  ⟨r.1.Tokens, r.2⟩

/-! ## Creating a model: `CreateMarkovChain` and `NewSubGenerator` -/

/-- The store files on disk, by path. -/
abbrev Disk := Bytes → Option DB

/-- The transcript files on disk, by path. -/
abbrev Logs := Bytes → Option Bytes

/-- The function `kv.Create`: it makes a new, empty store file and refuses a path
that exists. The wording of its error is the library's. -/
def kvCreate (disk : Disk) (dbpath : Bytes) : Except GoError (DB × Disk) :=
  match disk dbpath with
  | some _ => .error (.text (ascii "file exists"))
  | none => .ok (DB.empty, fun p => if p = dbpath then some DB.empty else disk p)

/-- The function `kv.Open`: it opens a store file that exists. The wording of
its error is the library's. -/
def kvOpen (disk : Disk) (dbpath : Bytes) : Except GoError DB :=
  match disk dbpath with
  | some db => .ok db
  | none => .error (.text (ascii "no such file or directory"))

/-- The `*MarkovChain` that `CreateMarkovChain` returns: `CorpusDB` is `none` when
the pointer is nil or the store has been closed. -/
structure ChainRef where
  prefixLen : Nat
  CorpusDB : Option DB

/-- What `CreateMarkovChain` returns, and the store files it leaves on disk. -/
structure Created where
  mc : ChainRef
  err : Option GoError
  disk : Disk

/-- The function `CreateMarkovChain`. `getchan` is what the call `getchan()` yields.
The store is written through to its file, so after `PopulateCorpus` the file
holds what the store holds. -/
def CreateMarkovChain (prefixlen : Nat) (dbpath : Bytes) (create : Bool)
    (getchan : Except GoError Chan) (disk : Disk) : Outcome Created :=
  if create then
    match kvCreate disk dbpath with
    | .error _ =>
      match kvOpen disk dbpath with
      | .error conerr =>
        .ret ⟨⟨prefixlen, none⟩, some (.text (ascii "cannot create new database " ++ dbpath
          ++ ascii " : " ++ conerr.Error)), disk⟩
      | .ok db => .ret ⟨⟨prefixlen, some db⟩, none, disk⟩
    | .ok (db, disk1) =>
      match getchan with
      | .error _ =>
        .ret ⟨⟨prefixlen, none⟩, none, fun p => if p = dbpath then none else disk1 p⟩
      | .ok c =>
        match (MarkovChain.mk prefixlen db).PopulateCorpus c with
        | (mc, .ret _) =>
          .ret ⟨⟨prefixlen, some mc.CorpusDB⟩, none,
            fun p => if p = dbpath then some mc.CorpusDB else disk1 p⟩
        | (_, .panic) => .panic
        | (_, .blocked) => .blocked
  else
    match kvOpen disk dbpath with
    | .error conerr =>
      .ret ⟨⟨prefixlen, none⟩, some (.text (ascii "cannot open database " ++ dbpath
        ++ ascii " : " ++ conerr.Error)), disk⟩
    | .ok db => .ret ⟨⟨prefixlen, some db⟩, none, disk⟩

/-- The function `getLexChan`, called: the transcript is opened and the tokenizer
started; the channel carries what `Run` sends. -/
def getLexChan (T : RangeTables) (fuel : Nat) (logs : Logs) (path nick : Bytes) :
    Except GoError Chan :=
  match logs path with
  | none => .error (.text (ascii "cannot open file " ++ path ++ ascii " for lexing : "
      ++ ascii "no such file or directory"))
  | some content => .ok ((InitLogLexer path content nick).Run T fuel)

/-- The function `validateNick`. -/
def validateNick (nick : Bytes) : Option GoError :=
  let err : Option Bytes :=
    if nick.length = 0 then some (ascii "is empty")
    else if 32 ∈ nick then some (ascii "contains invalid char" ++ ascii " ' '")
    else none
  match err with
  | some e => some (.text (ascii "nick is invalid because it " ++ e))
  | none => none

/-- The struct `Generator`. -/
structure Generator where
  all : Bytes → Option ChainRef
  dbpath : Bytes
  Current : Option ChainRef

/-- The function `generatorError`. -/
def generatorError (name : Bytes) (err : Bytes) : GoError :=
  .text (ascii "generator: <" ++ name ++ ascii "> " ++ err)

/-- The method `Generator.NewSubGenerator`: the error returned, the generator and
the store files afterwards. -/
def Generator.NewSubGenerator (T : RangeTables) (fuel : Nat) (g : Generator) (logs : Logs)
    (disk : Disk) (name nick logpath : Bytes) (prefixlen : Nat) (create : Bool) :
    Outcome (Option GoError × Generator × Disk) :=
  let errfmt := fun (e : Bytes) => ascii "cannot be added with nick " ++ nick ++ ascii " : " ++ e
  if name.length = 0 then
    .ret (some (generatorError name (errfmt (ascii "name is invalid because it is empty"))), g, disk)
  else if (g.all name).isSome then
    .ret (some (generatorError name (errfmt (ascii "already exists"))), g, disk)
  else
    match validateNick nick with
    | some err => .ret (some (generatorError name (errfmt err.Error)), g, disk)
    | none =>
      let path := g.dbpath ++ name
      match CreateMarkovChain prefixlen path create (getLexChan T fuel logs logpath nick) disk with
      | .panic => .panic
      | .blocked => .blocked
      | .ret r =>
        match r.err with
        | some err => .ret (some (generatorError name (errfmt err.Error)), g, r.disk)
        | none =>
          .ret (none, { g with all := fun n => if n = name then some r.mc else g.all n }, r.disk)

/-- Training a new model on a transcript, as `CreateMarkovChain` does it: the
tokenizer runs on the file and `PopulateCorpus` consumes its tokens. -/
def train (T : RangeTables) (fuel : Nat) (mc : MarkovChain) (name content nick : Bytes) :
    MarkovChain × Outcome (Option GoError) :=
  mc.PopulateCorpus ((InitLogLexer name content nick).Run T fuel)

/-! ## Reference model of the corpus (from the words of the specification) -/

/-- Reference model, window: the last `N` of the words `since`, left-padded with
empty words; `since` are the Words since the start or the most recent
`EndOfLine`. -/
def specWindow (N : Nat) (since : List Bytes) : Prefix :=
  (List.replicate N [] ++ since).drop since.length

/-- Reference model, hits: in stream order, each Word of the token sequence with
the window that precedes it. `since` are the Words of the current line read
before the sequence starts. -/
def specHits (N : Nat) : List Bytes → List Token → List (Prefix × Bytes)
  | _, [] => []
  | since, t :: ts =>
    match t.Typ with
    | .TokWord => (specWindow N since, t.Value) :: specHits N (since ++ [t.Value]) ts
    | .TokEOL => specHits N [] ts
    | _ => specHits N since ts

/-- Reference model, serialisation: the words separated by single spaces. -/
def specJoin (ws : List Bytes) : Bytes := List.intercalate [32] ws

/-- Reference model, the words recorded for the key `k`: every Word whose
preceding window serialises to `k`, in stream order. -/
def specContinuations (N : Nat) (ts : List Token) (k : Bytes) : List Bytes :=
  ((specHits N [] ts).filter fun h => decide (specJoin h.1 = k)).map fun h => h.2

/-- Reference model, the final store: a key that is never hit keeps what it
had; a key that is hit holds its initial value (nothing when absent) extended,
space-separated, by its continuations. -/
def specStore (N : Nat) (init : DB) (ts : List Token) : DB := fun k =>
  match specContinuations N ts k with
  | [] => init k
  | w :: ws => some (specJoin ((init k).toList ++ w :: ws))

/-- Reference model, the contents fit the store: every key that is hit, and the
value that the reference model holds under it in the end, is at most
`kvMaxContent` bytes long. -/
def specFits (N : Nat) (init : DB) (ts : List Token) : Prop :=
  ∀ h ∈ specHits N [] ts, (specJoin h.1).length ≤ kvMaxContent ∧
    ((specStore N init ts (specJoin h.1)).getD []).length ≤ kvMaxContent

/-- One write of `PopulateCorpus`: the store after `Put` with `suffixUpdater`. -/
def putWord (db : DB) (key word : Bytes) : DB := fun k =>
  if k = key then
    some (match db key with
      | none => word
      | some old => old ++ [32] ++ word)
  else db k

/-- The store after the writes for a list of hits, in order. -/
def applyHits (db : DB) : List (Prefix × Bytes) → DB
  | [] => db
  | h :: hs => applyHits (putWord db h.1.bytes h.2) hs

/-- A word as the tokenizer makes them: not empty, and without a space byte. -/
def GoodWord (w : Bytes) : Prop := w ≠ [] ∧ 32 ∉ w

/-- Every value of the store is the space-join of a non-empty list of good words. -/
def GoodDB (db : DB) : Prop :=
  ∀ k v, db k = some v → ∃ ws : List Bytes, ws ≠ [] ∧ (∀ w ∈ ws, GoodWord w) ∧ v = bytesJoin ws [32]

instance (w : Bytes) : Decidable (GoodWord w) :=
  inferInstanceAs (Decidable (w ≠ [] ∧ 32 ∉ w))

/-- A valid walk over the store `db` with windows of `N` words: each word is an
entry of the value stored under the key of the window that precedes it. -/
def ValidWalk (N : Nat) (db : DB) (words : List Bytes) : Prop :=
  ∀ (i : Nat) (hi : i < words.length),
    ∃ v, db (specWindow N (words.take i)).bytes = some v ∧ words.get ⟨i, hi⟩ ∈ bytesSplit v 32

/-! ## Transcripts and the tokenizer's view of its buffer -/

/-- Whether `bs` is a sequence of whole UTF-8 runes, none of them U+FFFD, each of
which satisfies `p`; `n` bounds the number of runes. -/
def runesAll (p : Nat → Bool) : Nat → Bytes → Bool
  | _, [] => true
  | 0, _ :: _ => false
  | n + 1, b :: bs =>
    let d := DecodeRune (b :: bs)
    decide (d.1 ≠ RuneError) && p d.1 && runesAll p n ((b :: bs).drop d.2)

/-- The bytes `bs` are a run of runes that satisfy `p`. -/
def RuneRun (p : Nat → Bool) (bs : Bytes) : Prop := runesAll p bs.length bs = true

instance (p : Nat → Bool) (bs : Bytes) : Decidable (RuneRun p bs) :=
  inferInstanceAs (Decidable (runesAll p bs.length bs = true))

/-- The layout of the window: the array is `pre ++ pend ++ win ++ post`, with
`start_pos` after `pre`, `cur_point` after `pend` (the pending token) and
`end_pos` after `win` (the bytes read ahead). -/
def Layout (b : Buffer) (pre pend win post : Bytes) : Prop :=
  b.Buf = pre ++ (pend ++ (win ++ post)) ∧ b.Buf.length = iosize ∧
  b.start_pos = pre.length ∧ b.cur_point = pre.length + pend.length ∧
  b.end_pos = pre.length + pend.length + win.length

/-- The buffer holds the pending token `pend` and the input from the read point
on is `rest` (the bytes read ahead, then what the file still holds). -/
def Win (b : Buffer) (pend rest : Bytes) : Prop :=
  ∃ pre win post, Layout b pre pend win post ∧ win ++ b.rd.data = rest

/-- A buffer in `Win` on which no decoding has failed yet. -/
def View (b : Buffer) (pend rest : Bytes) : Prop :=
  b.runefailed = false ∧ Win b pend rest

/-- A buffer whose input is exhausted and on which `next` has reported it. -/
def AtEOF (b : Buffer) (pend : Bytes) : Prop :=
  b.runefailed = true ∧ b.err = some .EOF ∧ b.last_rune_len = 0 ∧ Win b pend []

/-- The first half of `Buffer.fill`: the shift of the data to the start of the
array. -/
def Buffer.shift (b : Buffer) : Buffer :=
  if b.start_pos > 0 then
    { b with
      Buf := goCopy b.Buf (slice b.Buf b.start_pos b.end_pos)
      end_pos := b.end_pos - b.start_pos
      cur_point := b.cur_point - b.start_pos
      start_pos := 0 }
  else b

/-- The second half of `Buffer.fill`: the read from the underlying reader. -/
def Buffer.readMore (b : Buffer) : Buffer :=
  let r := b.rd.Read (b.Buf.length - b.end_pos)
  let size := r.1.length
  { b with
    Buf := b.Buf.take b.end_pos ++ goCopy (b.Buf.drop b.end_pos) r.1
    rd := r.2.2
    err := r.2.1
    end_pos := if size > 0 then b.end_pos + size else b.end_pos }

/-- The first step of `Buffer.next`: the window is refilled when fewer than four
bytes are ahead. -/
def Buffer.refill (b : Buffer) : Buffer :=
  if b.end_pos - b.cur_point < 4 then b.fill else b

/-- The rest of `Buffer.next`: the rune at the read point is decoded and the read
point moves past it. -/
def Buffer.decode (b : Buffer) : Nat × Buffer :=
  let d := DecodeRune (slice b.Buf b.cur_point b.end_pos)
  let b := { b with last_rune_len := d.2 }
  let b :=
    if d.1 = RuneError then
      let b := { b with runefailed := true }
      if b.err = none then
        if (slice b.Buf b.cur_point b.end_pos).length > 4 then
          { b with err := some (.text (ascii "Unable to decode rune '"
              ++ fmtHex (slice b.Buf b.cur_point (b.cur_point + 4)) ++ ascii "'")) }
        else
          { b with err := some (.text (ascii "Unable to decode rune '"
              ++ fmtHex (slice b.Buf b.cur_point b.end_pos) ++ ascii "'")) }
      else b
    else b
  (d.1, { b with cur_point := b.cur_point + b.last_rune_len })

/-- The number of runes of a run (see `runesAll`). -/
def runeCount : Nat → Bytes → Nat
  | _, [] => 0
  | 0, _ :: _ => 0
  | n + 1, b :: bs => 1 + runeCount n ((b :: bs).drop (DecodeRune (b :: bs)).2)

/-- An ASCII digit. -/
def isAsciiDigit (c : Nat) : Bool := decide (0x30 ≤ c) && decide (c ≤ 0x39)

/-- A timestamp `HH:MM:SS` of ASCII digits. -/
def isStamp (s : Bytes) : Bool :=
  match s with
  | [a, b, c1, c, d, c2, e, f] =>
    isAsciiDigit a && isAsciiDigit b && c1 == 0x3A && isAsciiDigit c && isAsciiDigit d
      && c2 == 0x3A && isAsciiDigit e && isAsciiDigit f
  | _ => false

/-- A line of a transcript, without its newline, in the format that `lexDate`
and `lexNick` accept: a timestamp, then a space and a text that starts with a
space or `*` (`system`), or `!` and a text (`bang`), or `<`, one status rune,
a nick, `>` and the message: blanks (`lead`), then words, each followed by
its blanks (`privmsg`). -/
inductive Line where
  | system (stamp text : Bytes)
  | bang (stamp text : Bytes)
  | privmsg (stamp status nick lead : Bytes) (words : List (Bytes × Bytes))

/-- The message of a `privmsg` line. -/
def messageBytes (lead : Bytes) (words : List (Bytes × Bytes)) : Bytes :=
  lead ++ words.flatMap fun ws => ws.1 ++ ws.2

/-- The bytes of a line, without its newline. -/
def Line.bytes : Line → Bytes
  | .system stamp text => stamp ++ 0x20 :: text
  | .bang stamp text => stamp ++ 0x21 :: text
  | .privmsg stamp status nick lead words =>
    stamp ++ 0x3C :: (status ++ (nick ++ 0x3E :: messageBytes lead words))

/-- A transcript whose lines all end with a newline. -/
def transcript (lines : List Line) : Bytes :=
  lines.flatMap fun ln => ln.bytes ++ [0x0A]

/-- A word the window can hold: a non-empty run of runes that are neither white
space nor U+FFFD, at most `iosize - 4` bytes long. -/
def wordOK (T : RangeTables) (w : Bytes) : Bool :=
  !w.isEmpty && runesAll (isWordRune T) w.length w && decide (w.length + 4 ≤ iosize)

/-- The words of a message, each with the blanks that follow it: the blanks are
a run of white space without newline, not empty between two words. -/
def wordsOK (T : RangeTables) : List (Bytes × Bytes) → Bool
  | [] => true
  | [ws] => wordOK T ws.1 && runesAll (isBlankRune T) ws.2.length ws.2
  | ws :: rest =>
    wordOK T ws.1 && runesAll (isBlankRune T) ws.2.length ws.2 && !ws.2.isEmpty && wordsOK T rest

/-- A status: one whole rune other than `>`, newline and U+FFFD. -/
def statusOK (status : Bytes) : Bool :=
  decide ((DecodeRune status).1 ≠ RuneError) && decide ((DecodeRune status).2 = status.length)
    && decide ((DecodeRune status).1 ≠ 0x3E) && decide ((DecodeRune status).1 ≠ 0x0A)

/-- A well-formed line: the text of a skipped line is made of whole runes, none
of them U+FFFD or a newline; the nick is a non-empty run of nick runes of at
most `iosize - 4` bytes; the message is made of blanks and words. -/
def Line.wf (T : RangeTables) : Line → Bool
  | .system stamp text =>
    isStamp stamp && runesAll notNewline text.length text
      && (IsSpace T (DecodeRune (text ++ [0x0A])).1 || (DecodeRune (text ++ [0x0A])).1 == 0x2A)
  | .bang stamp text => isStamp stamp && runesAll notNewline text.length text
  | .privmsg stamp status nick lead words =>
    isStamp stamp && statusOK status && !nick.isEmpty
      && runesAll (isNickRune T) nick.length nick && decide (nick.length + 4 ≤ iosize)
      && runesAll (isBlankRune T) lead.length lead && wordsOK T words

/-- The tokens of a line for the speaker `nick`: the words of a message of the
speaker and one `EndOfLine`; nothing for any other line. -/
def Line.tokens (nick : Bytes) : Line → List Token
  | .privmsg _ _ n _ words =>
    if n = nick then words.map (fun ws => ⟨.TokWord, ws.1⟩) ++ [⟨.TokEOL, []⟩] else []
  | _ => []

/-- The end of a round of the loop of `lexPrivmsg`, from the `peek` on: a newline
ends the line, the end of the input is reported, anything else starts the
next round. -/
def lexPrivmsgTail (T : RangeTables) (fuel rounds : Nat) (l : LogLexer) : Step :=
  let r := l.buf.peek
  let l := { l with buf := r.2 }
  if r.1 = 0x0A then
    let l := l.emit .TokEOL
    let l := { l with buf := l.buf.next.2 }
    let l := { l with buf := l.buf.ignoreToken }
    let l := l.newline
    .next (some .lexDate) l
  else if r.1 = RuneError then
    lexPrivmsgLoop T fuel rounds (l.errorfEOFValid none).2
  else lexPrivmsgLoop T fuel rounds l

/-- The tokenizer is at the start of a line and `rest` is the input from there
on: nothing has failed, and the pending token holds at most the last two
bytes of the line before. -/
def LineStart (l : LogLexer) (rest : Bytes) : Prop :=
  ∃ pend, View l.buf pend rest ∧ pend.length ≤ 2

/-- The next state of a step, nil (`none`) also when the fuel ran out. -/
def Step.state : Step → Option StateFn
  | .next s _ => s
  | .timeout _ => none

/-- The tokens sent when a step ends. -/
def Step.tokens : Step → List Token
  | .next _ l => l.Tokens
  | .timeout l => l.Tokens

/-- What a call returned, if it returned. -/
def Outcome.get? {α : Type} : Outcome α → Option α
  | .ret a => some a
  | _ => none

/-! ## The loops of `markov.go`, instrumented -/

/-- The loop of `Generate` with its calls of `CorpusDB.Get` counted: `reads` calls
have been made so far; the result is the count when the loop ends, and the
outcome of the loop. -/
def generateLoopReads (db : DB) (draws : Nat → Nat) :
    Nat → Nat → Prefix → List Bytes → Nat → Nat × Outcome (Except GoError (List Bytes))
  | 0, _, _, words, reads => (reads, .ret (.ok words))
  | n + 1, k, pfx, words, reads =>
    match db.Get pfx.bytes with
    | .error err => (reads + 1, .ret (.error err))
    | .ok suffixes =>
      let suf := createSuffix suffixes
      match suf.pick (draws k) with
      | none => (reads + 1, .panic)
      | some word =>
        if word.length = 0 then (reads + 1, .ret (.ok words))
        else
          match pfx.buildNext word with
          | none => (reads + 1, .panic)
          | some pfx1 => generateLoopReads db draws n (k + 1) pfx1 (words ++ [word]) (reads + 1)

/-- The number of calls of `CorpusDB.Get` that `Generate` makes. -/
def MarkovChain.generateReads (mc : MarkovChain) (maxsize : Int) (draws : Nat → Nat) : Nat :=
  (generateLoopReads mc.CorpusDB draws maxsize.toNat 0 (makePrefix mc.prefixLen) [] 0).1

/-- The values that the variable `prefix` of `Generate` takes: its value at the
start of the loop and after each `buildNext`. -/
def generatePrefixes (db : DB) (draws : Nat → Nat) : Nat → Nat → Prefix → List Prefix
  | 0, _, pfx => [pfx]
  | n + 1, k, pfx =>
    pfx ::
      match db.Get pfx.bytes with
      | .error _ => []
      | .ok suffixes =>
        match (createSuffix suffixes).pick (draws k) with
        | none => []
        | some word =>
          if word.length = 0 then []
          else
            match pfx.buildNext word with
            | none => []
            | some pfx1 => generatePrefixes db draws n (k + 1) pfx1

/-- The values that the variable `pfix` of `PopulateCorpus` takes: its value at
each receive, from the first one on. -/
def populatePrefixes (plen : Nat) : List Token → Prefix → DB → List Prefix
  | [], pfix, _ => [pfix]
  | token :: c, pfix, db =>
    pfix ::
      match token.Typ with
      | .TokWord =>
        match db.Put pfix.bytes (suffixUpdater token.Value) with
        | .error _ => []
        | .ok db1 =>
          match pfix.buildNext token.Value with
          | none => []
          | some pfix1 => populatePrefixes plen c pfix1 db1
      | .TokError => []
      | .TokEOF => []
      | .TokEOL => populatePrefixes plen c (makePrefix plen) db

/-- The value of a key after `suffixUpdater` has been applied to it for each word
of `ws` in turn, from the value `old` (`none` is the nil of an absent key). -/
def recordWords (key : Bytes) (ws : List Bytes) (old : Option Bytes) : Option Bytes :=
  ws.foldl (fun o w => some (suffixUpdater w key o).1) old

/-- The number of the indices that `rand.Intn(len(s))` can return at which the
suffix `s` holds the word `w`. -/
def pickWeight (s : Suffix) (w : Bytes) : Nat :=
  ((List.range s.length).filter fun i => decide (s.pick i = some w)).length

/-! ## The states of the buffer that the tokenizer reaches -/

/-- The lexer as a step leaves it. -/
def Step.lexer : Step → LogLexer
  | .next _ l => l
  | .timeout l => l

/-- The states of the buffer that the tokenizer can reach on a file that holds
`content`. The tokenizer works on the buffer of `InitLogLexer` through `next`,
`peek`, `ignoreToken`, `tokenValue` (which leaves the buffer as `ignoreToken`
does), `acceptWhile` and `ignoreWhile`; the two loops are made of calls of
`next` and `ignoreToken` and end with a `next` that `backup` follows at once,
as in `peek`. `shift` and `fill` are the states inside `next` when the window is
refilled: after the data has been moved to the start of the array, and after
the read. -/
inductive Reach (content : Bytes) : Buffer → Prop
  | init : Reach content (newBuffer ⟨content⟩ iosize)
  | shift (b : Buffer) : Reach content b → b.end_pos - b.cur_point < 4 → Reach content b.shift
  | fill (b : Buffer) : Reach content b → b.end_pos - b.cur_point < 4 → Reach content b.fill
  | next (b : Buffer) : Reach content b → Reach content b.next.2
  | peek (b : Buffer) : Reach content b → Reach content b.peek.2
  | ignoreToken (b : Buffer) : Reach content b → Reach content b.ignoreToken

/-- The positions of the buffer are in order and inside the array: the slices
`Buf[start_pos:end_pos]` and `Buf[end_pos:]` of `fill`, `Buf[cur_point:end_pos]`
of `next` and `Buf[start_pos:cur_point]` of `tokenValue` are in range, and the
length `cur_point - start_pos` that `tokenValue` allocates is not negative. -/
def Buffer.PosOK (b : Buffer) : Prop :=
  b.start_pos ≤ b.cur_point ∧ b.cur_point ≤ b.end_pos ∧ b.end_pos ≤ b.Buf.length

/-- The field `bufstart` is the offset in the file of the byte at `start_pos`: from
that offset on, the file holds the bytes of the window from `start_pos` to
`end_pos` and then what the reader has not delivered yet. -/
def Buffer.OffsetOK (content : Bytes) (b : Buffer) : Prop :=
  b.bufstart ≤ content.length ∧
  content.drop b.bufstart = slice b.Buf b.start_pos b.end_pos ++ b.rd.data

/-! ## The runes of a stream -/

/-- The runes that `k` successive calls of `Buffer.next` return when the pending
token is discarded (`ignoreToken`) after each call. -/
def Buffer.runes : Nat → Buffer → List Nat
  | 0, _ => []
  | k + 1, b => b.next.1 :: Buffer.runes k b.next.2.ignoreToken

/-- Reference model: the first `k` runes of a stream of bytes, decoded one after
the other; once the stream is exhausted the rune is U+FFFD. -/
def decodeStream : Nat → Bytes → List Nat
  | 0, _ => []
  | k + 1, s => (DecodeRune s).1 :: decodeStream k (s.drop (DecodeRune s).2)

/-- The code points of a sequence of whole runes, `n` of them at most. -/
def codePoints : Nat → Bytes → List Nat
  | _, [] => []
  | 0, _ :: _ => []
  | n + 1, b :: bs =>
    (DecodeRune (b :: bs)).1 :: codePoints n ((b :: bs).drop (DecodeRune (b :: bs)).2)

/-- A buffer with a window of `size` bytes and no pending token: the array is
`pre ++ win ++ post` with `start_pos` and `cur_point` after `pre` and `end_pos`
after `win`, and the input from the read point on is `rest`. -/
def Fresh (size : Nat) (b : Buffer) (rest : Bytes) : Prop :=
  ∃ pre win post, b.Buf = pre ++ (win ++ post) ∧ b.Buf.length = size ∧
    b.start_pos = pre.length ∧ b.cur_point = pre.length ∧
    b.end_pos = pre.length + win.length ∧ win ++ b.rd.data = rest

/-! ## Digit groups of a timestamp -/

/-- A group of exactly `k` digits: `k` whole runes that `unicode.IsDigit` accepts. -/
def isDigitGroup (T : RangeTables) (k : Nat) (g : Bytes) : Bool :=
  runesAll (isDateRune T) k g && (runeCount k g == k)

/-- The rune that starts the bytes `s`, U+FFFD when there is none. -/
def firstRune (s : Bytes) : Nat := (DecodeRune s).1

/-- The bytes `s` without the rune that starts them. -/
def afterRune (s : Bytes) : Bytes := s.drop (DecodeRune s).2

/-! ## Theorems -/

/-! ### The corpus engine -/

theorem buildNext_eq (p : Prefix) (w : Bytes) (hp : p ≠ []) :
    p.buildNext w = some (p.drop 1 ++ [w]) := by
  cases p with
  | nil => exact absurd rfl hp
  | cons a t =>
    simp only [Prefix.buildNext, goCopy, List.drop_succ_cons, List.drop_zero, List.length_cons,
      Nat.add_one_ne_zero, if_false, Nat.add_sub_cancel]
    congr 1
    rw [List.take_of_length_le (by omega)]
    rw [List.set_append_right _ _ (le_refl _)]
    simp only [Nat.sub_self]
    have : (List.drop t.length (a :: t)).length = 1 := by simp
    match h : List.drop t.length (a :: t), this with
    | [x], _ => simp

theorem specWindow_length (N : Nat) (since : List Bytes) : (specWindow N since).length = N := by
  simp [specWindow]

theorem specWindow_nil (N : Nat) : specWindow N [] = makePrefix N := by
  simp [specWindow, makePrefix]

theorem specWindow_step (N : Nat) (hN : 1 ≤ N) (since : List Bytes) (w : Bytes) :
    (specWindow N since).drop 1 ++ [w] = specWindow N (since ++ [w]) := by
  simp only [specWindow, List.drop_drop, List.length_append, List.length_singleton]
  have key : List.drop (since.length + 1) ((List.replicate N [] ++ since) ++ [w])
      = List.drop (since.length + 1) (List.replicate N [] ++ since) ++ [w] :=
    List.drop_append_of_le_length
      (by simp only [List.length_append, List.length_replicate]; omega)
  rw [← List.append_assoc]
  exact key.symm

theorem buildNext_specWindow (N : Nat) (hN : 1 ≤ N) (since : List Bytes) (w : Bytes) :
    (specWindow N since).buildNext w = some (specWindow N (since ++ [w])) := by
  rw [buildNext_eq, specWindow_step N hN]
  intro h
  have := specWindow_length N since
  rw [h] at this
  simp at this
  omega

/-- The value that `suffixUpdater` makes of the old value of a key. -/
theorem putWord_self (db : DB) (key word : Bytes) :
    putWord db key word key
      = some (match db key with
        | none => word
        | some old => old ++ [32] ++ word) := by
  simp [putWord]

/-- A write of `PopulateCorpus` that the store accepts. -/
theorem Put_suffixUpdater (db : DB) (key word : Bytes) (hk : key.length ≤ kvMaxContent)
    (hv : ((putWord db key word key).getD []).length ≤ kvMaxContent) :
    db.Put key (suffixUpdater word) = .ok (putWord db key word) := by
  rw [putWord_self] at hv
  have hk' : ¬ kvMaxContent < key.length := by omega
  unfold DB.Put suffixUpdater putWord
  cases h : db key with
  | none =>
    rw [h] at hv
    simp only [Option.getD_some] at hv
    have hv' : ¬ kvMaxContent < word.length := by omega
    simp [hk', hv']
  | some old =>
    rw [h] at hv
    simp only [Option.getD_some, List.length_append, List.length_singleton] at hv
    have hv' : ¬ kvMaxContent < old.length + (word.length + 1) := by omega
    simp [hk', hv']

/-- A write of `PopulateCorpus`: the store accepts it, or it refuses it and returns
an error. -/
theorem Put_suffixUpdater_cases (db : DB) (key word : Bytes) :
    db.Put key (suffixUpdater word) = .ok (putWord db key word) ∨
    ∃ e, db.Put key (suffixUpdater word) = .error e := by
  by_cases hk : kvMaxContent < key.length
  · right
    refine ⟨kvTooLong key.length, ?_⟩
    unfold DB.Put suffixUpdater
    simp [hk]
  · by_cases hv : kvMaxContent < ((putWord db key word key).getD []).length
    · right
      refine ⟨kvTooLong ((putWord db key word key).getD []).length, ?_⟩
      rw [putWord_self] at hv ⊢
      unfold DB.Put suffixUpdater
      cases h : db key with
      | none =>
        rw [h] at hv
        simp only [Option.getD_some] at hv
        simp [hk, hv]
      | some old =>
        rw [h] at hv
        simp only [Option.getD_some, List.length_append, List.length_singleton] at hv
        have hv' : kvMaxContent < old.length + (word.length + 1) := by omega
        simp [hk, hv']
    · left
      exact Put_suffixUpdater db key word (by omega) (by omega)

theorem applyHits_extends (hits : List (Prefix × Bytes)) :
    ∀ (db : DB) (k v : Bytes), db k = some v →
    ∃ ext, applyHits db hits k = some (v ++ ext) := by
  induction hits with
  | nil => intro db k v h; exact ⟨[], by simpa [applyHits] using h⟩
  | cons h hs ih =>
    intro db k v hv
    by_cases hk : k = h.1.bytes
    · have h1 : putWord db h.1.bytes h.2 k = some (v ++ ([32] ++ h.2)) := by
        rw [hk] at hv ⊢
        simp [putWord, hv]
      obtain ⟨ext, he⟩ := ih _ k _ h1
      exact ⟨[32] ++ h.2 ++ ext, by rw [applyHits, he]; simp⟩
    · have h1 : putWord db h.1.bytes h.2 k = some v := by
        simp [putWord, hk, hv]
      obtain ⟨ext, he⟩ := ih _ k _ h1
      exact ⟨ext, by rw [applyHits, he]⟩

theorem populateLoop_body (N : Nat) (hN : 1 ≤ N) (v : Bytes) (closed : Bool) (body : List Token) :
    ∀ (since : List Bytes) (db : DB),
    (∀ t ∈ body, t.Typ = .TokWord ∨ t.Typ = .TokEOL) →
    (∀ h ∈ specHits N since body, h.1.bytes.length ≤ kvMaxContent ∧
      ((applyHits db (specHits N since body) h.1.bytes).getD []).length ≤ kvMaxContent) →
    populateLoop N (body ++ [⟨.TokEOF, v⟩]) closed (specWindow N since) db
      = (applyHits db (specHits N since body), .ret none) := by
  induction body with
  | nil => intro since db _ _; simp [populateLoop, specHits, applyHits]
  | cons t ts ih =>
    intro since db hb hfit
    have ht := hb t (List.mem_cons_self _ _)
    have hts : ∀ t ∈ ts, t.Typ = .TokWord ∨ t.Typ = .TokEOL :=
      fun t h => hb t (List.mem_cons_of_mem _ h)
    rcases ht with ht | ht
    · have hhits : specHits N since (t :: ts)
          = (specWindow N since, t.Value) :: specHits N (since ++ [t.Value]) ts := by
        simp only [specHits, ht]
      rw [hhits] at hfit
      obtain ⟨hk, hv⟩ := hfit _ (List.mem_cons_self _ _)
      simp only [applyHits] at hv
      obtain ⟨v1, hv1⟩ : ∃ v1, putWord db (specWindow N since).bytes t.Value
          (specWindow N since).bytes = some v1 := ⟨_, putWord_self _ _ _⟩
      obtain ⟨ext, hext⟩ := applyHits_extends (specHits N (since ++ [t.Value]) ts) _ _ _ hv1
      have hput := Put_suffixUpdater db (specWindow N since).bytes t.Value hk (by
        rw [hv1]
        rw [hext] at hv
        simp only [Option.getD_some, List.length_append] at hv ⊢
        omega)
      simp only [List.cons_append, populateLoop, ht, hput,
        buildNext_specWindow N hN, specHits, applyHits]
      refine ih _ _ hts ?_
      intro h hh
      have := hfit h (List.mem_cons_of_mem _ hh)
      simpa only [applyHits] using this
    · have hhits : specHits N since (t :: ts) = specHits N [] ts := by
        simp only [specHits, ht]
      rw [hhits] at hfit
      simp only [List.cons_append, populateLoop, ht, specHits]
      rw [← specWindow_nil]
      exact ih _ _ hts hfit

theorem bytesJoin_snoc (ws : List Bytes) (w : Bytes) (h : ws ≠ []) :
    bytesJoin (ws ++ [w]) [32] = bytesJoin ws [32] ++ [32] ++ w := by
  induction ws with
  | nil => exact absurd rfl h
  | cons a t ih =>
    cases t with
    | nil => simp [bytesJoin]
    | cons b t' =>
      have := ih (by simp)
      simp only [List.cons_append] at this ⊢
      simp [bytesJoin, this]

theorem applyHits_apply (hits : List (Prefix × Bytes)) :
    ∀ (db : DB) (k : Bytes),
    applyHits db hits k =
      match (hits.filter fun h => decide (h.1.bytes = k)).map (fun h => h.2) with
      | [] => db k
      | w :: ws => some (bytesJoin ((db k).toList ++ w :: ws) [32]) := by
  induction hits with
  | nil => intro db k; simp [applyHits]
  | cons h hs ih =>
    intro db k
    rw [applyHits, ih]
    by_cases hk : h.1.bytes = k
    · simp only [List.filter_cons, hk, decide_True, if_true, List.map_cons]
      subst hk
      generalize (List.map (fun h => h.2) (List.filter (fun h' => decide (h'.1.bytes = h.1.bytes)) hs)) = rest
      cases rest with
      | nil =>
        simp only [putWord, if_true]
        cases hdb : db h.1.bytes <;> simp [bytesJoin]
      | cons w ws =>
        simp only [putWord, if_true]
        cases hdb : db h.1.bytes <;> simp [bytesJoin]
    · have hk' : ¬ k = h.1.bytes := fun e => hk e.symm
      simp only [List.filter_cons, hk, decide_False, Bool.false_eq_true, if_false, putWord, hk']

theorem bytesSplit_append_sep (w : Bytes) (hw : 32 ∉ w) (rest : Bytes) :
    bytesSplit (w ++ 32 :: rest) 32 = w :: bytesSplit rest 32 := by
  induction w with
  | nil => simp [bytesSplit]
  | cons c t ih =>
    have hc : c ≠ 32 := fun e => hw (by simp [e])
    have ht : 32 ∉ t := fun e => hw (List.mem_cons_of_mem _ e)
    simp [bytesSplit, hc, ih ht]

theorem bytesSplit_word (w : Bytes) (hw : 32 ∉ w) : bytesSplit w 32 = [w] := by
  induction w with
  | nil => simp [bytesSplit]
  | cons c t ih =>
    have hc : c ≠ 32 := fun e => hw (by simp [e])
    have ht : 32 ∉ t := fun e => hw (List.mem_cons_of_mem _ e)
    simp [bytesSplit, hc, ih ht]

theorem bytesSplit_bytesJoin (ws : List Bytes) (hne : ws ≠ []) (hws : ∀ w ∈ ws, 32 ∉ w) :
    bytesSplit (bytesJoin ws [32]) 32 = ws := by
  induction ws with
  | nil => exact absurd rfl hne
  | cons a t ih =>
    cases t with
    | nil => simpa [bytesJoin] using bytesSplit_word a (hws a (by simp))
    | cons b t' =>
      have h1 := ih (by simp) (fun w hw => hws w (List.mem_cons_of_mem _ hw))
      simp only [bytesJoin, List.append_assoc, List.singleton_append]
      rw [bytesSplit_append_sep a (hws a (by simp)), h1]

theorem GoodDB_empty : GoodDB DB.empty := by
  intro k v h; simp [DB.empty] at h

theorem GoodDB_putWord (db : DB) (key w : Bytes) (hdb : GoodDB db) (hw : GoodWord w) :
    GoodDB (putWord db key w) := by
  intro k v h
  unfold putWord at h
  by_cases hk : k = key
  · simp only [hk, if_true, Option.some.injEq] at h
    cases hold : db key with
    | none =>
      rw [hold] at h
      exact ⟨[w], by simp, by simpa using hw, by simp [bytesJoin, ← h]⟩
    | some old =>
      rw [hold] at h
      obtain ⟨ws, hne, hgood, hv⟩ := hdb key old hold
      refine ⟨ws ++ [w], by simp, ?_, ?_⟩
      · intro x hx
        rcases List.mem_append.1 hx with hx | hx
        · exact hgood x hx
        · simp at hx; rw [hx]; exact hw
      · rw [bytesJoin_snoc ws w hne, ← hv, ← h]
  · simp only [hk, if_false] at h
    exact hdb k v h

theorem populateLoop_good (N : Nat) (closed : Bool) (ts : List Token) :
    ∀ (pfix : Prefix) (db : DB), GoodDB db →
    (∀ t ∈ ts, t.Typ = .TokWord → GoodWord t.Value) →
    GoodDB (populateLoop N ts closed pfix db).1 := by
  induction ts with
  | nil => intro pfix db hdb _; unfold populateLoop; split <;> exact hdb
  | cons t ts ih =>
    intro pfix db hdb hts
    have hts' : ∀ t ∈ ts, t.Typ = .TokWord → GoodWord t.Value :=
      fun t h => hts t (List.mem_cons_of_mem _ h)
    unfold populateLoop
    cases ht : t.Typ with
    | TokWord =>
      have hput := GoodDB_putWord db pfix.bytes t.Value hdb (hts t (List.mem_cons_self _ _) ht)
      rcases Put_suffixUpdater_cases db pfix.bytes t.Value with hp | ⟨e, hp⟩
      · simp only [hp]
        cases pfix.buildNext t.Value with
        | none => exact hput
        | some p1 => exact ih p1 _ hput hts'
      · simp only [hp]
        exact hdb
    | TokError => exact hdb
    | TokEOF => exact hdb
    | TokEOL => exact ih _ _ hdb hts'

theorem ValidWalk_snoc (N : Nat) (db : DB) (words : List Bytes) (w v : Bytes)
    (hwalk : ValidWalk N db words) (hv : db (specWindow N words).bytes = some v)
    (hw : w ∈ bytesSplit v 32) : ValidWalk N db (words ++ [w]) := by
  intro i hi
  simp only [List.length_append, List.length_singleton] at hi
  by_cases hlt : i < words.length
  · obtain ⟨v', h1, h2⟩ := hwalk i hlt
    refine ⟨v', ?_, ?_⟩
    · rw [List.take_append_of_le_length (by omega)]; exact h1
    · simpa [List.get_eq_getElem, List.getElem_append_left hlt] using h2
  · have hi' : i = words.length := by omega
    subst hi'
    refine ⟨v, ?_, ?_⟩
    · simpa using hv
    · simpa [List.get_eq_getElem] using hw

theorem generateLoop_walk (N : Nat) (hN : 1 ≤ N) (db : DB) (hdb : GoodDB db) (draws : Nat → Nat) :
    ∀ (n k : Nat) (words : List Bytes), ValidWalk N db words → (∀ w ∈ words, GoodWord w) →
    ∃ out : List Bytes,
      generateLoop db draws n k (specWindow N words) words = .ret (.ok out) ∧
      out.length ≤ words.length + n ∧ ValidWalk N db out ∧ (∀ w ∈ out, GoodWord w) ∧
      (out.length < words.length + n → db (specWindow N out).bytes = none) := by
  intro n
  induction n with
  | zero =>
    intro k words hwalk hgood
    exact ⟨words, by simp [generateLoop], by simp, hwalk, hgood, by simp⟩
  | succ n ih =>
    intro k words hwalk hgood
    unfold generateLoop
    simp only [DB.Get]
    cases hv : db (specWindow N words).bytes with
    | none =>
      refine ⟨words, ?_, by omega, hwalk, hgood, fun _ => hv⟩
      simp [createSuffix, bytesSplit, Suffix.pick, Nat.mod_one]
    | some v =>
      obtain ⟨ws, hne, hws, hjoin⟩ := hdb _ v hv
      have hsplit : bytesSplit v 32 = ws := by
        rw [hjoin]; exact bytesSplit_bytesJoin ws hne (fun w hw => (hws w hw).2)
      have hlen : 0 < ws.length := List.length_pos.2 hne
      have hidx : draws k % ws.length < ws.length := Nat.mod_lt _ hlen
      have hpick : Suffix.pick (createSuffix v) (draws k) = some (ws.get ⟨draws k % ws.length, hidx⟩) := by
        simp only [createSuffix, hsplit, Suffix.pick]
        rw [if_neg (by omega)]
        simp [List.get?_eq_get hidx]
      have hmem : ws.get ⟨draws k % ws.length, hidx⟩ ∈ ws := List.get_mem _ _ _
      generalize ws.get ⟨draws k % ws.length, hidx⟩ = w at hpick hmem
      have hgw := hws w hmem
      have hwl : ¬ w.length = 0 := by
        intro h; exact hgw.1 (List.length_eq_zero.1 h)
      simp only [Option.getD_some, hpick, hwl, if_false, buildNext_specWindow N hN]
      have hwalk' := ValidWalk_snoc N db words w v hwalk hv (by rw [hsplit]; exact hmem)
      have hgood' : ∀ x ∈ words ++ [w], GoodWord x := by
        intro x hx
        rcases List.mem_append.1 hx with hx | hx
        · exact hgood x hx
        · simp at hx; rw [hx]; exact hgw
      obtain ⟨out, h1, h2, h3, h4, h5⟩ := ih (k + 1) (words ++ [w]) hwalk' hgood'
      refine ⟨out, h1, ?_, h3, h4, ?_⟩
      · simp at h2; omega
      · intro hlt; apply h5; simp; omega


theorem bytesJoin_eq_specJoin (ws : List Bytes) : bytesJoin ws [32] = specJoin ws := by
  unfold specJoin
  induction ws with
  | nil => rfl
  | cons a t ih =>
    cases t with
    | nil => simp [bytesJoin, List.intercalate]
    | cons b t' =>
      simp only [bytesJoin, ih]
      simp [List.intercalate]

theorem applyHits_eq_specStore (N : Nat) (init : DB) (body : List Token) :
    applyHits init (specHits N [] body) = specStore N init body := by
  funext k
  rw [applyHits_apply]
  have hf : (fun h : Prefix × Bytes => decide (h.1.bytes = k))
      = (fun h : Prefix × Bytes => decide (specJoin h.1 = k)) := by
    funext h
    rw [Prefix.bytes, bytesJoin_eq_specJoin]
  unfold specStore specContinuations
  rw [hf]
  generalize List.map (fun h : Prefix × Bytes => h.2)
    (List.filter (fun h : Prefix × Bytes => decide (specJoin h.1 = k)) (specHits N [] body)) = ws
  cases ws with
  | nil => rfl
  | cons w ws => simp only [bytesJoin_eq_specJoin]

/-- A first Word that is longer than the store accepts: `PopulateCorpus` returns
the error of the write and records nothing. -/
theorem populate_long_word (N : Nat) (w : Bytes) (rest : List Token) (closed : Bool)
    (hk : (Prefix.bytes (makePrefix N)).length ≤ kvMaxContent) (hw : kvMaxContent < w.length) :
    (MarkovChain.mk N DB.empty).PopulateCorpus ⟨⟨.TokWord, w⟩ :: rest, closed⟩
      = (⟨N, DB.empty⟩, .ret (some (.text (ascii "cannot add/update key to the db file : "
          ++ (kvTooLong w.length).Error)))) := by
  have hk' : ¬ kvMaxContent < (Prefix.bytes (makePrefix N)).length := by omega
  have hput : DB.Put DB.empty (Prefix.bytes (makePrefix N)) (suffixUpdater w)
      = .error (kvTooLong w.length) := by
    unfold DB.Put suffixUpdater
    simp only [DB.empty, Option.getD_none, ne_eq, not_true_eq_false, if_false, List.nil_append,
      hk', hw, if_true]
  simp only [MarkovChain.PopulateCorpus, populateLoop, hput]

/-- The reference model on one Word and the empty store, for two-word windows. -/
theorem specStore_one_word (w : Bytes) :
    specStore 2 DB.empty [⟨.TokWord, w⟩] (specJoin [[], []]) = some w := by
  have h1 : specHits 2 [] [⟨.TokWord, w⟩] = [(specWindow 2 [], w)] := by
    simp [specHits]
  have h2 : specWindow 2 [] = [[], []] := by
    simp [specWindow]
  simp [specStore, specContinuations, h1, h2, DB.empty, specJoin, List.intercalate]

/-- C2 (amended): for every prefix length `N ≥ 1`, every initial store and every
token sequence made of `Word` and `EndOfLine` tokens and ended by `EndOfStream`
whose contents fit the store (every key that is hit, and the value that the
reference model holds under it in the end, is at most `kvMaxContent` bytes
long), `PopulateCorpus` returns nil and leaves exactly the store of the
reference model: a key that no window hits is unchanged, a key that is hit
holds its initial value (nothing if absent) extended, space-separated and in
stream order, by the Words whose preceding window (the last `N` Words since
the start or the last `EndOfLine`, left-padded with empty words) serialises to
it. No condition on the bytes of the Words is needed. -/
theorem C2_populate_equals_reference (N : Nat) (hN : 1 ≤ N) (init : DB) (body : List Token)
    (v : Bytes) (closed : Bool)
    (hbody : ∀ t ∈ body, t.Typ = .TokWord ∨ t.Typ = .TokEOL)
    (hfit : specFits N init body) :
    (MarkovChain.mk N init).PopulateCorpus ⟨body ++ [⟨.TokEOF, v⟩], closed⟩
      = (⟨N, specStore N init body⟩, .ret none) := by
  have hfit' : ∀ h ∈ specHits N [] body, h.1.bytes.length ≤ kvMaxContent ∧
      ((applyHits init (specHits N [] body) h.1.bytes).getD []).length ≤ kvMaxContent := by
    intro h hh
    have := hfit h hh
    rw [applyHits_eq_specStore, Prefix.bytes, bytesJoin_eq_specJoin]
    exact this
  have h := populateLoop_body N hN v closed body [] init hbody hfit'
  rw [specWindow_nil] at h
  simp only [MarkovChain.PopulateCorpus, h]
  rw [applyHits_eq_specStore]

/-- C2, witness: two lines `hello world` and `hello` with `N = 2` on the empty
store. -/
theorem C2_populate_equals_reference_witness :
    1 ≤ 2 ∧
    (∀ t ∈ [Token.mk .TokWord (ascii "hello"), ⟨.TokWord, ascii "world"⟩, ⟨.TokEOL, []⟩,
        ⟨.TokWord, ascii "hello"⟩, ⟨.TokEOL, []⟩], t.Typ = .TokWord ∨ t.Typ = .TokEOL) ∧
    specFits 2 DB.empty [Token.mk .TokWord (ascii "hello"), ⟨.TokWord, ascii "world"⟩,
        ⟨.TokEOL, []⟩, ⟨.TokWord, ascii "hello"⟩, ⟨.TokEOL, []⟩] ∧
    (MarkovChain.mk 2 DB.empty).PopulateCorpus
        ⟨[Token.mk .TokWord (ascii "hello"), ⟨.TokWord, ascii "world"⟩, ⟨.TokEOL, []⟩,
          ⟨.TokWord, ascii "hello"⟩, ⟨.TokEOL, []⟩] ++ [⟨.TokEOF, []⟩], false⟩
      = (⟨2, specStore 2 DB.empty [Token.mk .TokWord (ascii "hello"), ⟨.TokWord, ascii "world"⟩,
          ⟨.TokEOL, []⟩, ⟨.TokWord, ascii "hello"⟩, ⟨.TokEOL, []⟩]⟩, .ret none) :=
  ⟨by decide, by decide, by unfold specFits; decide,
    C2_populate_equals_reference 2 (by decide) DB.empty _ [] false (by decide)
      (by unfold specFits; decide)⟩

/-- C2 (counterexample): a token sequence of one `Word` of 70000 bytes and
`EndOfStream`, with `N = 2` on the empty store. The store refuses the value,
`PopulateCorpus` returns the error of the write, and nothing is recorded under
the key of the (empty, empty) prefix, where the reference model holds the
word. -/
theorem C2_long_value_refused :
    (MarkovChain.mk 2 DB.empty).PopulateCorpus
        ⟨[⟨.TokWord, List.replicate 70000 0x61⟩, ⟨.TokEOF, []⟩], true⟩
      = (⟨2, DB.empty⟩, .ret (some (.text (ascii "cannot add/update key to the db file : "
          ++ (kvTooLong 70000).Error)))) ∧
    specStore 2 DB.empty [⟨.TokWord, List.replicate 70000 0x61⟩] (specJoin [[], []])
      = some (List.replicate 70000 0x61) := by
  have h := populate_long_word 2 (List.replicate 70000 0x61) [⟨.TokEOF, []⟩] true (by decide)
    (by rw [List.length_replicate]; decide)
  rw [List.length_replicate] at h
  exact ⟨h, specStore_one_word _⟩

/-- C4: on a store that `PopulateCorpus` built, from the empty store, out of a
token stream whose Words are non-empty and free of spaces, `Generate` returns,
for every `N ≥ 1`, every `maxWords` and every sequence of random draws, the
space-join of a maximal valid walk: each word is an entry of the value stored
under the key of the window of the `N` previous output words, the words are at
most `maxWords`, and when they are fewer the store holds nothing under the key
of the final window. -/
theorem C4_generate_maximal_walk (N : Nat) (hN : 1 ≤ N) (ts : List Token) (closed : Bool)
    (hts : ∀ t ∈ ts, t.Typ = .TokWord → GoodWord t.Value) (maxWords : Int) (draws : Nat → Nat) :
    ∃ words : List Bytes,
      ((MarkovChain.mk N DB.empty).PopulateCorpus ⟨ts, closed⟩).1.Generate maxWords draws
        = .ret (bytesJoin words [32], none) ∧
      ValidWalk N ((MarkovChain.mk N DB.empty).PopulateCorpus ⟨ts, closed⟩).1.CorpusDB words ∧
      (∀ w ∈ words, GoodWord w) ∧
      (words.length : Int) ≤ max maxWords 0 ∧
      ((words.length : Int) < maxWords →
        ((MarkovChain.mk N DB.empty).PopulateCorpus ⟨ts, closed⟩).1.CorpusDB
          (specWindow N words).bytes = none) := by
  have hgood : GoodDB ((MarkovChain.mk N DB.empty).PopulateCorpus ⟨ts, closed⟩).1.CorpusDB := by
    simp only [MarkovChain.PopulateCorpus]
    exact populateLoop_good N closed ts _ _ GoodDB_empty hts
  obtain ⟨out, h1, h2, h3, h4, h5⟩ :=
    generateLoop_walk N hN _ hgood draws maxWords.toNat 0 []
      (fun i hi => absurd hi (by simp)) (fun w hw => absurd hw (by simp))
  refine ⟨out, ?_, h3, h4, ?_, ?_⟩
  · simp only [MarkovChain.Generate, MarkovChain.generateWords]
    have hp : (((MarkovChain.mk N DB.empty).PopulateCorpus ⟨ts, closed⟩).1).prefixLen = N := rfl
    rw [hp, ← specWindow_nil, h1]
  · simp only [List.length_nil, Nat.zero_add] at h2
    omega
  · intro hlt
    apply h5
    simp only [List.length_nil, Nat.zero_add]
    omega

/-- C4, witness: the store built from the line `hello world`, `N = 2`, at most
five words, every draw zero. -/
theorem C4_generate_maximal_walk_witness :
    1 ≤ 2 ∧
    (∀ t ∈ [Token.mk .TokWord (ascii "hello"), ⟨.TokWord, ascii "world"⟩, ⟨.TokEOF, []⟩],
      t.Typ = .TokWord → GoodWord t.Value) ∧
    ∃ words : List Bytes,
      ((MarkovChain.mk 2 DB.empty).PopulateCorpus
          ⟨[Token.mk .TokWord (ascii "hello"), ⟨.TokWord, ascii "world"⟩, ⟨.TokEOF, []⟩],
            true⟩).1.Generate 5 (fun _ => 0)
        = .ret (bytesJoin words [32], none) ∧
      ValidWalk 2 ((MarkovChain.mk 2 DB.empty).PopulateCorpus
          ⟨[Token.mk .TokWord (ascii "hello"), ⟨.TokWord, ascii "world"⟩, ⟨.TokEOF, []⟩],
            true⟩).1.CorpusDB words ∧
      (∀ w ∈ words, GoodWord w) ∧
      (words.length : Int) ≤ max 5 0 ∧
      ((words.length : Int) < 5 →
        ((MarkovChain.mk 2 DB.empty).PopulateCorpus
          ⟨[Token.mk .TokWord (ascii "hello"), ⟨.TokWord, ascii "world"⟩, ⟨.TokEOF, []⟩],
            true⟩).1.CorpusDB (specWindow 2 words).bytes = none) :=
  ⟨by decide, by decide, C4_generate_maximal_walk 2 (by decide) _ true (by decide) 5 (fun _ => 0)⟩

/-! ### UTF-8 decoding -/

theorem DecodeRune_len_le (p : Bytes) : (DecodeRune p).2 ≤ p.length := by
  unfold DecodeRune
  split
  · simp
  · rename_i p0 rest
    split_ifs <;> (try split) <;> (try split_ifs) <;> simp

theorem DecodeRune_pos (p : Bytes) (h : p ≠ []) : 1 ≤ (DecodeRune p).2 := by
  unfold DecodeRune
  split
  · exact absurd rfl h
  · split_ifs <;> (try split) <;> (try split_ifs) <;> simp

theorem DecodeRune_le_four (p : Bytes) : (DecodeRune p).2 ≤ 4 := by
  unfold DecodeRune
  split
  · simp
  · split_ifs <;> (try split) <;> (try split_ifs) <;> simp

theorem DecodeRune_nil : DecodeRune [] = (RuneError, 0) := rfl

theorem DecodeRune_append_four (p q : Bytes) (h : 4 ≤ p.length) :
    DecodeRune (p ++ q) = DecodeRune p := by
  match p, h with
  | a :: b :: c :: d :: t, _ => simp [DecodeRune]

theorem DecodeRune_append_ok (p q : Bytes) (h : (DecodeRune p).1 ≠ RuneError) :
    DecodeRune (p ++ q) = DecodeRune p := by
  match p with
  | [] => simp [DecodeRune] at h
  | p0 :: rest =>
    simp only [List.cons_append]
    simp only [DecodeRune] at h ⊢
    by_cases h1 : p0 < 0x80
    · simp only [h1, if_true]
    · by_cases h2 : p0 < 0xC2
      · simp only [h1, h2, if_true, if_false]
      · by_cases h3 : p0 < 0xE0
        · simp only [h1, h2, h3, if_true, if_false] at h ⊢
          cases rest with
          | nil => simp at h
          | cons b1 t => rfl
        · by_cases h4 : p0 < 0xF0
          · simp only [h1, h2, h3, h4, if_true, if_false] at h ⊢
            match rest with
            | [] => simp at h
            | [_] => simp at h
            | _ :: _ :: _ => rfl
          · by_cases h5 : p0 < 0xF5
            · simp only [h1, h2, h3, h4, h5, if_true, if_false] at h ⊢
              match rest with
              | [] => simp at h
              | [_] => simp at h
              | [_, _] => simp at h
              | _ :: _ :: _ :: _ => rfl
            · simp only [h1, h2, h3, h4, h5, if_false]

/-! ### The rune buffer -/

theorem Read_eq (rd : Reader) (n : Nat) :
    rd.Read n = (rd.data.take n,
      (if n = 0 then none else if rd.data = [] then some GoError.EOF else none),
      ⟨rd.data.drop n⟩) := by
  unfold Reader.Read
  by_cases hn : n = 0
  · subst hn; simp
  · cases hd : rd.data with
    | nil =>
      have : rd = ⟨[]⟩ := by cases rd; simp_all
      simp [hn, this]
    | cons a t => simp [hn]

theorem slice_mid (a m c : Bytes) : slice (a ++ (m ++ c)) a.length (a.length + m.length) = m := by
  unfold slice
  rw [← List.append_assoc, List.take_left' (by simp), List.drop_left' rfl]

theorem fill_eq (b : Buffer) : b.fill = b.shift.readMore := rfl

theorem shift_layout (b : Buffer) (pre pend win post : Bytes) (h : Layout b pre pend win post) :
    ∃ post0, Layout b.shift [] pend win post0 ∧ b.shift.rd = b.rd ∧
      b.shift.runefailed = b.runefailed := by
  obtain ⟨hbuf, hlen, hs, hc, he⟩ := h
  have hlen' : pre.length + (pend.length + (win.length + post.length)) = iosize := by
    rw [← hlen, hbuf]; simp
  unfold Buffer.shift
  by_cases h0 : b.start_pos > 0
  · rw [if_pos h0]
    have hsl : slice b.Buf b.start_pos b.end_pos = pend ++ win := by
      rw [hbuf, hs, he, Nat.add_assoc, ← List.length_append, ← List.append_assoc pend,
        slice_mid]
    refine ⟨List.drop (pend.length + win.length) b.Buf, ⟨?_, ?_, rfl, ?_, ?_⟩, rfl, rfl⟩
    · show goCopy b.Buf (slice b.Buf b.start_pos b.end_pos) = _
      rw [hsl]
      unfold goCopy
      rw [List.take_of_length_le (by rw [hlen]; simp only [List.length_append]; omega)]
      simp
    · show (goCopy b.Buf (slice b.Buf b.start_pos b.end_pos)).length = _
      rw [hsl]
      unfold goCopy
      rw [List.take_of_length_le (by rw [hlen]; simp only [List.length_append]; omega)]
      simp only [List.length_append, List.length_drop, hlen]
      omega
    · show b.cur_point - b.start_pos = _
      simp; omega
    · show b.end_pos - b.start_pos = _
      simp; omega
  · rw [if_neg h0]
    have hpre : pre = [] := List.length_eq_zero.1 (by omega)
    subst hpre
    exact ⟨post, ⟨hbuf, hlen, hs, hc, he⟩, rfl, rfl⟩

theorem readMore_layout (b : Buffer) (pend win post : Bytes) (h : Layout b [] pend win post)
    (hp : pend.length + 4 ≤ iosize) :
    ∃ win1 post1, Layout b.readMore [] pend win1 post1 ∧
      win1 ++ b.readMore.rd.data = win ++ b.rd.data ∧
      (4 ≤ win1.length ∨ b.readMore.rd.data = []) ∧
      b.readMore.runefailed = b.runefailed ∧
      (win ++ b.rd.data = [] → b.readMore.err = some .EOF) := by
  obtain ⟨hbuf, hlen, hs, hc, he⟩ := h
  simp only [List.nil_append, List.length_nil, Nat.zero_add] at hbuf hs hc he
  have hlen' : pend.length + (win.length + post.length) = iosize := by
    rw [← hlen, hbuf]; simp
  have hn : b.Buf.length - b.end_pos = post.length := by omega
  have htake : List.take b.end_pos b.Buf = pend ++ win := by
    rw [hbuf, he, ← List.length_append, ← List.append_assoc, List.take_left' rfl]
  have hdrop : List.drop b.end_pos b.Buf = post := by
    rw [hbuf, he, ← List.length_append, ← List.append_assoc, List.drop_left' rfl]
  have hdl : (List.take post.length b.rd.data).length ≤ post.length := by
    simp
  refine ⟨win ++ b.rd.data.take post.length, post.drop (b.rd.data.take post.length).length,
    ⟨?_, ?_, ?_, ?_, ?_⟩, ?_, ?_, rfl, ?_⟩
  · show List.take b.end_pos b.Buf ++ goCopy (List.drop b.end_pos b.Buf) _ = _
    rw [htake, hdrop, hn, Read_eq]
    unfold goCopy
    rw [List.take_of_length_le hdl]
    simp
  · show (List.take b.end_pos b.Buf ++ goCopy (List.drop b.end_pos b.Buf) _).length = _
    rw [htake, hdrop, hn, Read_eq]
    unfold goCopy
    rw [List.take_of_length_le hdl]
    simp only [List.length_append, List.length_drop]
    omega
  · exact hs
  · show b.cur_point = _
    simp [hc]
  · show (if (b.rd.Read (b.Buf.length - b.end_pos)).1.length > 0 then _ else _) = _
    rw [hn, Read_eq]
    simp only [List.nil_append, List.length_nil, Nat.zero_add, List.length_append]
    split_ifs with h1
    · omega
    · omega
  · show _ ++ (b.rd.Read (b.Buf.length - b.end_pos)).2.2.data = _
    rw [hn, Read_eq]
    simp
  · show _ ∨ (b.rd.Read (b.Buf.length - b.end_pos)).2.2.data = _
    rw [hn, Read_eq]
    by_cases hle : b.rd.data.length ≤ post.length
    · right; simp [List.drop_eq_nil_iff.2 hle]
    · left
      simp only [List.length_append, List.length_take]
      omega
  · intro hnil
    show (b.rd.Read (b.Buf.length - b.end_pos)).2.1 = _
    rw [hn, Read_eq]
    have hw : win = [] := (List.append_eq_nil.1 hnil).1
    have hr : b.rd.data = [] := (List.append_eq_nil.1 hnil).2
    subst hw
    have : post.length ≠ 0 := by simp at hlen'; omega
    simp [this, hr]

theorem fill_layout (b : Buffer) (pre pend win post : Bytes) (h : Layout b pre pend win post)
    (hp : pend.length + 4 ≤ iosize) :
    ∃ win1 post1, Layout b.fill [] pend win1 post1 ∧
      win1 ++ b.fill.rd.data = win ++ b.rd.data ∧
      (4 ≤ win1.length ∨ b.fill.rd.data = []) ∧
      b.fill.runefailed = b.runefailed ∧
      (win ++ b.rd.data = [] → b.fill.err = some .EOF) := by
  obtain ⟨post0, h0, hrd, hrf⟩ := shift_layout b pre pend win post h
  obtain ⟨win1, post1, h1, h2, h3, h4, h5⟩ := readMore_layout b.shift pend win post0 h0 hp
  rw [fill_eq]
  exact ⟨win1, post1, h1, by rw [h2, hrd], h3, by rw [h4, hrf], by rw [hrd] at h5; exact h5⟩

theorem next_eq (b : Buffer) : b.next = b.refill.decode := rfl

theorem layout_slice_win (b : Buffer) (pre pend win post : Bytes)
    (h : Layout b pre pend win post) : slice b.Buf b.cur_point b.end_pos = win := by
  obtain ⟨hbuf, _, _, hc, he⟩ := h
  rw [hbuf, hc, he, ← List.length_append, ← List.append_assoc, slice_mid]

theorem layout_slice_pend (b : Buffer) (pre pend win post : Bytes)
    (h : Layout b pre pend win post) : slice b.Buf b.start_pos b.cur_point = pend := by
  obtain ⟨hbuf, _, hs, hc, _⟩ := h
  rw [hbuf, hs, hc, slice_mid]

/-- After `refill` the window holds four bytes ahead, or all that is left. -/
theorem refill_layout (b : Buffer) (pre pend win post : Bytes) (h : Layout b pre pend win post)
    (hp : pend.length + 4 ≤ iosize) :
    ∃ pre1 win1 post1, Layout b.refill pre1 pend win1 post1 ∧
      win1 ++ b.refill.rd.data = win ++ b.rd.data ∧
      (4 ≤ win1.length ∨ b.refill.rd.data = []) ∧
      b.refill.runefailed = b.runefailed ∧
      (win ++ b.rd.data = [] → b.refill.err = some .EOF) := by
  unfold Buffer.refill
  by_cases hlt : b.end_pos - b.cur_point < 4
  · rw [if_pos hlt]
    obtain ⟨win1, post1, h1, h2, h3, h4, h5⟩ := fill_layout b pre pend win post h hp
    exact ⟨[], win1, post1, h1, h2, h3, h4, h5⟩
  · rw [if_neg hlt]
    refine ⟨pre, win, post, h, rfl, Or.inl ?_, rfl, ?_⟩
    · obtain ⟨_, _, _, hc, he⟩ := h
      omega
    · intro hnil
      obtain ⟨_, _, _, hc, he⟩ := h
      have : win = [] := (List.append_eq_nil.1 hnil).1
      subst this
      simp at he
      omega

theorem decode_ok (b : Buffer) (pre pend win post : Bytes) (h : Layout b pre pend win post)
    (hd : (DecodeRune win).1 ≠ RuneError) :
    b.decode.1 = (DecodeRune win).1 ∧
    Layout b.decode.2 pre (pend ++ win.take (DecodeRune win).2) (win.drop (DecodeRune win).2) post ∧
    b.decode.2.last_rune_len = (DecodeRune win).2 ∧
    b.decode.2.runefailed = b.runefailed ∧ b.decode.2.rd = b.rd := by
  have hw := layout_slice_win b pre pend win post h
  obtain ⟨hbuf, hlen, hs, hc, he⟩ := h
  have hn := DecodeRune_len_le win
  unfold Buffer.decode
  simp only [hw, if_neg hd]
  refine ⟨trivial, ⟨?_, hlen, hs, ?_, ?_⟩, trivial, trivial, trivial⟩
  · show b.Buf = _
    rw [hbuf, List.append_assoc, ← List.append_assoc (List.take _ win), List.take_append_drop]
  · show b.cur_point + _ = _
    simp only [List.length_append, List.length_take]
    omega
  · show b.end_pos = _
    simp only [List.length_append, List.length_take, List.length_drop]
    omega

theorem next_ok (b : Buffer) (pend rest : Bytes) (hv : View b pend rest)
    (hp : pend.length + 4 ≤ iosize) (hd : (DecodeRune rest).1 ≠ RuneError) :
    b.next.1 = (DecodeRune rest).1 ∧
    View b.next.2 (pend ++ rest.take (DecodeRune rest).2) (rest.drop (DecodeRune rest).2) ∧
    b.next.2.last_rune_len = (DecodeRune rest).2 := by
  obtain ⟨hrf, pre, win, post, hl, hrest⟩ := hv
  obtain ⟨pre1, win1, post1, h1, h2, h3, h4, _⟩ := refill_layout b pre pend win post hl hp
  have hrest1 : win1 ++ b.refill.rd.data = rest := by rw [h2, hrest]
  have hdec : DecodeRune win1 = DecodeRune rest := by
    rcases h3 with h3 | h3
    · rw [← hrest1, DecodeRune_append_four _ _ h3]
    · rw [← hrest1, h3, List.append_nil]
  have hd1 : (DecodeRune win1).1 ≠ RuneError := by rw [hdec]; exact hd
  obtain ⟨e1, e2, e3, e4, e5⟩ := decode_ok b.refill pre1 pend win1 post1 h1 hd1
  have hn := DecodeRune_len_le win1
  rw [next_eq]
  rw [hdec] at e1 e2 e3 hn
  have ht : rest.take (DecodeRune rest).2 = win1.take (DecodeRune rest).2 := by
    generalize (DecodeRune rest).2 = n at hn
    rw [← hrest1, List.take_append_of_le_length hn]
  have hdr : rest.drop (DecodeRune rest).2 = win1.drop (DecodeRune rest).2 ++ b.refill.rd.data := by
    generalize (DecodeRune rest).2 = n at hn
    rw [← hrest1, List.drop_append_of_le_length hn]
  refine ⟨e1, ⟨by rw [e4, h4, hrf], pre1, List.drop (DecodeRune rest).2 win1, post1, ?_, ?_⟩, e3⟩
  · rw [ht]
    exact e2
  · rw [e5, hdr]

theorem next_eof (b : Buffer) (pend : Bytes) (hv : Win b pend [])
    (hp : pend.length + 4 ≤ iosize) :
    b.next.1 = RuneError ∧ AtEOF b.next.2 pend := by
  obtain ⟨pre, win, post, hl, hrest⟩ := hv
  obtain ⟨pre1, win1, post1, h1, h2, h3, h4, h5⟩ := refill_layout b pre pend win post hl hp
  rw [hrest] at h2
  have hw1 : win1 = [] := (List.append_eq_nil.1 h2).1
  have hr1 : b.refill.rd.data = [] := (List.append_eq_nil.1 h2).2
  subst hw1
  have herr := h5 hrest
  have hw := layout_slice_win _ _ _ _ _ h1
  obtain ⟨hbuf, hlen, hs, hc, he⟩ := h1
  rw [next_eq]
  have hdec : b.refill.decode = (RuneError,
      { b.refill with last_rune_len := 0, runefailed := true, cur_point := b.refill.cur_point }) := by
    unfold Buffer.decode
    simp only [hw, DecodeRune_nil, if_true, herr, reduceCtorEq, if_false, Nat.add_zero]
  rw [hdec]
  exact ⟨rfl, rfl, herr, rfl, pre1, [], post1, ⟨hbuf, hlen, hs, hc, he⟩, by simpa using hr1⟩

theorem backup_layout (b : Buffer) (pre pend t win post : Bytes)
    (h : Layout b pre (pend ++ t) win post) (hl : b.last_rune_len = t.length) :
    Layout b.backup pre pend (t ++ win) post := by
  obtain ⟨hbuf, hlen, hs, hc, he⟩ := h
  refine ⟨?_, hlen, hs, ?_, ?_⟩
  · show b.Buf = _
    rw [hbuf]; simp only [List.append_assoc]
  · show b.cur_point - b.last_rune_len = _
    rw [hc, hl]; simp only [List.length_append]; omega
  · show b.end_pos = _
    rw [he]; simp only [List.length_append]; omega

theorem backup_view (b : Buffer) (pend t rest : Bytes) (h : View b (pend ++ t) rest)
    (hl : b.last_rune_len = t.length) : View b.backup pend (t ++ rest) := by
  obtain ⟨hrf, pre, win, post, hlay, hrest⟩ := h
  refine ⟨hrf, pre, t ++ win, post, backup_layout b pre pend t win post hlay hl, ?_⟩
  show (t ++ win) ++ b.rd.data = _
  rw [List.append_assoc, hrest]

theorem backup_eof (b : Buffer) (pend : Bytes) (h : AtEOF b pend) : AtEOF b.backup pend := by
  obtain ⟨hrf, herr, hl, pre, win, post, hlay, hrest⟩ := h
  refine ⟨hrf, herr, rfl, pre, win, post, ?_, hrest⟩
  have := backup_layout b pre pend [] win post (by simpa using hlay) (by simpa using hl)
  simpa using this

theorem peek_ok (b : Buffer) (pend rest : Bytes) (hv : View b pend rest)
    (hp : pend.length + 4 ≤ iosize) (hd : (DecodeRune rest).1 ≠ RuneError) :
    b.peek.1 = (DecodeRune rest).1 ∧ View b.peek.2 pend rest := by
  obtain ⟨h1, h2, h3⟩ := next_ok b pend rest hv hp hd
  refine ⟨h1, ?_⟩
  have hn : (DecodeRune rest).2 ≤ rest.length := DecodeRune_len_le rest
  have := backup_view b.next.2 pend (rest.take (DecodeRune rest).2) (rest.drop (DecodeRune rest).2)
    h2 (by rw [h3, List.length_take]; omega)
  rw [List.take_append_drop] at this
  exact this

theorem peek_eof (b : Buffer) (pend : Bytes) (hv : Win b pend [])
    (hp : pend.length + 4 ≤ iosize) : b.peek.1 = RuneError ∧ AtEOF b.peek.2 pend := by
  obtain ⟨h1, h2⟩ := next_eof b pend hv hp
  exact ⟨h1, backup_eof _ _ h2⟩

theorem ignoreToken_win (b : Buffer) (pend rest : Bytes) (h : Win b pend rest) :
    Win b.ignoreToken [] rest := by
  obtain ⟨pre, win, post, ⟨hbuf, hlen, hs, hc, he⟩, hrest⟩ := h
  refine ⟨pre ++ pend, win, post, ⟨?_, hlen, ?_, ?_, ?_⟩, hrest⟩
  · show b.Buf = _
    rw [hbuf]; simp only [List.append_assoc, List.nil_append]
  · show b.cur_point = _
    rw [hc]; simp
  · show b.cur_point = _
    rw [hc]; simp
  · show b.end_pos = _
    rw [he]; simp

theorem ignoreToken_view (b : Buffer) (pend rest : Bytes) (h : View b pend rest) :
    View b.ignoreToken [] rest :=
  ⟨h.1, ignoreToken_win b pend rest h.2⟩

theorem ignoreToken_eof (b : Buffer) (pend : Bytes) (h : AtEOF b pend) :
    AtEOF b.ignoreToken [] :=
  ⟨h.1, h.2.1, h.2.2.1, ignoreToken_win b pend [] h.2.2.2⟩

theorem tokenValue_win (b : Buffer) (pend rest : Bytes) (h : Win b pend rest) :
    b.tokenValue = (pend, b.ignoreToken) := by
  obtain ⟨pre, win, post, hlay, _⟩ := h
  unfold Buffer.tokenValue
  rw [layout_slice_pend b pre pend win post hlay]

/-! ### Runs of runes -/

theorem runesAll_cons (p : Nat → Bool) (n : Nat) (c : Nat) (cs : Bytes)
    (h : runesAll p n (c :: cs) = true) :
    ∃ m, n = m + 1 ∧ (DecodeRune (c :: cs)).1 ≠ RuneError ∧ p (DecodeRune (c :: cs)).1 = true ∧
      runesAll p m ((c :: cs).drop (DecodeRune (c :: cs)).2) = true := by
  cases n with
  | zero => simp [runesAll] at h
  | succ m =>
    simp only [runesAll, Bool.and_eq_true, decide_eq_true_eq] at h
    exact ⟨m, rfl, h.1.1, h.1.2, h.2⟩

theorem acceptWhile_stop (p : Nat → Bool) (rest : Bytes)
    (hd : (DecodeRune rest).1 ≠ RuneError) (hstop : p (DecodeRune rest).1 = false) :
    ∀ (n : Nat) (run : Bytes) (b : Buffer) (pend : Bytes) (k fuel : Nat),
    runesAll p n run = true → View b pend (run ++ rest) →
    pend.length + run.length + 4 ≤ iosize → runeCount n run < fuel →
    ∃ b1, Buffer.acceptWhile p fuel k b = some (k + runeCount n run, b1) ∧
      View b1 (pend ++ run) rest := by
  intro n
  induction n with
  | zero =>
    intro run b pend k fuel hrun hv hsz hfuel
    cases run with
    | cons c cs => simp [runesAll] at hrun
    | nil =>
      cases fuel with
      | zero => simp [runeCount] at hfuel
      | succ f =>
        simp only [List.nil_append, List.length_nil, Nat.add_zero, List.append_nil] at hv hsz ⊢
        obtain ⟨h1, h2⟩ := peek_ok b pend rest hv hsz hd
        refine ⟨b.peek.2, ?_, h2⟩
        unfold Buffer.acceptWhile
        have h1' : b.next.1 = (DecodeRune rest).1 := h1
        simp only [h1', hstop, Bool.false_eq_true, if_false, runeCount, Nat.add_zero]
        rfl
  | succ m ih =>
    intro run b pend k fuel hrun hv hsz hfuel
    cases run with
    | nil =>
      cases fuel with
      | zero => simp [runeCount] at hfuel
      | succ f =>
        simp only [List.nil_append, List.length_nil, Nat.add_zero, List.append_nil] at hv hsz ⊢
        obtain ⟨h1, h2⟩ := peek_ok b pend rest hv hsz hd
        refine ⟨b.peek.2, ?_, h2⟩
        unfold Buffer.acceptWhile
        have h1' : b.next.1 = (DecodeRune rest).1 := h1
        simp only [h1', hstop, Bool.false_eq_true, if_false, runeCount, Nat.add_zero]
        rfl
    | cons c cs =>
      obtain ⟨m', hm, hd1, hp1, hrest1⟩ := runesAll_cons p (m + 1) c cs hrun
      have hm' : m' = m := by omega
      rw [hm'] at hrest1
      have hdec : DecodeRune (c :: cs ++ rest) = DecodeRune (c :: cs) :=
        DecodeRune_append_ok _ _ hd1
      have hlen := DecodeRune_len_le (c :: cs)
      have hpos := DecodeRune_pos (c :: cs) (by simp)
      generalize hdn : DecodeRune (c :: cs) = d at hdec hd1 hp1 hrest1 hlen hpos
      cases fuel with
      | zero => omega
      | succ f =>
        have hnx := next_ok b pend (c :: cs ++ rest) hv (by omega) (by rw [hdec]; exact hd1)
        rw [hdec] at hnx
        obtain ⟨e1, e2, _⟩ := hnx
        rw [List.take_append_of_le_length hlen, List.drop_append_of_le_length hlen] at e2
        have hcnt : runeCount (m + 1) (c :: cs) = 1 + runeCount m ((c :: cs).drop d.2) := by
          simp only [runeCount, hdn]
        have hsz' : (pend ++ List.take d.2 (c :: cs)).length
            + (List.drop d.2 (c :: cs)).length + 4 ≤ iosize := by
          simp only [List.length_append, List.length_take, List.length_drop]
          simp only [List.length_cons] at hsz hlen ⊢
          omega
        obtain ⟨b1, hb1, hv1⟩ := ih ((c :: cs).drop d.2) b.next.2
          (pend ++ (c :: cs).take d.2) (k + 1) f hrest1 e2 hsz' (by omega)
        refine ⟨b1, ?_, ?_⟩
        · unfold Buffer.acceptWhile
          simp only [e1, hp1, if_true, hb1, hcnt]
          congr 2; omega
        · rw [List.append_assoc, List.take_append_drop] at hv1
          exact hv1

/-- One rune of a run: what `next` returns on it and the view it leaves. -/
theorem run_step (p : Nat → Bool) (m : Nat) (c : Nat) (cs rest : Bytes) (b : Buffer)
    (pend : Bytes) (hrun : runesAll p (m + 1) (c :: cs) = true)
    (hv : View b pend (c :: cs ++ rest)) (hsz : pend.length + 4 ≤ iosize) :
    ∃ t u, c :: cs = t ++ u ∧ 1 ≤ t.length ∧ t.length ≤ 4 ∧ p b.next.1 = true ∧
      View b.next.2 (pend ++ t) (u ++ rest) ∧ runesAll p m u = true ∧
      runeCount (m + 1) (c :: cs) = 1 + runeCount m u := by
  obtain ⟨m', hm, hd1, hp1, hrest1⟩ := runesAll_cons p (m + 1) c cs hrun
  have hm' : m' = m := by omega
  rw [hm'] at hrest1
  have hdec : DecodeRune (c :: cs ++ rest) = DecodeRune (c :: cs) :=
    DecodeRune_append_ok _ _ hd1
  have hlen := DecodeRune_len_le (c :: cs)
  have hpos := DecodeRune_pos (c :: cs) (by simp)
  have hle4 := DecodeRune_le_four (c :: cs)
  have hcnt : runeCount (m + 1) (c :: cs)
      = 1 + runeCount m ((c :: cs).drop (DecodeRune (c :: cs)).2) := by
    simp only [runeCount]
  generalize hdn : DecodeRune (c :: cs) = d at hdec hd1 hp1 hrest1 hlen hpos hcnt hle4
  have hnx := next_ok b pend (c :: cs ++ rest) hv hsz (by rw [hdec]; exact hd1)
  rw [hdec] at hnx
  obtain ⟨e1, e2, _⟩ := hnx
  rw [List.take_append_of_le_length hlen, List.drop_append_of_le_length hlen] at e2
  refine ⟨(c :: cs).take d.2, (c :: cs).drop d.2, (List.take_append_drop _ _).symm, ?_, ?_,
    by rw [e1]; exact hp1, e2, hrest1, hcnt⟩
  · rw [List.length_take]; omega
  · rw [List.length_take]; omega

theorem acceptWhile_at_eof (p : Nat → Bool) (hstop : p RuneError = false) (b : Buffer)
    (pend : Bytes) (k fuel : Nat) (hv : Win b pend []) (hsz : pend.length + 4 ≤ iosize) :
    ∃ b1, Buffer.acceptWhile p (fuel + 1) k b = some (k, b1) ∧ AtEOF b1 pend := by
  obtain ⟨h1, h2⟩ := peek_eof b pend hv hsz
  refine ⟨b.peek.2, ?_, h2⟩
  unfold Buffer.acceptWhile
  have h1' : b.next.1 = RuneError := h1
  simp only [h1', hstop, Bool.false_eq_true, if_false]
  rfl

theorem acceptWhile_to_eof (p : Nat → Bool) (hstop : p RuneError = false) :
    ∀ (n : Nat) (run : Bytes) (b : Buffer) (pend : Bytes) (k fuel : Nat),
    runesAll p n run = true → View b pend run →
    pend.length + run.length + 4 ≤ iosize → runeCount n run < fuel →
    ∃ b1, Buffer.acceptWhile p fuel k b = some (k + runeCount n run, b1) ∧
      AtEOF b1 (pend ++ run) := by
  intro n
  induction n with
  | zero =>
    intro run b pend k fuel hrun hv hsz hfuel
    cases run with
    | cons c cs => simp [runesAll] at hrun
    | nil =>
      cases fuel with
      | zero => simp [runeCount] at hfuel
      | succ f =>
        simpa [runeCount] using acceptWhile_at_eof p hstop b pend k f hv.2 (by simpa using hsz)
  | succ m ih =>
    intro run b pend k fuel hrun hv hsz hfuel
    cases run with
    | nil =>
      cases fuel with
      | zero => simp [runeCount] at hfuel
      | succ f =>
        simpa [runeCount] using acceptWhile_at_eof p hstop b pend k f hv.2 (by simpa using hsz)
    | cons c cs =>
      obtain ⟨t, u, htu, ht1, ht4, hp1, hv1, hru, hcnt⟩ :=
        run_step p m c cs [] b pend hrun (by simpa using hv) (by omega)
      cases fuel with
      | zero => omega
      | succ f =>
        have hl : (c :: cs).length = t.length + u.length := by rw [htu]; simp
        obtain ⟨b1, hb1, hv2⟩ := ih u b.next.2 (pend ++ t) (k + 1) f hru
          (by simpa using hv1) (by simp only [List.length_append]; omega) (by omega)
        refine ⟨b1, ?_, ?_⟩
        · unfold Buffer.acceptWhile
          simp only [hp1, if_true, hb1, hcnt]
          congr 2; omega
        · rw [htu, ← List.append_assoc]; exact hv2

theorem ignoreWhile_stop (p : Nat → Bool) (rest : Bytes)
    (hd : (DecodeRune rest).1 ≠ RuneError) (hstop : p (DecodeRune rest).1 = false) :
    ∀ (n : Nat) (run : Bytes) (b : Buffer) (pend : Bytes) (k fuel : Nat),
    runesAll p n run = true → View b pend (run ++ rest) →
    pend.length + 4 ≤ iosize → runeCount n run < fuel →
    ∃ b1, Buffer.ignoreWhile p fuel k b = some (k + runeCount n run, b1) ∧
      View b1 (if run = [] then pend else []) rest := by
  intro n
  induction n with
  | zero =>
    intro run b pend k fuel hrun hv hsz hfuel
    cases run with
    | cons c cs => simp [runesAll] at hrun
    | nil =>
      cases fuel with
      | zero => simp [runeCount] at hfuel
      | succ f =>
        simp only [List.nil_append, if_true] at hv ⊢
        obtain ⟨h1, h2⟩ := peek_ok b pend rest hv hsz hd
        refine ⟨b.peek.2, ?_, h2⟩
        unfold Buffer.ignoreWhile
        have h1' : b.next.1 = (DecodeRune rest).1 := h1
        simp only [h1', hstop, Bool.false_eq_true, if_false, runeCount, Nat.add_zero]
        rfl
  | succ m ih =>
    intro run b pend k fuel hrun hv hsz hfuel
    cases run with
    | nil =>
      cases fuel with
      | zero => simp [runeCount] at hfuel
      | succ f =>
        simp only [List.nil_append, if_true] at hv ⊢
        obtain ⟨h1, h2⟩ := peek_ok b pend rest hv hsz hd
        refine ⟨b.peek.2, ?_, h2⟩
        unfold Buffer.ignoreWhile
        have h1' : b.next.1 = (DecodeRune rest).1 := h1
        simp only [h1', hstop, Bool.false_eq_true, if_false, runeCount, Nat.add_zero]
        rfl
    | cons c cs =>
      obtain ⟨t, u, htu, ht1, ht4, hp1, hv1, hru, hcnt⟩ :=
        run_step p m c cs rest b pend hrun hv hsz
      cases fuel with
      | zero => omega
      | succ f =>
        have hv1' := ignoreToken_view _ _ _ hv1
        obtain ⟨b1, hb1, hv2⟩ := ih u b.next.2.ignoreToken [] (k + 1) f hru hv1'
          (by simp [iosize]) (by omega)
        refine ⟨b1, ?_, ?_⟩
        · unfold Buffer.ignoreWhile
          simp only [hp1, if_true, hb1, hcnt]
          congr 2; omega
        · simpa using hv2

theorem ignoreWhile_at_eof (p : Nat → Bool) (hstop : p RuneError = false) (b : Buffer)
    (pend : Bytes) (k fuel : Nat) (hv : Win b pend []) (hsz : pend.length + 4 ≤ iosize) :
    ∃ b1, Buffer.ignoreWhile p (fuel + 1) k b = some (k, b1) ∧ AtEOF b1 pend := by
  obtain ⟨h1, h2⟩ := peek_eof b pend hv hsz
  refine ⟨b.peek.2, ?_, h2⟩
  unfold Buffer.ignoreWhile
  have h1' : b.next.1 = RuneError := h1
  simp only [h1', hstop, Bool.false_eq_true, if_false]
  rfl

theorem ignoreWhile_to_eof (p : Nat → Bool) (hstop : p RuneError = false) :
    ∀ (n : Nat) (run : Bytes) (b : Buffer) (pend : Bytes) (k fuel : Nat),
    runesAll p n run = true → View b pend run →
    pend.length + 4 ≤ iosize → runeCount n run < fuel →
    ∃ b1, Buffer.ignoreWhile p fuel k b = some (k + runeCount n run, b1) ∧
      AtEOF b1 (if run = [] then pend else []) := by
  intro n
  induction n with
  | zero =>
    intro run b pend k fuel hrun hv hsz hfuel
    cases run with
    | cons c cs => simp [runesAll] at hrun
    | nil =>
      cases fuel with
      | zero => simp [runeCount] at hfuel
      | succ f => simpa [runeCount] using ignoreWhile_at_eof p hstop b pend k f hv.2 hsz
  | succ m ih =>
    intro run b pend k fuel hrun hv hsz hfuel
    cases run with
    | nil =>
      cases fuel with
      | zero => simp [runeCount] at hfuel
      | succ f => simpa [runeCount] using ignoreWhile_at_eof p hstop b pend k f hv.2 hsz
    | cons c cs =>
      obtain ⟨t, u, htu, ht1, ht4, hp1, hv1, hru, hcnt⟩ :=
        run_step p m c cs [] b pend hrun (by simpa using hv) hsz
      cases fuel with
      | zero => omega
      | succ f =>
        have hv1' := ignoreToken_view _ _ _ hv1
        obtain ⟨b1, hb1, hv2⟩ := ih u b.next.2.ignoreToken [] (k + 1) f hru
          (by simpa using hv1') (by simp [iosize]) (by omega)
        refine ⟨b1, ?_, ?_⟩
        · unfold Buffer.ignoreWhile
          simp only [hp1, if_true, hb1, hcnt]
          congr 2; omega
        · simpa using hv2

/-- At the end of the input a test that accepts U+FFFD is never refused: the
loop of `ignoreWhile` does not end. -/
theorem ignoreWhile_eof_diverges (p : Nat → Bool) (hacc : p RuneError = true) :
    ∀ (fuel : Nat) (b : Buffer) (pend : Bytes) (k : Nat),
    Win b pend [] → pend.length + 4 ≤ iosize → Buffer.ignoreWhile p fuel k b = none := by
  intro fuel
  induction fuel with
  | zero => intro b pend k _ _; rfl
  | succ f ih =>
    intro b pend k hv hsz
    obtain ⟨h1, h2⟩ := next_eof b pend hv hsz
    unfold Buffer.ignoreWhile
    simp only [h1, hacc, if_true]
    exact ih _ [] _ (ignoreToken_eof _ _ h2).2.2.2 (by simp [iosize])

theorem ignoreWhile_run_diverges (p : Nat → Bool) (hacc : p RuneError = true) :
    ∀ (n : Nat) (run : Bytes) (fuel : Nat) (b : Buffer) (pend : Bytes) (k : Nat),
    runesAll p n run = true → View b pend run → pend.length + 4 ≤ iosize →
    Buffer.ignoreWhile p fuel k b = none := by
  intro n
  induction n with
  | zero =>
    intro run fuel b pend k hrun hv hsz
    cases run with
    | cons c cs => simp [runesAll] at hrun
    | nil => exact ignoreWhile_eof_diverges p hacc fuel b pend k hv.2 hsz
  | succ m ih =>
    intro run fuel b pend k hrun hv hsz
    cases run with
    | nil => exact ignoreWhile_eof_diverges p hacc fuel b pend k hv.2 hsz
    | cons c cs =>
      obtain ⟨t, u, htu, ht1, ht4, hp1, hv1, hru, hcnt⟩ :=
        run_step p m c cs [] b pend hrun (by simpa using hv) hsz
      cases fuel with
      | zero => rfl
      | succ f =>
        have hv1' := ignoreToken_view _ _ _ hv1
        unfold Buffer.ignoreWhile
        simp only [hp1, if_true]
        exact ih u f _ [] _ hru (by simpa using hv1') (by simp [iosize])

/-! ### The tokenizer on well-formed lines -/

theorem DecodeRune_ascii (a : Nat) (t : Bytes) (h : a < 0x80) : DecodeRune (a :: t) = (a, 1) := by
  simp [DecodeRune, h]

theorem isAsciiDigit_lt (a : Nat) (h : isAsciiDigit a = true) : a < 0x80 := by
  simp [isAsciiDigit] at h; omega

theorem isDateRune_digit (T : RangeTables) (a : Nat) (h : isAsciiDigit a = true) :
    isDateRune T a = true := by
  simp only [isAsciiDigit, Bool.and_eq_true, decide_eq_true_eq] at h
  have : a ≤ MaxLatin1 := by simp only [MaxLatin1]; omega
  simp [isDateRune, IsDigit, this, h.1, h.2]

theorem RuneError_ne_ascii (a : Nat) (h : a < 0x80) : a ≠ RuneError := by
  simp only [RuneError]; omega

theorem digits_run (T : RangeTables) (a b : Nat) (ha : isAsciiDigit a = true)
    (hb : isAsciiDigit b = true) :
    runesAll (isDateRune T) 2 [a, b] = true ∧ runeCount 2 [a, b] = 2 := by
  have ha' := isAsciiDigit_lt a ha
  have hb' := isAsciiDigit_lt b hb
  simp [runesAll, runeCount, DecodeRune_ascii, ha', hb', isDateRune_digit, ha, hb,
    RuneError_ne_ascii]

theorem lexDateGroup_colon (T : RangeTables) (fuel i : Nat) (hi : i ≠ 2) (l : LogLexer)
    (pend rest : Bytes) (a b : Nat) (ha : isAsciiDigit a = true) (hb : isAsciiDigit b = true)
    (hv : View l.buf pend (a :: b :: 0x3A :: rest)) (hsz : pend.length + 6 ≤ iosize)
    (hfuel : 3 ≤ fuel) :
    ∃ b1, lexDateGroup T fuel i l = some { l with buf := b1 } ∧ View b1 [] rest := by
  obtain ⟨hrun, hcnt⟩ := digits_run T a b ha hb
  have hstopd : DecodeRune (0x3A :: rest) = (0x3A, 1) := DecodeRune_ascii _ _ (by decide)
  obtain ⟨b1, hb1, hv1⟩ := acceptWhile_stop (isDateRune T) (0x3A :: rest)
    (by rw [hstopd]; decide) (by rw [hstopd]; simp [isDateRune, IsDigit, MaxLatin1])
    2 [a, b] l.buf pend 0 fuel hrun hv (by simp; omega) (by omega)
  rw [hcnt] at hb1
  obtain ⟨e1, e2, _⟩ := next_ok b1 (pend ++ [a, b]) (0x3A :: rest) hv1
    (by simp; omega) (by rw [hstopd]; decide)
  rw [hstopd] at e1 e2
  refine ⟨b1.next.2.ignoreToken, ?_, ?_⟩
  · unfold lexDateGroup
    simp only [hb1, Nat.zero_add, ne_eq, not_true_eq_false, if_false, hi, not_false_eq_true,
      if_true, e1]
  · have := ignoreToken_view _ _ _ e2
    simpa using this

theorem lexDateGroup_last (T : RangeTables) (fuel : Nat) (l : LogLexer)
    (pend rest : Bytes) (a b : Nat) (ha : isAsciiDigit a = true) (hb : isAsciiDigit b = true)
    (hd : (DecodeRune rest).1 ≠ RuneError) (hstop : isDateRune T (DecodeRune rest).1 = false)
    (hv : View l.buf pend (a :: b :: rest)) (hsz : pend.length + 6 ≤ iosize)
    (hfuel : 3 ≤ fuel) :
    ∃ b1, lexDateGroup T fuel 2 l = some { l with buf := b1 } ∧ View b1 [] rest := by
  obtain ⟨hrun, hcnt⟩ := digits_run T a b ha hb
  obtain ⟨b1, hb1, hv1⟩ := acceptWhile_stop (isDateRune T) rest hd hstop
    2 [a, b] l.buf pend 0 fuel hrun hv (by simp; omega) (by omega)
  rw [hcnt] at hb1
  refine ⟨b1.ignoreToken, ?_, ignoreToken_view _ _ _ hv1⟩
  unfold lexDateGroup
  simp only [hb1, Nat.zero_add, ne_eq, not_true_eq_false, if_false]

theorem isStamp_eq (s : Bytes) (h : isStamp s = true) :
    ∃ a b c d e f, s = [a, b, 0x3A, c, d, 0x3A, e, f] ∧ isAsciiDigit a = true ∧
      isAsciiDigit b = true ∧ isAsciiDigit c = true ∧ isAsciiDigit d = true ∧
      isAsciiDigit e = true ∧ isAsciiDigit f = true := by
  unfold isStamp at h
  split at h
  · rename_i a b c1 c d c2 e f
    simp only [Bool.and_eq_true, beq_iff_eq] at h
    obtain ⟨⟨⟨⟨⟨⟨⟨h1, h2⟩, h3⟩, h4⟩, h5⟩, h6⟩, h7⟩, h8⟩ := h
    subst h3 h6
    exact ⟨a, b, c, d, e, f, rfl, h1, h2, h4, h5, h7, h8⟩
  · exact absurd h (by simp)

/-- The three digit groups of `lexDate` on a timestamp. -/
theorem lexDate_groups (T : RangeTables) (fuel : Nat) (l : LogLexer) (pend stamp rest : Bytes)
    (hs : isStamp stamp = true)
    (hd : (DecodeRune rest).1 ≠ RuneError) (hstop : isDateRune T (DecodeRune rest).1 = false)
    (hv : View l.buf pend (stamp ++ rest)) (hsz : pend.length + 6 ≤ iosize)
    (hfuel : 3 ≤ fuel) :
    ∃ b0 b1 b2, lexDateGroup T fuel 0 l = some { l with buf := b0 } ∧
      lexDateGroup T fuel 1 { l with buf := b0 } = some { l with buf := b1 } ∧
      lexDateGroup T fuel 2 { l with buf := b1 } = some { l with buf := b2 } ∧
      View b2 [] rest := by
  obtain ⟨a, b, c, d, e, f, rfl, ha, hb, hc, hdd, he, hf⟩ := isStamp_eq stamp hs
  simp only [List.cons_append, List.nil_append] at hv
  obtain ⟨b0, h0, v0⟩ := lexDateGroup_colon T fuel 0 (by decide) l pend _ a b ha hb hv hsz hfuel
  obtain ⟨b1, h1, v1⟩ := lexDateGroup_colon T fuel 1 (by decide) { l with buf := b0 } [] _ c d
    hc hdd v0 (by simp [iosize]) hfuel
  obtain ⟨b2, h2, v2⟩ := lexDateGroup_last T fuel { l with buf := b1 } [] rest e f he hf hd hstop
    v1 (by simp [iosize]) hfuel
  exact ⟨b0, b1, b2, h0, h1, h2, v2⟩

theorem lexDate_nick (T : RangeTables) (fuel : Nat) (l : LogLexer) (pend stamp rest : Bytes)
    (hs : isStamp stamp = true) (hv : View l.buf pend (stamp ++ 0x3C :: rest))
    (hsz : pend.length + 6 ≤ iosize) (hfuel : 3 ≤ fuel) :
    ∃ b, lexDate T fuel l = .next (some .lexNick) { l with buf := b } ∧ View b [0x3C] rest := by
  have hdec : DecodeRune (0x3C :: rest) = (0x3C, 1) := DecodeRune_ascii _ _ (by decide)
  obtain ⟨b0, b1, b2, h0, h1, h2, v2⟩ := lexDate_groups T fuel l pend stamp (0x3C :: rest) hs
    (by rw [hdec]; decide) (by rw [hdec]; simp [isDateRune, IsDigit, MaxLatin1]) hv hsz hfuel
  obtain ⟨e1, e2, _⟩ := next_ok b2 [] (0x3C :: rest) v2 (by simp [iosize]) (by rw [hdec]; decide)
  rw [hdec] at e1 e2
  refine ⟨b2.next.2, ?_, by simpa using e2⟩
  unfold lexDate
  simp only [h0, h1, h2, e1]
  simp [IsSpace, MaxLatin1]

theorem lexDate_bang (T : RangeTables) (fuel : Nat) (l : LogLexer) (pend stamp rest : Bytes)
    (hs : isStamp stamp = true) (hv : View l.buf pend (stamp ++ 0x21 :: rest))
    (hsz : pend.length + 6 ≤ iosize) (hfuel : 3 ≤ fuel) :
    ∃ b, lexDate T fuel l = .next (some .lexIgnoredLine) { l with buf := b } ∧
      View b [0x21] rest := by
  have hdec : DecodeRune (0x21 :: rest) = (0x21, 1) := DecodeRune_ascii _ _ (by decide)
  obtain ⟨b0, b1, b2, h0, h1, h2, v2⟩ := lexDate_groups T fuel l pend stamp (0x21 :: rest) hs
    (by rw [hdec]; decide) (by rw [hdec]; simp [isDateRune, IsDigit, MaxLatin1]) hv hsz hfuel
  obtain ⟨e1, e2, _⟩ := next_ok b2 [] (0x21 :: rest) v2 (by simp [iosize]) (by rw [hdec]; decide)
  rw [hdec] at e1 e2
  refine ⟨b2.next.2, ?_, by simpa using e2⟩
  unfold lexDate
  simp only [h0, h1, h2, e1]
  simp [IsSpace, MaxLatin1]

theorem lexDate_space (T : RangeTables) (fuel : Nat) (l : LogLexer) (pend stamp rest : Bytes)
    (hs : isStamp stamp = true) (hv : View l.buf pend (stamp ++ 0x20 :: rest))
    (hd : (DecodeRune rest).1 ≠ RuneError)
    (hr2 : (IsSpace T (DecodeRune rest).1 || (DecodeRune rest).1 == 0x2A) = true)
    (hsz : pend.length + 6 ≤ iosize) (hfuel : 3 ≤ fuel) :
    ∃ b s, lexDate T fuel l = .next (some s) { l with buf := b } ∧
      (s = .lexIgnoredLine ∨ s = .lexAction) ∧ View b [0x20] rest := by
  have hdec : DecodeRune (0x20 :: rest) = (0x20, 1) := DecodeRune_ascii _ _ (by decide)
  obtain ⟨b0, b1, b2, h0, h1, h2, v2⟩ := lexDate_groups T fuel l pend stamp (0x20 :: rest) hs
    (by rw [hdec]; decide) (by rw [hdec]; simp [isDateRune, IsDigit, MaxLatin1]) hv hsz hfuel
  obtain ⟨e1, e2, _⟩ := next_ok b2 [] (0x20 :: rest) v2 (by simp [iosize]) (by rw [hdec]; decide)
  rw [hdec] at e1 e2
  simp only [List.nil_append, List.take_succ_cons, List.take_zero, List.drop_succ_cons,
    List.drop_zero] at e2
  obtain ⟨p1, p2⟩ := peek_ok b2.next.2 [0x20] rest e2 (by simp [iosize]) hd
  have hsp : IsSpace T 0x20 = true := by simp [IsSpace, MaxLatin1]
  by_cases hr : IsSpace T (DecodeRune rest).1 = true
  · refine ⟨b2.next.2.peek.2, .lexIgnoredLine, ?_, Or.inl rfl, p2⟩
    unfold lexDate
    simp only [h0, h1, h2, e1, hsp, if_true, p1, hr]
  · have hstar : (DecodeRune rest).1 = 0x2A := by
      simp only [Bool.or_eq_true, beq_iff_eq] at hr2
      rcases hr2 with h | h
      · exact absurd h hr
      · exact h
    refine ⟨b2.next.2.peek.2, .lexAction, ?_, Or.inr rfl, p2⟩
    unfold lexDate
    simp only [h0, h1, h2, e1, hsp, if_true, p1, hr, hstar, Bool.false_eq_true, if_false]
    simp [IsSpace, MaxLatin1]

theorem runeCount_pos (p : Nat → Bool) (n : Nat) (run : Bytes) (h : runesAll p n run = true)
    (hne : run ≠ []) : 0 < runeCount n run := by
  cases run with
  | nil => exact absurd rfl hne
  | cons c cs =>
    cases n with
    | zero => simp [runesAll] at h
    | succ m => simp [runeCount]

theorem runeCount_le (n : Nat) : ∀ run : Bytes, runeCount n run ≤ run.length := by
  induction n with
  | zero => intro run; cases run <;> simp [runeCount]
  | succ m ih =>
    intro run
    cases run with
    | nil => simp [runeCount]
    | cons c cs =>
      simp only [runeCount]
      have h1 := DecodeRune_pos (c :: cs) (by simp)
      have h2 := ih ((c :: cs).drop (DecodeRune (c :: cs)).2)
      rw [List.length_drop] at h2
      simp only [List.length_cons] at h2 ⊢
      omega

theorem lexIgnoredLine_ok (fuel n : Nat) (l : LogLexer) (pend text rest : Bytes)
    (hrun : runesAll notNewline n text = true)
    (hv : View l.buf pend (text ++ 0x0A :: rest)) (hsz : pend.length + 5 ≤ iosize)
    (hfuel : text.length < fuel) :
    ∃ b pend1, lexIgnoredLine fuel l = .next (some .lexDate) (LogLexer.newline { l with buf := b })
      ∧ View b pend1 rest ∧ pend1.length ≤ pend.length + 1 := by
  have hdec : DecodeRune (0x0A :: rest) = (0x0A, 1) := DecodeRune_ascii _ _ (by decide)
  have hcnt := runeCount_le n text
  obtain ⟨b1, hb1, hv1⟩ := ignoreWhile_stop notNewline (0x0A :: rest)
    (by rw [hdec]; decide) (by rw [hdec]; decide) n text l.buf pend 0 fuel hrun hv
    (by omega) (by omega)
  have hpl : (if text = [] then pend else []).length ≤ pend.length := by
    split <;> simp
  obtain ⟨e1, e2, _⟩ := next_ok b1 _ (0x0A :: rest) hv1 (by omega) (by rw [hdec]; decide)
  rw [hdec] at e2
  refine ⟨b1.next.2, _, ?_, e2, ?_⟩
  · unfold lexIgnoredLine
    simp only [hb1, e2.1, Bool.false_eq_true, if_false]
  · simp only [List.length_append, List.take_succ_cons, List.take_zero, List.length_singleton]
    omega

/-- A skipped line that the end of the file cuts short: the loop of
`lexIgnoredLine` never ends, whatever the fuel. -/
theorem lexIgnoredLine_eof (fuel n : Nat) (l : LogLexer) (pend text : Bytes)
    (hrun : runesAll notNewline n text = true)
    (hv : View l.buf pend text) (hsz : pend.length + 4 ≤ iosize) :
    lexIgnoredLine fuel l = .timeout l := by
  unfold lexIgnoredLine
  rw [ignoreWhile_run_diverges notNewline (by decide) n text fuel l.buf pend 0 hrun hv hsz]

theorem isNickRune_gt (T : RangeTables) : isNickRune T 0x3E = false := by
  simp [isNickRune, IsLetter, IsDigit, MaxLatin1, inRange]

theorem statusOK_eq (status : Bytes) (h : statusOK status = true) :
    (DecodeRune status).1 ≠ RuneError ∧ (DecodeRune status).2 = status.length ∧
    (DecodeRune status).1 ≠ 0x3E ∧ (DecodeRune status).1 ≠ 0x0A := by
  simpa [statusOK, and_assoc] using h

theorem lexNick_ok (T : RangeTables) (fuel : Nat) (l : LogLexer) (status nick rest : Bytes)
    (hst : statusOK status = true) (hne : nick ≠ [])
    (hrun : runesAll (isNickRune T) nick.length nick = true) (hlen : nick.length + 4 ≤ iosize)
    (hv : View l.buf [0x3C] (status ++ (nick ++ 0x3E :: rest)))
    (hfuel : nick.length < fuel) :
    ∃ b, lexNick T fuel l
        = .next (some (if nick = l.Nick then .lexPrivmsg else .lexIgnoredLine))
            { l with buf := b } ∧ View b [] rest := by
  obtain ⟨s1, s2, s3, _⟩ := statusOK_eq status hst
  have hdecs : DecodeRune (status ++ (nick ++ 0x3E :: rest)) = DecodeRune status :=
    DecodeRune_append_ok _ _ s1
  obtain ⟨e1, e2, _⟩ := next_ok l.buf [0x3C] _ hv (by simp [iosize]) (by rw [hdecs]; exact s1)
  rw [hdecs] at e1 e2
  rw [s2, List.take_left' rfl, List.drop_left' rfl] at e2
  have v2 := ignoreToken_view _ _ _ e2
  have hdec : DecodeRune (0x3E :: rest) = (0x3E, 1) := DecodeRune_ascii _ _ (by decide)
  have hcnt := runeCount_le nick.length nick
  have hpos := runeCount_pos _ _ _ hrun hne
  obtain ⟨b3, hb3, v3⟩ := acceptWhile_stop (isNickRune T) (0x3E :: rest)
    (by rw [hdec]; decide) (by rw [hdec]; exact isNickRune_gt T) nick.length nick
    l.buf.next.2.ignoreToken [] 0 fuel hrun v2 (by simpa using hlen) (by omega)
  simp only [List.nil_append] at v3
  have htv := tokenValue_win b3 nick _ v3.2
  have v4 := ignoreToken_view _ _ _ v3
  obtain ⟨f1, f2, _⟩ := next_ok b3.ignoreToken [] (0x3E :: rest) v4 (by simp [iosize])
    (by rw [hdec]; decide)
  rw [hdec] at f1 f2
  have v6 := ignoreToken_view _ _ _ f2
  refine ⟨b3.ignoreToken.next.2.ignoreToken, ?_, v6⟩
  unfold lexNick
  have hn1 : ¬ (0 + runeCount nick.length nick < 1) := by omega
  simp only [e1, s3, if_false, hb3, v3.1, Bool.false_eq_true, htv, hn1, f1, ne_eq,
    not_true_eq_false]
  split <;> rfl

theorem lexPrivmsgLoop_succ (T : RangeTables) (fuel rounds : Nat) (l : LogLexer) :
    lexPrivmsgLoop T fuel (rounds + 1) l =
      match l.buf.ignoreWhile (isBlankRune T) fuel 0 with
      | none => .timeout l
      | some (_, b) =>
        match b.acceptWhile (isWordRune T) fuel 0 with
        | none => .timeout { l with buf := b }
        | some (n, b1) =>
          lexPrivmsgTail T fuel rounds
            (if n > 0 then LogLexer.emit { l with buf := b1 } .TokWord else { l with buf := b1 }) := by
  rfl

theorem emit_win (l : LogLexer) (t : TokenType) (pend rest : Bytes) (h : Win l.buf pend rest) :
    l.emit t = { l with buf := l.buf.ignoreToken, Tokens := l.Tokens ++ [⟨t, pend⟩] } := by
  unfold LogLexer.emit
  rw [tokenValue_win l.buf pend rest h]

theorem lexPrivmsgTail_newline (T : RangeTables) (fuel rounds : Nat) (l : LogLexer)
    (rest : Bytes) (hv : View l.buf [] (0x0A :: rest)) :
    ∃ l1, lexPrivmsgTail T fuel rounds l = .next (some .lexDate) l1 ∧ l1.Nick = l.Nick ∧
      l1.file = l.file ∧ l1.Tokens = l.Tokens ++ [⟨.TokEOL, []⟩] ∧ View l1.buf [] rest := by
  have hdec : DecodeRune (0x0A :: rest) = (0x0A, 1) := DecodeRune_ascii _ _ (by decide)
  obtain ⟨p1, p2⟩ := peek_ok l.buf [] _ hv (by simp [iosize]) (by rw [hdec]; decide)
  rw [hdec] at p1
  have hem := emit_win { l with buf := l.buf.peek.2 } .TokEOL [] _ p2.2
  have v2 := ignoreToken_view _ _ _ p2
  obtain ⟨e1, e2, _⟩ := next_ok _ [] (0x0A :: rest) v2 (by simp [iosize]) (by rw [hdec]; decide)
  rw [hdec] at e2
  simp only [List.nil_append, List.take_succ_cons, List.take_zero, List.drop_succ_cons,
    List.drop_zero] at e2
  have v3 := ignoreToken_view _ _ _ e2
  have p1' : l.buf.peek.1 = 0x0A := p1
  refine ⟨LogLexer.newline { l with
    buf := l.buf.peek.2.ignoreToken.next.2.ignoreToken
    Tokens := l.Tokens ++ [⟨.TokEOL, []⟩] }, ?_, ?_, ?_, ?_, ?_⟩
  · unfold lexPrivmsgTail
    simp only [p1', if_true]
    rw [hem]
  · simp only [LogLexer.newline]
  · simp only [LogLexer.newline]
  · simp only [LogLexer.newline]
  · exact v3
theorem lexPrivmsgTail_continue (T : RangeTables) (fuel rounds : Nat) (l : LogLexer)
    (rest : Bytes) (hv : View l.buf [] rest) (hd : (DecodeRune rest).1 ≠ RuneError)
    (hnl : (DecodeRune rest).1 ≠ 0x0A) :
    ∃ b, lexPrivmsgTail T fuel rounds l = lexPrivmsgLoop T fuel rounds { l with buf := b } ∧
      View b [] rest := by
  obtain ⟨p1, p2⟩ := peek_ok l.buf [] _ hv (by simp [iosize]) hd
  refine ⟨l.buf.peek.2, ?_, p2⟩
  unfold lexPrivmsgTail
  simp only [p1, hnl, hd, if_false]

theorem lexPrivmsgTail_eof (T : RangeTables) (fuel rounds : Nat) (l : LogLexer)
    (hv : Win l.buf [] []) :
    ∃ b, lexPrivmsgTail T fuel rounds l
        = lexPrivmsgLoop T fuel rounds
            { l with buf := b, Tokens := l.Tokens ++ [⟨.TokEOF, []⟩] } ∧ AtEOF b [] := by
  obtain ⟨p1, p2⟩ := peek_eof l.buf [] hv (by simp [iosize])
  have hem := emit_win { l with buf := l.buf.peek.2 } .TokEOF [] _ p2.2.2.2
  refine ⟨l.buf.peek.2.ignoreToken, ?_, ignoreToken_eof _ _ p2⟩
  unfold lexPrivmsgTail
  have hne : RuneError ≠ 0x0A := by decide
  simp only [p1, hne, if_false, if_true, LogLexer.errorfEOFValid, Buffer.lastError, p2.1, p2.2.1,
    hem]

theorem isBlankRune_RuneError (T : RangeTables) : isBlankRune T RuneError = false := by
  simp [isBlankRune, IsSpace, RuneError, MaxLatin1, T.White_Space_RuneError]

theorem isWordRune_RuneError (T : RangeTables) : isWordRune T RuneError = false := by
  simp [isWordRune]

/-- At the end of the input every round of the loop of `lexPrivmsg` sends one
`EndOfStream` and starts the next round: the loop never returns. -/
theorem lexPrivmsgLoop_at_eof (T : RangeTables) (fuel : Nat) (hfuel : 1 ≤ fuel) :
    ∀ (rounds : Nat) (l : LogLexer), AtEOF l.buf [] →
    ∃ l1, lexPrivmsgLoop T fuel rounds l = .timeout l1 ∧
      l1.Tokens = l.Tokens ++ List.replicate rounds ⟨.TokEOF, []⟩ := by
  intro rounds
  induction rounds with
  | zero => intro l _; exact ⟨l, rfl, by simp⟩
  | succ r ih =>
    intro l hv
    obtain ⟨f, rfl⟩ : ∃ f, fuel = f + 1 := ⟨fuel - 1, by omega⟩
    obtain ⟨b1, hb1, v1⟩ := ignoreWhile_at_eof (isBlankRune T) (isBlankRune_RuneError T) l.buf []
      0 f hv.2.2.2 (by simp [iosize])
    obtain ⟨b2, hb2, v2⟩ := acceptWhile_at_eof (isWordRune T) (isWordRune_RuneError T) b1 []
      0 f v1.2.2.2 (by simp [iosize])
    obtain ⟨b3, hb3, v3⟩ := lexPrivmsgTail_eof T (f + 1) r { l with buf := b2 } v2.2.2.2
    obtain ⟨l1, hl1, ht⟩ := ih { l with buf := b3, Tokens := l.Tokens ++ [⟨.TokEOF, []⟩] } v3
    refine ⟨l1, ?_, ?_⟩
    · rw [lexPrivmsgLoop_succ]
      simp only [hb1, hb2, Nat.lt_irrefl, if_false, hb3, hl1]
    · rw [ht]
      simp [List.replicate_succ]

theorem runesAll_head (p : Nat → Bool) (n : Nat) (run x : Bytes) (h : runesAll p n run = true)
    (hne : run ≠ []) :
    (DecodeRune (run ++ x)).1 ≠ RuneError ∧ p (DecodeRune (run ++ x)).1 = true := by
  cases run with
  | nil => exact absurd rfl hne
  | cons c cs =>
    obtain ⟨_, _, h1, h2, _⟩ := runesAll_cons p n c cs h
    rw [DecodeRune_append_ok _ _ h1]
    exact ⟨h1, h2⟩

theorem isBlank_of_isWord (T : RangeTables) (r : Nat) (h : isWordRune T r = true) :
    isBlankRune T r = false := by
  simp only [isWordRune, Bool.and_eq_true, decide_eq_true_eq, Bool.not_eq_true'] at h
  simp [isBlankRune, h.2]

theorem isWord_of_isBlank (T : RangeTables) (r : Nat) (h : isBlankRune T r = true) :
    isWordRune T r = false ∧ r ≠ 0x0A := by
  simp only [isBlankRune, Bool.and_eq_true, decide_eq_true_eq] at h
  simp [isWordRune, h.1, h.2]

theorem DecodeRune_newline (rest : Bytes) : DecodeRune (0x0A :: rest) = (0x0A, 1) :=
  DecodeRune_ascii _ _ (by decide)

theorem isBlankRune_newline (T : RangeTables) : isBlankRune T 0x0A = false := by
  simp [isBlankRune]

theorem isWordRune_newline (T : RangeTables) : isWordRune T 0x0A = false := by
  simp [isWordRune, IsSpace, MaxLatin1]

theorem wordOK_eq (T : RangeTables) (w : Bytes) (h : wordOK T w = true) :
    w ≠ [] ∧ runesAll (isWordRune T) w.length w = true ∧ w.length + 4 ≤ iosize := by
  simp only [wordOK, Bool.and_eq_true, Bool.not_eq_true', List.isEmpty_eq_false,
    decide_eq_true_eq] at h
  exact ⟨h.1.1, h.1.2, h.2⟩

theorem wordsOK_cons (T : RangeTables) (ws : Bytes × Bytes) (more : List (Bytes × Bytes))
    (h : wordsOK T (ws :: more) = true) :
    wordOK T ws.1 = true ∧ runesAll (isBlankRune T) ws.2.length ws.2 = true ∧
      (more ≠ [] → ws.2 ≠ []) ∧ wordsOK T more = true := by
  cases more with
  | nil =>
    simp only [wordsOK, Bool.and_eq_true] at h
    exact ⟨h.1, h.2, fun h => absurd rfl h, rfl⟩
  | cons m ms =>
    simp only [wordsOK, Bool.and_eq_true, Bool.not_eq_true', List.isEmpty_eq_false] at h
    exact ⟨h.1.1.1, h.1.1.2, fun _ => h.1.2, h.2⟩

theorem messageBytes_cons (lead : Bytes) (ws : Bytes × Bytes) (more : List (Bytes × Bytes)) :
    messageBytes lead (ws :: more) = lead ++ (ws.1 ++ messageBytes ws.2 more) := by
  simp [messageBytes]

theorem messageBytes_nil (lead : Bytes) : messageBytes lead [] = lead := by
  simp [messageBytes]

/-- What follows a word: blanks, or the end of the message. -/
theorem after_word (T : RangeTables) (sep : Bytes) (more : List (Bytes × Bytes)) (x : Bytes)
    (hsep : runesAll (isBlankRune T) sep.length sep = true) (hne : sep ≠ []) :
    (DecodeRune (messageBytes sep more ++ x)).1 ≠ RuneError ∧
    isWordRune T (DecodeRune (messageBytes sep more ++ x)).1 = false ∧
    (DecodeRune (messageBytes sep more ++ x)).1 ≠ 0x0A := by
  have h := runesAll_head (isBlankRune T) sep.length sep
    (List.flatMap more (fun ws => ws.1 ++ ws.2) ++ x) hsep hne
  have e : messageBytes sep more ++ x = sep ++ (List.flatMap more (fun ws => ws.1 ++ ws.2) ++ x) := by
    simp [messageBytes]
  rw [e]
  exact ⟨h.1, (isWord_of_isBlank T _ h.2).1, (isWord_of_isBlank T _ h.2).2⟩

/-- The loop of `lexPrivmsg` on a message that ends with a newline: one `Word` per
word, then `EndOfLine`, and the tokenizer is back at the start of a line. -/
theorem lexPrivmsgLoop_line (T : RangeTables) (fuel : Nat) (rest : Bytes) :
    ∀ (words : List (Bytes × Bytes)) (lead : Bytes) (l : LogLexer) (rounds : Nat),
    runesAll (isBlankRune T) lead.length lead = true → wordsOK T words = true →
    View l.buf [] (messageBytes lead words ++ 0x0A :: rest) → words.length < rounds →
    (messageBytes lead words).length < fuel →
    ∃ l1, lexPrivmsgLoop T fuel rounds l = .next (some .lexDate) l1 ∧ l1.Nick = l.Nick ∧
      l1.file = l.file ∧
      l1.Tokens = l.Tokens ++ (words.map (fun ws => ⟨.TokWord, ws.1⟩) ++ [⟨.TokEOL, []⟩]) ∧
      View l1.buf [] rest := by
  intro words
  induction words with
  | nil =>
    intro lead l rounds hlead _ hv hr hfuel
    obtain ⟨r, rfl⟩ : ∃ r, rounds = r + 1 := ⟨rounds - 1, by simp at hr; omega⟩
    rw [messageBytes_nil] at hv hfuel
    have hcnt := runeCount_le lead.length lead
    obtain ⟨b1, hb1, v1⟩ := ignoreWhile_stop (isBlankRune T) (0x0A :: rest)
      (by rw [DecodeRune_newline]; decide) (by rw [DecodeRune_newline]; exact isBlankRune_newline T)
      lead.length lead l.buf [] 0 fuel hlead hv (by simp [iosize]) (by omega)
    simp only [ite_self] at v1
    obtain ⟨b2, hb2, v2⟩ := acceptWhile_stop (isWordRune T) (0x0A :: rest)
      (by rw [DecodeRune_newline]; decide) (by rw [DecodeRune_newline]; exact isWordRune_newline T)
      0 [] b1 [] 0 fuel (by simp [runesAll]) (by simpa using v1) (by simp [iosize])
      (by simp [runeCount]; omega)
    simp only [runeCount, Nat.add_zero, List.append_nil] at hb2 v2
    obtain ⟨l1, h1, h2, h3, h4, h5⟩ := lexPrivmsgTail_newline T fuel r { l with buf := b2 } rest v2
    refine ⟨l1, ?_, h2, h3, by simpa using h4, h5⟩
    rw [lexPrivmsgLoop_succ]
    simp only [hb1, hb2, Nat.lt_irrefl, if_false, h1]
  | cons ws more ih =>
    intro lead l rounds hlead hwords hv hr hfuel
    obtain ⟨r, rfl⟩ : ∃ r, rounds = r + 1 := ⟨rounds - 1, by omega⟩
    obtain ⟨hw, hsep, hmore, hwm⟩ := wordsOK_cons T ws more hwords
    obtain ⟨hwne, hwrun, hwlen⟩ := wordOK_eq T ws.1 hw
    rw [messageBytes_cons] at hv hfuel
    simp only [List.append_assoc] at hv
    simp only [List.length_append] at hfuel
    have hcnt := runeCount_le lead.length lead
    have hcntw := runeCount_le ws.1.length ws.1
    have hposw := runeCount_pos _ _ _ hwrun hwne
    have hhead := runesAll_head (isWordRune T) ws.1.length ws.1
      (messageBytes ws.2 more ++ 0x0A :: rest) hwrun hwne
    obtain ⟨b1, hb1, v1⟩ := ignoreWhile_stop (isBlankRune T) _ hhead.1
      (isBlank_of_isWord T _ hhead.2) lead.length lead l.buf [] 0 fuel hlead hv
      (by simp [iosize]) (by omega)
    simp only [ite_self] at v1
    by_cases hs : ws.2 = []
    · -- the last word, followed by the newline
      have hm : more = [] := by
        by_contra hne; exact hmore hne hs
      subst hm
      rw [hs, messageBytes_nil, List.nil_append] at v1
      obtain ⟨b2, hb2, v2⟩ := acceptWhile_stop (isWordRune T) (0x0A :: rest)
        (by rw [DecodeRune_newline]; decide)
        (by rw [DecodeRune_newline]; exact isWordRune_newline T)
        ws.1.length ws.1 b1 [] 0 fuel hwrun v1 (by simpa using hwlen) (by omega)
      simp only [List.nil_append, Nat.zero_add] at hb2 v2
      have hem := emit_win { l with buf := b2 } .TokWord ws.1 _ v2.2
      have v3 := ignoreToken_view _ _ _ v2
      obtain ⟨l1, h1, h2, h3, h4, h5⟩ := lexPrivmsgTail_newline T fuel r
        { l with buf := b2.ignoreToken, Tokens := l.Tokens ++ [⟨.TokWord, ws.1⟩] } rest v3
      refine ⟨l1, ?_, h2, h3, by simpa using h4, h5⟩
      rw [lexPrivmsgLoop_succ]
      simp only [hb1, hb2, hposw, if_true, hem]
      exact h1
    · -- blanks follow: the loop goes on
      obtain ⟨a1, a2, a3⟩ := after_word T ws.2 more (0x0A :: rest) hsep hs
      obtain ⟨b2, hb2, v2⟩ := acceptWhile_stop (isWordRune T) _ a1 a2
        ws.1.length ws.1 b1 [] 0 fuel hwrun v1 (by simpa using hwlen) (by omega)
      simp only [List.nil_append, Nat.zero_add] at hb2 v2
      have hem := emit_win { l with buf := b2 } .TokWord ws.1 _ v2.2
      have v3 := ignoreToken_view _ _ _ v2
      obtain ⟨b3, hb3, v4⟩ := lexPrivmsgTail_continue T fuel r
        { l with buf := b2.ignoreToken, Tokens := l.Tokens ++ [⟨.TokWord, ws.1⟩] } _ v3 a1 a3
      obtain ⟨l1, h1, h2, h3, h4, h5⟩ := ih ws.2
        { l with buf := b3, Tokens := l.Tokens ++ [⟨.TokWord, ws.1⟩] } r hsep hwm v4
        (by simp only [List.length_cons] at hr; omega) (by omega)
      refine ⟨l1, ?_, h2, h3, by simpa using h4, h5⟩
      rw [lexPrivmsgLoop_succ]
      simp only [hb1, hb2, hposw, if_true, hem]
      rw [hb3]
      exact h1

/-- The loop of `lexPrivmsg` on a message that the end of the file cuts short:
one `Word` per word, the last one included, then `EndOfStream` at every
further round; the loop never returns. -/
theorem lexPrivmsgLoop_eof (T : RangeTables) (fuel : Nat) :
    ∀ (words : List (Bytes × Bytes)) (lead : Bytes) (l : LogLexer) (rounds : Nat),
    runesAll (isBlankRune T) lead.length lead = true → wordsOK T words = true →
    View l.buf [] (messageBytes lead words) → words.length < rounds →
    (messageBytes lead words).length < fuel →
    ∃ l1 m, lexPrivmsgLoop T fuel rounds l = .timeout l1 ∧ 1 ≤ m ∧
      l1.Tokens = l.Tokens ++ (words.map (fun ws => ⟨.TokWord, ws.1⟩)
        ++ List.replicate m ⟨.TokEOF, []⟩) := by
  intro words
  induction words with
  | nil =>
    intro lead l rounds hlead _ hv hr hfuel
    obtain ⟨r, rfl⟩ : ∃ r, rounds = r + 1 := ⟨rounds - 1, by simp at hr; omega⟩
    obtain ⟨f, rfl⟩ : ∃ f, fuel = f + 1 := ⟨fuel - 1, by omega⟩
    rw [messageBytes_nil] at hv hfuel
    have hcnt := runeCount_le lead.length lead
    obtain ⟨b1, hb1, v1⟩ := ignoreWhile_to_eof (isBlankRune T) (isBlankRune_RuneError T)
      lead.length lead l.buf [] 0 (f + 1) hlead hv (by simp [iosize]) (by omega)
    simp only [ite_self] at v1
    obtain ⟨b2, hb2, v2⟩ := acceptWhile_at_eof (isWordRune T) (isWordRune_RuneError T) b1 []
      0 f v1.2.2.2 (by simp [iosize])
    obtain ⟨b3, hb3, v3⟩ := lexPrivmsgTail_eof T (f + 1) r { l with buf := b2 } v2.2.2.2
    obtain ⟨l1, hl1, ht⟩ := lexPrivmsgLoop_at_eof T (f + 1) (by omega) r
      { l with buf := b3, Tokens := l.Tokens ++ [⟨.TokEOF, []⟩] } v3
    refine ⟨l1, r + 1, ?_, by omega, ?_⟩
    · rw [lexPrivmsgLoop_succ]
      simp only [hb1, hb2, Nat.lt_irrefl, if_false, hb3, hl1]
    · rw [ht]
      simp [List.replicate_succ]
  | cons ws more ih =>
    intro lead l rounds hlead hwords hv hr hfuel
    obtain ⟨r, rfl⟩ : ∃ r, rounds = r + 1 := ⟨rounds - 1, by omega⟩
    obtain ⟨hw, hsep, hmore, hwm⟩ := wordsOK_cons T ws more hwords
    obtain ⟨hwne, hwrun, hwlen⟩ := wordOK_eq T ws.1 hw
    rw [messageBytes_cons] at hv hfuel
    simp only [List.length_append] at hfuel
    have hcnt := runeCount_le lead.length lead
    have hcntw := runeCount_le ws.1.length ws.1
    have hposw := runeCount_pos _ _ _ hwrun hwne
    have hhead := runesAll_head (isWordRune T) ws.1.length ws.1
      (messageBytes ws.2 more) hwrun hwne
    obtain ⟨b1, hb1, v1⟩ := ignoreWhile_stop (isBlankRune T) _ hhead.1
      (isBlank_of_isWord T _ hhead.2) lead.length lead l.buf [] 0 fuel hlead hv
      (by simp [iosize]) (by omega)
    simp only [ite_self] at v1
    by_cases hs : ws.2 = []
    · -- the last word, cut by the end of the file
      have hm : more = [] := by
        by_contra hne; exact hmore hne hs
      subst hm
      rw [hs, messageBytes_nil, List.append_nil] at v1
      obtain ⟨b2, hb2, v2⟩ := acceptWhile_to_eof (isWordRune T) (isWordRune_RuneError T)
        ws.1.length ws.1 b1 [] 0 fuel hwrun v1 (by simpa using hwlen) (by omega)
      simp only [List.nil_append, Nat.zero_add] at hb2 v2
      have hem := emit_win { l with buf := b2 } .TokWord ws.1 _ v2.2.2.2
      have v3 := ignoreToken_eof _ _ v2
      obtain ⟨b3, hb3, v4⟩ := lexPrivmsgTail_eof T fuel r
        { l with buf := b2.ignoreToken, Tokens := l.Tokens ++ [⟨.TokWord, ws.1⟩] } v3.2.2.2
      obtain ⟨l1, hl1, ht⟩ := lexPrivmsgLoop_at_eof T fuel (by omega) r
        { l with buf := b3, Tokens := l.Tokens ++ [⟨.TokWord, ws.1⟩] ++ [⟨.TokEOF, []⟩] } v4
      refine ⟨l1, r + 1, ?_, by omega, ?_⟩
      · rw [lexPrivmsgLoop_succ]
        simp only [hb1, hb2, hposw, if_true, hem]
        rw [hb3]
        exact hl1
      · rw [ht]
        simp [List.replicate_succ]
    · -- blanks follow: the loop goes on
      have a := after_word T ws.2 more [] hsep hs
      rw [List.append_nil] at a
      obtain ⟨a1, a2, a3⟩ := a
      obtain ⟨b2, hb2, v2⟩ := acceptWhile_stop (isWordRune T) _ a1 a2
        ws.1.length ws.1 b1 [] 0 fuel hwrun v1 (by simpa using hwlen) (by omega)
      simp only [List.nil_append, Nat.zero_add] at hb2 v2
      have hem := emit_win { l with buf := b2 } .TokWord ws.1 _ v2.2
      have v3 := ignoreToken_view _ _ _ v2
      obtain ⟨b3, hb3, v4⟩ := lexPrivmsgTail_continue T fuel r
        { l with buf := b2.ignoreToken, Tokens := l.Tokens ++ [⟨.TokWord, ws.1⟩] } _ v3 a1 a3
      obtain ⟨l1, m, h1, h2, h3⟩ := ih ws.2
        { l with buf := b3, Tokens := l.Tokens ++ [⟨.TokWord, ws.1⟩] } r hsep hwm v4
        (by simp only [List.length_cons] at hr; omega) (by omega)
      refine ⟨l1, m, ?_, h2, by simpa using h3⟩
      rw [lexPrivmsgLoop_succ]
      simp only [hb1, hb2, hposw, if_true, hem]
      rw [hb3]
      exact h1

/-! ### Runs are closed under concatenation and weaker tests -/

theorem runesAll_mono (p : Nat → Bool) :
    ∀ (n : Nat) (a : Bytes) (k : Nat), runesAll p n a = true → n ≤ k → runesAll p k a = true := by
  intro n
  induction n with
  | zero =>
    intro a k ha _
    cases a with
    | nil => cases k <;> simp [runesAll]
    | cons c cs => simp [runesAll] at ha
  | succ j ih =>
    intro a k ha hk
    cases a with
    | nil => cases k <;> simp [runesAll]
    | cons c cs =>
      obtain ⟨k', rfl⟩ : ∃ k', k = k' + 1 := ⟨k - 1, by omega⟩
      obtain ⟨j', hj, h1, h2, h3⟩ := runesAll_cons p (j + 1) c cs ha
      have hj' : j' = j := by omega
      rw [hj'] at h3
      simp only [runesAll, Bool.and_eq_true, decide_eq_true_eq]
      exact ⟨⟨h1, h2⟩, ih _ k' h3 (by omega)⟩

theorem runesAll_append (p : Nat → Bool) (m : Nat) (b : Bytes) (hb : runesAll p m b = true) :
    ∀ (n : Nat) (a : Bytes), runesAll p n a = true → runesAll p (n + m) (a ++ b) = true := by
  intro n
  induction n with
  | zero =>
    intro a ha
    cases a with
    | nil => simpa using hb
    | cons c cs => simp [runesAll] at ha
  | succ k ih =>
    intro a ha
    cases a with
    | nil => exact runesAll_mono p m b _ hb (by omega)
    | cons c cs =>
      obtain ⟨k', hk, h1, h2, h3⟩ := runesAll_cons p (k + 1) c cs ha
      have hk' : k' = k := by omega
      rw [hk'] at h3
      have hlen := DecodeRune_len_le (c :: cs)
      have e : k + 1 + m = (k + m) + 1 := by omega
      rw [e, List.cons_append]
      simp only [runesAll, Bool.and_eq_true, decide_eq_true_eq]
      have hdec : DecodeRune (c :: (cs ++ b)) = DecodeRune (c :: cs) :=
        DecodeRune_append_ok (c :: cs) b h1
      rw [hdec]
      refine ⟨⟨h1, h2⟩, ?_⟩
      have := ih _ h3
      rw [← List.cons_append, List.drop_append_of_le_length hlen]
      exact this

theorem runesAll_imp (p q : Nat → Bool) (hpq : ∀ r, p r = true → q r = true) :
    ∀ (n : Nat) (a : Bytes), runesAll p n a = true → runesAll q n a = true := by
  intro n
  induction n with
  | zero =>
    intro a ha
    cases a with
    | nil => simp [runesAll]
    | cons c cs => simp [runesAll] at ha
  | succ j ih =>
    intro a ha
    cases a with
    | nil => simp [runesAll]
    | cons c cs =>
      obtain ⟨j', hj, h1, h2, h3⟩ := runesAll_cons p (j + 1) c cs ha
      have hj' : j' = j := by omega
      rw [hj'] at h3
      simp only [runesAll, Bool.and_eq_true, decide_eq_true_eq]
      exact ⟨⟨h1, hpq _ h2⟩, ih _ h3⟩

theorem notNewline_of_isBlank (T : RangeTables) (r : Nat) (h : isBlankRune T r = true) :
    notNewline r = true := by
  simp only [isBlankRune, Bool.and_eq_true, decide_eq_true_eq] at h
  simp [notNewline, h.2]

theorem notNewline_of_isWord (T : RangeTables) (r : Nat) (h : isWordRune T r = true) :
    notNewline r = true := by
  simp only [isWordRune, Bool.and_eq_true, decide_eq_true_eq, Bool.not_eq_true'] at h
  simp only [notNewline, decide_eq_true_eq]
  intro e
  rw [e] at h
  simp [IsSpace, MaxLatin1] at h

/-- A message is a text that `lexIgnoredLine` skips. -/
theorem message_notNewline (T : RangeTables) :
    ∀ (words : List (Bytes × Bytes)) (lead : Bytes),
    runesAll (isBlankRune T) lead.length lead = true → wordsOK T words = true →
    ∃ n, runesAll notNewline n (messageBytes lead words) = true := by
  intro words
  induction words with
  | nil =>
    intro lead hlead _
    exact ⟨lead.length, by
      rw [messageBytes_nil]; exact runesAll_imp _ _ (notNewline_of_isBlank T) _ _ hlead⟩
  | cons ws more ih =>
    intro lead hlead hwords
    obtain ⟨hw, hsep, _, hwm⟩ := wordsOK_cons T ws more hwords
    obtain ⟨_, hwrun, _⟩ := wordOK_eq T ws.1 hw
    obtain ⟨n, hn⟩ := ih ws.2 hsep hwm
    have h1 := runesAll_imp _ _ (notNewline_of_isBlank T) _ _ hlead
    have h2 := runesAll_imp _ _ (notNewline_of_isWord T) _ _ hwrun
    have h3 := runesAll_append notNewline n _ hn _ _ h2
    have h4 := runesAll_append notNewline _ _ h3 _ _ h1
    exact ⟨_, by rw [messageBytes_cons]; exact h4⟩

/-! ### The run loop, line by line -/

theorem runLoop_next (T : RangeTables) (fuel s : Nat) (st st1 : StateFn) (l l1 : LogLexer)
    (h : st.call T fuel l = .next (some st1) l1) :
    runLoop T fuel (s + 1) st l = runLoop T fuel s st1 l1 := by
  simp only [runLoop, h]

theorem runLoop_done (T : RangeTables) (fuel s : Nat) (st : StateFn) (l l1 : LogLexer)
    (h : st.call T fuel l = .next none l1) :
    runLoop T fuel (s + 1) st l = (l1, true) := by
  simp only [runLoop, h]

theorem runLoop_timeout (T : RangeTables) (fuel s : Nat) (st : StateFn) (l l1 : LogLexer)
    (h : st.call T fuel l = .timeout l1) :
    runLoop T fuel (s + 1) st l = (l1, false) := by
  simp only [runLoop, h]

theorem IsSpace_RuneError (T : RangeTables) : IsSpace T RuneError = false := by
  simp [IsSpace, RuneError, MaxLatin1, T.White_Space_RuneError]

theorem isDateRune_RuneError (T : RangeTables) : isDateRune T RuneError = false := by
  simp [isDateRune, IsDigit, RuneError, MaxLatin1, T.Digit_RuneError]

theorem words_length_le (T : RangeTables) :
    ∀ (words : List (Bytes × Bytes)) (lead : Bytes), wordsOK T words = true →
    words.length ≤ (messageBytes lead words).length := by
  intro words
  induction words with
  | nil => intro lead _; simp
  | cons ws more ih =>
    intro lead hw
    obtain ⟨h1, _, _, h4⟩ := wordsOK_cons T ws more hw
    obtain ⟨hne, _, _⟩ := wordOK_eq T ws.1 h1
    have := ih ws.2 h4
    have hpos : 0 < ws.1.length := List.length_pos.2 hne
    rw [messageBytes_cons]
    simp only [List.length_cons, List.length_append]
    omega

theorem lexIgnoredLine_line (fuel n : Nat) (l : LogLexer) (pend text rest : Bytes)
    (hrun : runesAll notNewline n text = true)
    (hv : View l.buf pend (text ++ 0x0A :: rest)) (hsz : pend.length ≤ 1)
    (hfuel : text.length < fuel) :
    ∃ l1, lexIgnoredLine fuel l = .next (some .lexDate) l1 ∧ l1.Nick = l.Nick ∧
      l1.file = l.file ∧ l1.Tokens = l.Tokens ∧ LineStart l1 rest := by
  obtain ⟨b, pend1, h, v, hp⟩ := lexIgnoredLine_ok fuel n l pend text rest hrun hv
    (by simp only [iosize]; omega) hfuel
  exact ⟨_, h, by simp only [LogLexer.newline], by simp only [LogLexer.newline],
    by simp only [LogLexer.newline], pend1, v, by omega⟩

/-- A skipped line (`system` or `bang`): from `lexDate` back to `lexDate`, no token. -/
theorem skipped_run (T : RangeTables) (fuel n : Nat) (l : LogLexer) (stamp text rest : Bytes)
    (c : Nat) (hc : c = 0x20 ∨ c = 0x21) (hst : isStamp stamp = true)
    (htext : runesAll notNewline n text = true)
    (hr2 : c = 0x20 → (IsSpace T (DecodeRune (text ++ [0x0A])).1
      || (DecodeRune (text ++ [0x0A])).1 == 0x2A) = true)
    (hs : LineStart l (stamp ++ c :: text ++ 0x0A :: rest))
    (hfuel : (stamp ++ c :: text).length < fuel) :
    ∃ k l1, 2 ≤ k ∧ k ≤ 3 ∧
      (∀ s, runLoop T fuel (s + k) .lexDate l = runLoop T fuel s .lexDate l1) ∧
      l1.Nick = l.Nick ∧ l1.file = l.file ∧ l1.Tokens = l.Tokens ∧ LineStart l1 rest := by
  obtain ⟨pend, hv, hp⟩ := hs
  obtain ⟨a, b, c', d, e, f, hstamp, _⟩ := isStamp_eq stamp hst
  have hsl : stamp.length = 8 := by rw [hstamp]; rfl
  simp only [List.length_append, List.length_cons] at hfuel
  simp only [List.append_assoc, List.cons_append] at hv
  rcases hc with hc | hc
  · subst hc
    have hr := hr2 rfl
    have hdv : (DecodeRune (text ++ [0x0A])).1 ≠ RuneError := by
      intro e
      rw [e, IsSpace_RuneError] at hr
      simp [RuneError] at hr
    have hdeq : DecodeRune (text ++ 0x0A :: rest) = DecodeRune (text ++ [0x0A]) := by
      have := DecodeRune_append_ok (text ++ [0x0A]) rest hdv
      simpa using this
    obtain ⟨b1, s1, h1, hs1, v1⟩ := lexDate_space T fuel l pend stamp (text ++ 0x0A :: rest) hst hv
      (by rw [hdeq]; exact hdv) (by rw [hdeq]; exact hr) (by simp [iosize]; omega) (by omega)
    obtain ⟨l2, h2, n2, f2, t2, s2⟩ := lexIgnoredLine_line fuel n { l with buf := b1 } [0x20] text
      rest htext v1 (by simp) (by omega)
    rcases hs1 with hs1 | hs1
    · subst hs1
      refine ⟨2, l2, by omega, by omega, ?_, n2, f2, t2, s2⟩
      intro s
      rw [runLoop_next T fuel (s + 1) .lexDate .lexIgnoredLine l _ h1,
        runLoop_next T fuel s .lexIgnoredLine .lexDate _ _ h2]
    · subst hs1
      refine ⟨3, l2, by omega, by omega, ?_, n2, f2, t2, s2⟩
      intro s
      rw [runLoop_next T fuel (s + 2) .lexDate .lexAction l _ h1,
        runLoop_next T fuel (s + 1) .lexAction .lexIgnoredLine _ _ rfl,
        runLoop_next T fuel s .lexIgnoredLine .lexDate _ _ h2]
  · subst hc
    obtain ⟨b1, h1, v1⟩ := lexDate_bang T fuel l pend stamp (text ++ 0x0A :: rest) hst hv
      (by simp [iosize]; omega) (by omega)
    obtain ⟨l2, h2, n2, f2, t2, s2⟩ := lexIgnoredLine_line fuel n { l with buf := b1 } [0x21] text
      rest htext v1 (by simp) (by omega)
    refine ⟨2, l2, by omega, by omega, ?_, n2, f2, t2, s2⟩
    intro s
    rw [runLoop_next T fuel (s + 1) .lexDate .lexIgnoredLine l _ h1,
      runLoop_next T fuel s .lexIgnoredLine .lexDate _ _ h2]

/-- The head of a `privmsg` line: `lexDate` and `lexNick` lead to `lexPrivmsg` when
the nick is the speaker's and to `lexIgnoredLine` otherwise, with the message
ahead and nothing pending. -/
theorem privmsg_head (T : RangeTables) (fuel : Nat) (l : LogLexer)
    (stamp status nick rest : Bytes) (hst : isStamp stamp = true)
    (hstatus : statusOK status = true) (hne : nick ≠ [])
    (hrun : runesAll (isNickRune T) nick.length nick = true) (hlen : nick.length + 4 ≤ iosize)
    (hs : LineStart l (stamp ++ 0x3C :: (status ++ (nick ++ 0x3E :: rest))))
    (hfuel : 3 ≤ fuel ∧ nick.length < fuel) :
    ∃ b, View b [] rest ∧
      ∀ s, runLoop T fuel (s + 2) .lexDate l
        = runLoop T fuel s (if nick = l.Nick then .lexPrivmsg else .lexIgnoredLine)
            { l with buf := b } := by
  obtain ⟨pend, hv, hp⟩ := hs
  obtain ⟨b1, h1, v1⟩ := lexDate_nick T fuel l pend stamp _ hst hv (by simp [iosize]; omega)
    hfuel.1
  obtain ⟨b2, h2, v2⟩ := lexNick_ok T fuel { l with buf := b1 } status nick rest hstatus hne hrun
    hlen v1 hfuel.2
  refine ⟨b2, v2, ?_⟩
  intro s
  rw [runLoop_next T fuel (s + 1) .lexDate .lexNick l _ h1,
    runLoop_next T fuel s .lexNick _ _ _ h2]

theorem Line.wf_privmsg (T : RangeTables) (stamp status nick lead : Bytes)
    (words : List (Bytes × Bytes)) (h : (Line.privmsg stamp status nick lead words).wf T = true) :
    isStamp stamp = true ∧ statusOK status = true ∧ nick ≠ [] ∧
    runesAll (isNickRune T) nick.length nick = true ∧ nick.length + 4 ≤ iosize ∧
    runesAll (isBlankRune T) lead.length lead = true ∧ wordsOK T words = true := by
  simp only [Line.wf, Bool.and_eq_true, Bool.not_eq_true', List.isEmpty_eq_false,
    decide_eq_true_eq] at h
  obtain ⟨⟨⟨⟨⟨⟨h1, h2⟩, h3⟩, h4⟩, h5⟩, h6⟩, h7⟩ := h
  exact ⟨h1, h2, h3, h4, h5, h6, h7⟩

/-- One well-formed line ended by a newline: the run loop goes from `lexDate` at
the start of the line to `lexDate` at the start of the next one in two or
three state calls, and sends exactly the tokens of the line. -/
theorem line_run (T : RangeTables) (fuel : Nat) (ln : Line) (l : LogLexer) (rest : Bytes)
    (hwf : ln.wf T = true) (hs : LineStart l (ln.bytes ++ 0x0A :: rest))
    (hfuel : ln.bytes.length < fuel) :
    ∃ k l1, 2 ≤ k ∧ k ≤ 3 ∧
      (∀ s, runLoop T fuel (s + k) .lexDate l = runLoop T fuel s .lexDate l1) ∧
      l1.Nick = l.Nick ∧ l1.file = l.file ∧ l1.Tokens = l.Tokens ++ ln.tokens l.Nick ∧
      LineStart l1 rest := by
  cases ln with
  | system stamp text =>
    simp only [Line.wf, Bool.and_eq_true] at hwf
    obtain ⟨⟨h1, h2⟩, h3⟩ := hwf
    obtain ⟨k, l1, a1, a2, a3, a4, a5, a6, a7⟩ := skipped_run T fuel _ l stamp text rest 0x20
      (Or.inl rfl) h1 h2 (fun _ => h3) (by simpa [Line.bytes] using hs)
      (by simpa [Line.bytes] using hfuel)
    exact ⟨k, l1, a1, a2, a3, a4, a5, by simpa [Line.tokens] using a6, a7⟩
  | bang stamp text =>
    simp only [Line.wf, Bool.and_eq_true] at hwf
    obtain ⟨h1, h2⟩ := hwf
    obtain ⟨k, l1, a1, a2, a3, a4, a5, a6, a7⟩ := skipped_run T fuel _ l stamp text rest 0x21
      (Or.inr rfl) h1 h2 (fun h => absurd h (by decide)) (by simpa [Line.bytes] using hs)
      (by simpa [Line.bytes] using hfuel)
    exact ⟨k, l1, a1, a2, a3, a4, a5, by simpa [Line.tokens] using a6, a7⟩
  | privmsg stamp status nick lead words =>
    obtain ⟨h1, h2, h3, h4, h5, h6, h7⟩ := Line.wf_privmsg T stamp status nick lead words hwf
    obtain ⟨a, b, c', d, e, f, hstamp, _⟩ := isStamp_eq stamp h1
    have hsl : stamp.length = 8 := by rw [hstamp]; rfl
    simp only [Line.bytes, List.length_append, List.length_cons] at hfuel
    obtain ⟨b1, v1, hrl⟩ := privmsg_head T fuel l stamp status nick
      (messageBytes lead words ++ 0x0A :: rest) h1 h2 h3 h4 h5
      (by simpa [Line.bytes] using hs) ⟨by omega, by omega⟩
    by_cases hn : nick = l.Nick
    · obtain ⟨l1, e1, e2, e3, e4, e5⟩ := lexPrivmsgLoop_line T fuel rest words lead
        { l with buf := b1 } fuel h6 h7 v1
        (by have := words_length_le T words lead h7; omega) (by omega)
      refine ⟨3, l1, by omega, by omega, ?_, e2, e3, ?_, ⟨[], e5, by simp⟩⟩
      · intro s
        rw [hrl (s + 1), if_pos hn]
        exact runLoop_next T fuel s .lexPrivmsg .lexDate _ _ e1
      · rw [e4]
        simp [Line.tokens, hn]
    · obtain ⟨n, hnn⟩ := message_notNewline T words lead h6 h7
      obtain ⟨l1, e1, e2, e3, e4, e5⟩ := lexIgnoredLine_line fuel n { l with buf := b1 } []
        (messageBytes lead words) rest hnn v1 (by simp) (by omega)
      refine ⟨3, l1, by omega, by omega, ?_, e2, e3, ?_, e5⟩
      · intro s
        rw [hrl (s + 1), if_neg hn]
        exact runLoop_next T fuel s .lexIgnoredLine .lexDate _ _ e1
      · rw [e4]
        simp [Line.tokens, hn]

theorem Line.bytes_length (T : RangeTables) (ln : Line) (h : ln.wf T = true) :
    9 ≤ ln.bytes.length := by
  cases ln with
  | system stamp text =>
    simp only [Line.wf, Bool.and_eq_true] at h
    obtain ⟨a, b, c', d, e, f, hstamp, _⟩ := isStamp_eq stamp h.1.1
    simp [Line.bytes, hstamp]
  | bang stamp text =>
    simp only [Line.wf, Bool.and_eq_true] at h
    obtain ⟨a, b, c', d, e, f, hstamp, _⟩ := isStamp_eq stamp h.1
    simp [Line.bytes, hstamp]
  | privmsg stamp status nick lead words =>
    obtain ⟨h1, _⟩ := Line.wf_privmsg T stamp status nick lead words h
    obtain ⟨a, b, c', d, e, f, hstamp, _⟩ := isStamp_eq stamp h1
    simp [Line.bytes, hstamp]

/-- A well-formed transcript, line after line. -/
theorem transcript_run (T : RangeTables) (fuel : Nat) (rest : Bytes) :
    ∀ (lines : List Line) (l : LogLexer), (∀ ln ∈ lines, ln.wf T = true) →
    LineStart l (transcript lines ++ rest) → (transcript lines).length < fuel →
    ∃ k l1, 3 * k ≤ (transcript lines).length ∧
      (∀ s, runLoop T fuel (s + k) .lexDate l = runLoop T fuel s .lexDate l1) ∧
      l1.Nick = l.Nick ∧ l1.file = l.file ∧
      l1.Tokens = l.Tokens ++ lines.flatMap (Line.tokens l.Nick) ∧ LineStart l1 rest := by
  intro lines
  induction lines with
  | nil =>
    intro l _ hs _
    exact ⟨0, l, by simp, fun s => rfl, rfl, rfl, by simp, by simpa [transcript] using hs⟩
  | cons ln lines ih =>
    intro l hwf hs hfuel
    have hcons : transcript (ln :: lines) = ln.bytes ++ 0x0A :: transcript lines := by
      simp [transcript]
    rw [hcons] at hs hfuel ⊢
    simp only [List.length_append, List.length_cons] at hfuel ⊢
    have hl9 := Line.bytes_length T ln (hwf ln (List.mem_cons_self _ _))
    obtain ⟨k1, l1, a1, a2, a3, a4, a5, a6, a7⟩ := line_run T fuel ln l
      (transcript lines ++ rest) (hwf ln (List.mem_cons_self _ _))
      (by simpa using hs) (by omega)
    obtain ⟨k2, l2, b1, b2, b3, b4, b5, b6⟩ := ih l1
      (fun x hx => hwf x (List.mem_cons_of_mem _ hx)) a7 (by omega)
    refine ⟨k2 + k1, l2, by omega, ?_, by rw [b3, a4], by rw [b4, a5], ?_, b6⟩
    · intro s
      rw [← Nat.add_assoc, a3, b2]
    · rw [b5, a6, a4]
      simp

/-! ### The end of the file at the start of a line -/

theorem errorfEOFValid_eof (l : LogLexer) (pend : Bytes) (e : Option GoError)
    (h : AtEOF l.buf pend) :
    (l.errorfEOFValid e).2
      = { l with buf := l.buf.ignoreToken, Tokens := l.Tokens ++ [⟨.TokEOF, pend⟩] } := by
  have hem := emit_win l .TokEOF pend [] h.2.2.2
  simp only [LogLexer.errorfEOFValid, Buffer.lastError, h.1, h.2.1, if_true, hem]

theorem errorfEOF_eof (l : LogLexer) (pend : Bytes) (e : Option GoError)
    (h : AtEOF l.buf pend) :
    ∃ msg, l.errorfEOF e = (none, { l with Tokens := l.Tokens ++ [⟨.TokError, msg⟩] }) := by
  refine ⟨fmtError (some ErrPrematuredEOF) ++ ascii " at " ++ l.file ++ ascii ":"
    ++ fmtInt l.curline ++ ascii ":" ++ fmtInt l.column, ?_⟩
  simp only [LogLexer.errorfEOF, Buffer.lastError, h.1, h.2.1, if_true, LogLexer.errorf]

theorem lexDateGroup_eof (T : RangeTables) (fuel i : Nat) (l : LogLexer) (pend : Bytes)
    (hv : Win l.buf pend []) (hsz : pend.length + 4 ≤ iosize) (hfuel : 1 ≤ fuel) :
    ∃ l1 extra, lexDateGroup T fuel i l = some l1 ∧ AtEOF l1.buf [] ∧ l1.Nick = l.Nick ∧
      l1.file = l.file ∧ l1.Tokens = l.Tokens ++ ⟨.TokEOF, pend⟩ :: extra := by
  obtain ⟨f, rfl⟩ : ∃ f, fuel = f + 1 := ⟨fuel - 1, by omega⟩
  obtain ⟨b1, hb1, v1⟩ := acceptWhile_at_eof (isDateRune T) (isDateRune_RuneError T) l.buf pend
    0 f hv hsz
  obtain ⟨p1, p2⟩ := peek_eof b1 pend v1.2.2.2 hsz
  have hv2 := errorfEOFValid_eof { l with buf := b1.peek.2 } pend
    (some (.text (ascii "Invalid date format, got " ++ EncodeRune b1.peek.1
          ++ ascii " expected DIGIT"))) p2
  have v3 := ignoreToken_eof _ _ p2
  by_cases hi : i = 2
  · refine ⟨{ l with
              buf := b1.peek.2.ignoreToken.ignoreToken
              Tokens := l.Tokens ++ [⟨.TokEOF, pend⟩] }, [], ?_, ignoreToken_eof _ _ v3, rfl, rfl,
      rfl⟩
    unfold lexDateGroup
    simp only [hb1, ne_eq, OfNat.zero_ne_ofNat, not_false_eq_true, if_true, hv2, hi,
      not_true_eq_false, if_false]
  · obtain ⟨n1, n2⟩ := next_eof b1.peek.2.ignoreToken [] v3.2.2.2 (by simp [iosize])
    obtain ⟨msg, hmsg⟩ := errorfEOF_eof
      { l with buf := b1.peek.2.ignoreToken.next.2, Tokens := l.Tokens ++ [⟨.TokEOF, pend⟩] } []
      (some (.text (ascii "Invalid date format, got " ++ EncodeRune b1.peek.2.ignoreToken.next.1
            ++ ascii " expected \":\""))) n2
    refine ⟨{ l with
              buf := b1.peek.2.ignoreToken.next.2.ignoreToken
              Tokens := l.Tokens ++ [⟨.TokEOF, pend⟩] ++ [⟨.TokError, msg⟩] }, [⟨.TokError, msg⟩],
      ?_, ignoreToken_eof _ _ n2, rfl, rfl, by simp⟩
    unfold lexDateGroup
    have hne : ¬ (b1.peek.2.ignoreToken.next.1 = 0x3A) := by rw [n1]; decide
    simp only [hb1, ne_eq, OfNat.zero_ne_ofNat, not_false_eq_true, if_true, hv2, hi, hne, hmsg]

theorem lexDate_eof (T : RangeTables) (fuel : Nat) (l : LogLexer) (hs : LineStart l [])
    (hfuel : 1 ≤ fuel) :
    ∃ l1 v tail, lexDate T fuel l = .next none l1 ∧
      l1.Tokens = l.Tokens ++ ⟨.TokEOF, v⟩ :: tail := by
  obtain ⟨pend, hv, hp⟩ := hs
  obtain ⟨l0, x0, h0, v0, _, _, t0⟩ := lexDateGroup_eof T fuel 0 l pend hv.2
    (by simp only [iosize]; omega) hfuel
  obtain ⟨l1, x1, h1, v1, _, _, t1⟩ := lexDateGroup_eof T fuel 1 l0 [] v0.2.2.2
    (by simp [iosize]) hfuel
  obtain ⟨l2, x2, h2, v2, _, _, t2⟩ := lexDateGroup_eof T fuel 2 l1 [] v1.2.2.2
    (by simp [iosize]) hfuel
  obtain ⟨n1, n2⟩ := next_eof l2.buf [] v2.2.2.2 (by simp [iosize])
  obtain ⟨msg, hmsg⟩ := errorfEOF_eof { l2 with buf := l2.buf.next.2 } []
    (some (.text (ascii "Invalid char, got " ++ EncodeRune l2.buf.next.1
        ++ ascii " expected \"<\" or SPACE"))) n2
  refine ⟨{ l2 with buf := l2.buf.next.2, Tokens := l2.Tokens ++ [⟨.TokError, msg⟩] }, pend,
    x0 ++ ⟨.TokEOF, []⟩ :: x1 ++ ⟨.TokEOF, []⟩ :: x2 ++ [⟨.TokError, msg⟩], ?_, ?_⟩
  · unfold lexDate
    have hsp : IsSpace T l2.buf.next.1 = false := by rw [n1]; exact IsSpace_RuneError T
    have hlt : ¬ (l2.buf.next.1 = 0x3C) := by rw [n1]; decide
    have hbang : ¬ (l2.buf.next.1 = 0x21) := by rw [n1]; decide
    simp only [h0, h1, h2, hsp, Bool.false_eq_true, if_false, hlt, hbang, hmsg]
  · simp only [t2, t1, t0, List.append_assoc, List.cons_append, List.nil_append]

/-! ### The tokenizer from its initial state -/

theorem InitLogLexer_start (name content nick : Bytes) :
    LineStart (InitLogLexer name content nick) content := by
  refine ⟨[], ⟨rfl, [], [], List.replicate iosize 0, ⟨?_, ?_, rfl, rfl, rfl⟩, ?_⟩, by simp⟩
  · simp [InitLogLexer, newBuffer]
  · simp [InitLogLexer, newBuffer]
  · simp [InitLogLexer, newBuffer]

/-- The run on a transcript that starts with well-formed lines: after them the
loop is at `lexDate` on what follows, and has sent the tokens of the lines. -/
theorem Run_lines (T : RangeTables) (fuel : Nat) (name nick : Bytes) (lines : List Line)
    (rest : Bytes) (hwf : ∀ ln ∈ lines, ln.wf T = true)
    (hfuel : (transcript lines).length < fuel) :
    ∃ k l1, 3 * k ≤ (transcript lines).length ∧
      (InitLogLexer name (transcript lines ++ rest) nick).Run T fuel
        = ⟨(runLoop T fuel (fuel - k) .lexDate l1).1.Tokens,
            (runLoop T fuel (fuel - k) .lexDate l1).2⟩ ∧
      l1.Nick = nick ∧ l1.Tokens = lines.flatMap (Line.tokens nick) ∧ LineStart l1 rest := by
  obtain ⟨k, l1, h1, h2, h3, _, h5, h6⟩ := transcript_run T fuel rest lines
    (InitLogLexer name (transcript lines ++ rest) nick) hwf (InitLogLexer_start _ _ _) hfuel
  refine ⟨k, l1, h1, ?_, h3, by simpa [InitLogLexer] using h5, h6⟩
  have hk : (fuel - k) + k = fuel := by omega
  have h := h2 (fuel - k)
  rw [hk] at h
  unfold LogLexer.Run
  simp only [h]

/-- The run on a transcript of well-formed lines, each ended by a newline: the
tokens of the lines, then `EndOfStream`; the channel is closed. -/
theorem Run_wellformed (T : RangeTables) (name nick : Bytes) (lines : List Line)
    (fuel : Nat) (hwf : ∀ ln ∈ lines, ln.wf T = true)
    (hfuel : (transcript lines).length < fuel) :
    ∃ v tail, (InitLogLexer name (transcript lines) nick).Run T fuel
      = ⟨lines.flatMap (Line.tokens nick) ++ ⟨.TokEOF, v⟩ :: tail, true⟩ := by
  obtain ⟨k, l1, h1, h2, _, h4, h5⟩ := Run_lines T fuel name nick lines [] hwf hfuel
  rw [List.append_nil] at h2
  obtain ⟨l2, v, tail, e1, e2⟩ := lexDate_eof T fuel l1 h5 (by omega)
  obtain ⟨s, hs⟩ : ∃ s, fuel - k = s + 1 := ⟨fuel - k - 1, by omega⟩
  have hr := runLoop_done T fuel s .lexDate l1 l2 e1
  rw [hs, hr] at h2
  refine ⟨v, tail, ?_⟩
  rw [h2, e2, h4]

/-- The run on a transcript whose last line is a message of the speaker cut by
the end of the file: the tokens of the lines before, the words of the
message, then `EndOfStream` over and over; the channel is never closed. -/
theorem Run_message_eof (T : RangeTables) (name nick : Bytes) (lines : List Line)
    (stamp status lead : Bytes) (words : List (Bytes × Bytes)) (fuel : Nat)
    (hwf : ∀ ln ∈ lines, ln.wf T = true)
    (hlast : (Line.privmsg stamp status nick lead words).wf T = true)
    (hfuel : (transcript lines ++ (Line.privmsg stamp status nick lead words).bytes).length
      < fuel) :
    ∃ m, (InitLogLexer name
        (transcript lines ++ (Line.privmsg stamp status nick lead words).bytes) nick).Run T fuel
      = ⟨lines.flatMap (Line.tokens nick) ++ (words.map (fun ws => ⟨.TokWord, ws.1⟩)
          ++ ⟨.TokEOF, []⟩ :: List.replicate m ⟨.TokEOF, []⟩), false⟩ := by
  simp only [List.length_append] at hfuel
  obtain ⟨k, l1, h1, h2, h3, h4, h5⟩ := Run_lines T fuel name nick lines
    (Line.privmsg stamp status nick lead words).bytes hwf (by omega)
  obtain ⟨w1, w2, w3, w4, w5, w6, w7⟩ := Line.wf_privmsg T stamp status nick lead words hlast
  have hl9 := Line.bytes_length T _ hlast
  simp only [Line.bytes, List.length_append, List.length_cons] at hfuel hl9
  obtain ⟨b1, v1, hrl⟩ := privmsg_head T fuel l1 stamp status nick (messageBytes lead words)
    w1 w2 w3 w4 w5 (by simpa [Line.bytes] using h5) ⟨by omega, by omega⟩
  obtain ⟨l2, m, e1, e2, e3⟩ := lexPrivmsgLoop_eof T fuel words lead { l1 with buf := b1 } fuel
    w6 w7 v1 (by have := words_length_le T words lead w7; omega) (by omega)
  obtain ⟨s, hs⟩ : ∃ s, fuel - k = s + 1 + 2 := ⟨fuel - k - 3, by omega⟩
  have hr := runLoop_timeout T fuel s .lexPrivmsg { l1 with buf := b1 } l2 e1
  rw [hs, hrl (s + 1), if_pos h3.symm, hr] at h2
  obtain ⟨m', rfl⟩ : ∃ m', m = m' + 1 := ⟨m - 1, by omega⟩
  refine ⟨m', ?_⟩
  rw [h2, e3]
  simp only [h4, List.replicate_succ]

/-- The run on a transcript whose last line is a system line cut by the end of
the file: the loop of `lexIgnoredLine` never ends, and no token is sent for
the line, whatever the fuel. -/
theorem Run_system_eof (T : RangeTables) (name nick : Bytes) (lines : List Line)
    (stamp text : Bytes) (n fuel : Nat) (hwf : ∀ ln ∈ lines, ln.wf T = true)
    (hst : isStamp stamp = true) (htext : runesAll notNewline n text = true)
    (hd : (DecodeRune text).1 ≠ RuneError)
    (hr2 : (IsSpace T (DecodeRune text).1 || (DecodeRune text).1 == 0x2A) = true)
    (hfuel : (transcript lines).length + 3 ≤ fuel) :
    (InitLogLexer name (transcript lines ++ (stamp ++ 0x20 :: text)) nick).Run T fuel
      = ⟨lines.flatMap (Line.tokens nick), false⟩ := by
  obtain ⟨k, l1, h1, h2, h3, h4, ⟨pend, hv, hp⟩⟩ := Run_lines T fuel name nick lines
    (stamp ++ 0x20 :: text) hwf (by omega)
  obtain ⟨b1, s1, e1, hs1, v1⟩ := lexDate_space T fuel l1 pend stamp text hst hv hd hr2
    (by simp [iosize]; omega) (by omega)
  have e2 := lexIgnoredLine_eof fuel n { l1 with buf := b1 } [0x20] text htext v1
    (by simp [iosize])
  rw [h2]
  rcases hs1 with hs1 | hs1
  · subst hs1
    obtain ⟨s, hs⟩ : ∃ s, fuel - k = s + 1 + 1 := ⟨fuel - k - 2, by omega⟩
    rw [hs, runLoop_next T fuel (s + 1) .lexDate .lexIgnoredLine l1 _ e1,
      runLoop_timeout T fuel s .lexIgnoredLine _ _ e2]
    simp only [h4]
  · subst hs1
    obtain ⟨s, hs⟩ : ∃ s, fuel - k = s + 1 + 1 + 1 := ⟨fuel - k - 3, by omega⟩
    rw [hs, runLoop_next T fuel (s + 2) .lexDate .lexAction l1 _ e1,
      runLoop_next T fuel (s + 1) .lexAction .lexIgnoredLine _ _ rfl,
      runLoop_timeout T fuel s .lexIgnoredLine _ _ e2]
    simp only [h4]

/-! ### A token that fills the window -/

theorem readMore_full (b : Buffer) (pend win post : Bytes) (h : Layout b [] pend win post) :
    ∃ win1 post1, Layout b.readMore [] pend win1 post1 ∧
      win1 ++ b.readMore.rd.data = win ++ b.rd.data ∧
      (pend.length + win1.length = iosize ∨ b.readMore.rd.data = []) ∧
      b.readMore.runefailed = b.runefailed ∧
      (pend.length + win.length = iosize → b.readMore.err = none) := by
  obtain ⟨hbuf, hlen, hs, hc, he⟩ := h
  simp only [List.nil_append, List.length_nil, Nat.zero_add] at hbuf hs hc he
  have hlen' : pend.length + (win.length + post.length) = iosize := by
    rw [← hlen, hbuf]; simp
  have hn : b.Buf.length - b.end_pos = post.length := by omega
  have htake : List.take b.end_pos b.Buf = pend ++ win := by
    rw [hbuf, he, ← List.length_append, ← List.append_assoc, List.take_left' rfl]
  have hdrop : List.drop b.end_pos b.Buf = post := by
    rw [hbuf, he, ← List.length_append, ← List.append_assoc, List.drop_left' rfl]
  have hdl : (List.take post.length b.rd.data).length ≤ post.length := by
    simp
  refine ⟨win ++ b.rd.data.take post.length, post.drop (b.rd.data.take post.length).length,
    ⟨?_, ?_, ?_, ?_, ?_⟩, ?_, ?_, rfl, ?_⟩
  · show List.take b.end_pos b.Buf ++ goCopy (List.drop b.end_pos b.Buf) _ = _
    rw [htake, hdrop, hn, Read_eq]
    unfold goCopy
    rw [List.take_of_length_le hdl]
    simp
  · show (List.take b.end_pos b.Buf ++ goCopy (List.drop b.end_pos b.Buf) _).length = _
    rw [htake, hdrop, hn, Read_eq]
    unfold goCopy
    rw [List.take_of_length_le hdl]
    simp only [List.length_append, List.length_drop]
    omega
  · exact hs
  · show b.cur_point = _
    simp [hc]
  · show (if (b.rd.Read (b.Buf.length - b.end_pos)).1.length > 0 then _ else _) = _
    rw [hn, Read_eq]
    simp only [List.nil_append, List.length_nil, Nat.zero_add, List.length_append]
    split_ifs with h1
    · omega
    · omega
  · show _ ++ (b.rd.Read (b.Buf.length - b.end_pos)).2.2.data = _
    rw [hn, Read_eq]
    simp
  · show _ ∨ (b.rd.Read (b.Buf.length - b.end_pos)).2.2.data = _
    rw [hn, Read_eq]
    by_cases hle : b.rd.data.length ≤ post.length
    · right; simp [List.drop_eq_nil_iff.2 hle]
    · left
      simp only [List.length_append, List.length_take]
      omega
  · intro hfull
    show (b.rd.Read (b.Buf.length - b.end_pos)).2.1 = _
    rw [hn, Read_eq]
    have : post.length = 0 := by omega
    simp [this]

theorem refill_full (b : Buffer) (pend rest : Bytes) (h : Win b pend rest) :
    ∃ pre1 win1 post1, Layout b.refill pre1 pend win1 post1 ∧
      win1 ++ b.refill.rd.data = rest ∧
      (4 ≤ win1.length ∨ pend.length + win1.length = iosize ∨ b.refill.rd.data = []) ∧
      b.refill.runefailed = b.runefailed ∧
      (pend.length = iosize → b.refill.err = none) := by
  obtain ⟨pre, win, post, hl, hrest⟩ := h
  have hsum : pre.length + (pend.length + (win.length + post.length)) = iosize := by
    rw [← hl.2.1, hl.1]; simp
  unfold Buffer.refill
  by_cases hlt : b.end_pos - b.cur_point < 4
  · rw [if_pos hlt, fill_eq]
    obtain ⟨post0, h0, hrd, hrf⟩ := shift_layout b pre pend win post hl
    obtain ⟨win1, post1, h1, h2, h3, h4, h5⟩ := readMore_full b.shift pend win post0 h0
    refine ⟨[], win1, post1, h1, by rw [h2, hrd, hrest], Or.inr h3, by rw [h4, hrf], ?_⟩
    intro hfull
    exact h5 (by omega)
  · rw [if_neg hlt]
    refine ⟨pre, win, post, hl, hrest, Or.inl ?_, rfl, ?_⟩
    · obtain ⟨_, _, _, hc, he⟩ := hl
      omega
    · intro hfull
      obtain ⟨_, _, _, hc, he⟩ := hl
      omega

/-- `next` on an ASCII byte, as long as the pending token leaves room for one byte. -/
theorem next_ascii (b : Buffer) (pend rest : Bytes) (a : Nat) (ha : a < 0x80)
    (hv : Win b pend (a :: rest)) (hp : pend.length < iosize) :
    b.next.1 = a ∧ Win b.next.2 (pend ++ [a]) rest ∧ b.next.2.runefailed = b.runefailed ∧
    b.next.2.last_rune_len = 1 := by
  obtain ⟨pre1, win1, post1, h1, h2, h3, h4, _⟩ := refill_full b pend (a :: rest) hv
  have hw : ∃ w, win1 = a :: w := by
    cases win1 with
    | nil =>
      simp only [List.length_nil, Nat.add_zero, List.nil_append] at h3 h2
      rcases h3 with h3 | h3 | h3
      · omega
      · omega
      · rw [h3] at h2; exact absurd h2 (by simp)
    | cons c w =>
      simp only [List.cons_append, List.cons.injEq] at h2
      exact ⟨w, by rw [h2.1]⟩
  obtain ⟨w, rfl⟩ := hw
  have hdec : DecodeRune (a :: w) = (a, 1) := DecodeRune_ascii a w ha
  obtain ⟨e1, e2, e3, e4, e5⟩ := decode_ok b.refill pre1 pend (a :: w) post1 h1
    (by rw [hdec]; exact RuneError_ne_ascii a ha)
  rw [hdec] at e1 e2 e3
  rw [next_eq]
  refine ⟨e1, ⟨pre1, w, post1, by simpa using e2, ?_⟩, by rw [e4, h4], e3⟩
  rw [e5]
  simpa using h2

/-- `next` when the pending token fills the whole window: nothing can be read,
and the empty window is decoded as U+FFFD. -/
theorem next_full (b : Buffer) (pend rest : Bytes) (hv : Win b pend rest)
    (hp : pend.length = iosize) :
    b.next.1 = RuneError ∧ Win b.next.2 pend rest ∧ b.next.2.last_rune_len = 0 := by
  obtain ⟨pre1, win1, post1, h1, h2, h3, h4, h5⟩ := refill_full b pend rest hv
  have hsum : pre1.length + (pend.length + (win1.length + post1.length)) = iosize := by
    rw [← h1.2.1, h1.1]; simp
  have hw : win1 = [] := List.length_eq_zero.1 (by omega)
  subst hw
  have hsl := layout_slice_win _ _ _ _ _ h1
  obtain ⟨hbuf, hlen, hs, hc, he⟩ := h1
  rw [next_eq]
  unfold Buffer.decode
  simp only [hsl, DecodeRune_nil, if_true, h5 hp, List.length_nil, gt_iff_lt, Nat.not_lt_zero,
    if_false, Nat.add_zero]
  exact ⟨trivial, ⟨pre1, [], post1, ⟨hbuf, hlen, hs, hc, he⟩, h2⟩, trivial⟩

theorem backup_win_zero (b : Buffer) (pend rest : Bytes) (h : Win b pend rest)
    (hl : b.last_rune_len = 0) : Win b.backup pend rest := by
  obtain ⟨pre, win, post, hlay, hrest⟩ := h
  have := backup_layout b pre pend [] win post (by simpa using hlay) (by simpa using hl)
  exact ⟨pre, win, post, by simpa using this, hrest⟩

/-- `acceptWhile` on a run of one accepted ASCII byte that runs past the window:
it stops when the pending token fills the window. -/
theorem acceptWhile_overflow (p : Nat → Bool) (a : Nat) (ha : a < 0x80) (hpa : p a = true)
    (hstop : p RuneError = false) (rest : Bytes) :
    ∀ (k : Nat) (b : Buffer) (pend : Bytes) (n fuel : Nat),
    Win b pend (List.replicate k a ++ rest) → pend.length + k = iosize → k < fuel →
    ∃ b1, Buffer.acceptWhile p fuel n b = some (n + k, b1) ∧
      Win b1 (pend ++ List.replicate k a) rest := by
  intro k
  induction k with
  | zero =>
    intro b pend n fuel hv hp hfuel
    obtain ⟨f, rfl⟩ : ∃ f, fuel = f + 1 := ⟨fuel - 1, by omega⟩
    simp only [List.replicate_zero, List.nil_append, Nat.add_zero, List.append_nil] at hv hp ⊢
    obtain ⟨e1, e2, e3⟩ := next_full b pend rest hv hp
    refine ⟨b.next.2.backup, ?_, backup_win_zero _ _ _ e2 e3⟩
    unfold Buffer.acceptWhile
    simp only [e1, hstop, Bool.false_eq_true, if_false]
  | succ k ih =>
    intro b pend n fuel hv hp hfuel
    obtain ⟨f, rfl⟩ : ∃ f, fuel = f + 1 := ⟨fuel - 1, by omega⟩
    simp only [List.replicate_succ, List.cons_append] at hv
    obtain ⟨e1, e2, _, _⟩ := next_ascii b pend _ a ha hv (by omega)
    obtain ⟨b1, hb1, v1⟩ := ih b.next.2 (pend ++ [a]) (n + 1) f e2
      (by simp only [List.length_append, List.length_singleton]; omega) (by omega)
    refine ⟨b1, ?_, ?_⟩
    · unfold Buffer.acceptWhile
      simp only [e1, hpa, if_true, hb1]
      congr 2; omega
    · simpa [List.replicate_succ] using v1

/-! ### Tokens are only ever appended -/

theorem errorf_grows (l : LogLexer) (e : Option GoError) (ts : List Token)
    (h : ts <+: l.Tokens) : ts <+: (l.errorf e).2.Tokens :=
  h.trans (List.prefix_append _ _)

theorem emit_grows (l : LogLexer) (t : TokenType) (ts : List Token)
    (h : ts <+: l.Tokens) : ts <+: (l.emit t).Tokens :=
  h.trans (List.prefix_append _ _)

theorem errorfEOF_grows (l : LogLexer) (e : Option GoError) (ts : List Token)
    (h : ts <+: l.Tokens) : ts <+: (l.errorfEOF e).2.Tokens := by
  unfold LogLexer.errorfEOF
  split <;> exact errorf_grows _ _ _ h

theorem errorfEOFValid_grows (l : LogLexer) (e : Option GoError) (ts : List Token)
    (h : ts <+: l.Tokens) : ts <+: (l.errorfEOFValid e).2.Tokens := by
  unfold LogLexer.errorfEOFValid
  split
  · exact errorf_grows _ _ _ h
  · exact emit_grows _ _ _ h
  · exact errorf_grows _ _ _ h

theorem newline_grows (l : LogLexer) (ts : List Token)
    (h : ts <+: l.Tokens) : ts <+: l.newline.Tokens := h

theorem lexDateGroup_grows (T : RangeTables) (fuel i : Nat) (l l1 : LogLexer)
    (h : lexDateGroup T fuel i l = some l1) : l.Tokens <+: l1.Tokens := by
  unfold lexDateGroup at h
  split at h
  · exact absurd h (by simp)
  · rename_i n b _
    simp only [Option.some.injEq] at h
    rw [← h]
    simp only
    split_ifs
    all_goals
      repeat (first
        | with_reducible exact List.prefix_refl _
        | with_reducible apply errorfEOF_grows
        | with_reducible apply errorfEOFValid_grows)

theorem lexDate_grows (T : RangeTables) (fuel : Nat) (l : LogLexer) :
    l.Tokens <+: (lexDate T fuel l).tokens := by
  unfold lexDate
  split
  · exact List.prefix_refl _
  · rename_i l0 h0
    have g0 := lexDateGroup_grows T fuel 0 l l0 h0
    split
    · exact g0
    · rename_i l1 h1
      have g1 := g0.trans (lexDateGroup_grows T fuel 1 l0 l1 h1)
      split
      · exact g1
      · rename_i l2 h2
        refine (g1.trans (lexDateGroup_grows T fuel 2 l1 l2 h2)).trans ?_
        simp only
        split_ifs
        all_goals simp only [Step.tokens]
        all_goals
          repeat (first
            | with_reducible exact List.prefix_refl _
            | with_reducible apply errorfEOF_grows
            | with_reducible apply errorfEOFValid_grows
            | with_reducible apply emit_grows
            | with_reducible apply newline_grows)

theorem lexIgnoredLine_grows (fuel : Nat) (l : LogLexer) :
    l.Tokens <+: (lexIgnoredLine fuel l).tokens := by
  unfold lexIgnoredLine
  split
  · exact List.prefix_refl _
  · rename_i n b _
    simp only [Step.tokens]
    split_ifs
    all_goals
      repeat (first
        | with_reducible exact List.prefix_refl _
        | with_reducible apply errorfEOF_grows
        | with_reducible apply errorfEOFValid_grows
        | with_reducible apply emit_grows
        | with_reducible apply newline_grows)

theorem lexNick_grows (T : RangeTables) (fuel : Nat) (l : LogLexer) :
    l.Tokens <+: (lexNick T fuel l).tokens := by
  unfold lexNick
  simp only
  split
  · simp only [Step.tokens]
    split_ifs
    all_goals
      repeat (first
        | with_reducible exact List.prefix_refl _
        | with_reducible apply errorfEOF_grows)
  · rename_i n b _
    split_ifs
    all_goals simp only [Step.tokens]
    all_goals
      repeat (first
        | with_reducible exact List.prefix_refl _
        | with_reducible apply errorfEOF_grows)

theorem lexPrivmsgTail_grows (T : RangeTables) (fuel rounds : Nat)
    (ih : ∀ l : LogLexer, l.Tokens <+: (lexPrivmsgLoop T fuel rounds l).tokens) (l : LogLexer) :
    l.Tokens <+: (lexPrivmsgTail T fuel rounds l).tokens := by
  unfold lexPrivmsgTail
  simp only
  split_ifs
  · simp only [Step.tokens]
    with_reducible apply newline_grows
    with_reducible apply emit_grows
    with_reducible exact List.prefix_refl _
  · refine List.IsPrefix.trans ?_ (ih _)
    with_reducible apply errorfEOFValid_grows
    with_reducible exact List.prefix_refl _
  · refine List.IsPrefix.trans ?_ (ih _)
    with_reducible exact List.prefix_refl _

theorem lexPrivmsgLoop_grows (T : RangeTables) (fuel : Nat) :
    ∀ (rounds : Nat) (l : LogLexer), l.Tokens <+: (lexPrivmsgLoop T fuel rounds l).tokens := by
  intro rounds
  induction rounds with
  | zero => intro l; exact List.prefix_refl _
  | succ rounds ih =>
    intro l
    rw [lexPrivmsgLoop_succ]
    split
    · exact List.prefix_refl _
    · rename_i n0 b _
      split
      · exact List.prefix_refl _
      · rename_i n b1 _
        refine List.IsPrefix.trans ?_ (lexPrivmsgTail_grows T fuel rounds ih _)
        split_ifs
        all_goals
          repeat (first
            | with_reducible exact List.prefix_refl _
            | with_reducible apply errorfEOF_grows
            | with_reducible apply errorfEOFValid_grows
            | with_reducible apply emit_grows
            | with_reducible apply newline_grows)

theorem call_grows (T : RangeTables) (fuel : Nat) (state : StateFn) (l : LogLexer) :
    l.Tokens <+: (state.call T fuel l).tokens := by
  cases state
  · exact lexDate_grows T fuel l
  · exact lexIgnoredLine_grows fuel l
  · exact List.prefix_refl _
  · exact lexNick_grows T fuel l
  · exact lexPrivmsgLoop_grows T fuel fuel l

theorem runLoop_grows (T : RangeTables) (fuel : Nat) :
    ∀ (steps : Nat) (state : StateFn) (l : LogLexer),
    l.Tokens <+: (runLoop T fuel steps state l).1.Tokens := by
  intro steps
  induction steps with
  | zero => intro state l; exact List.prefix_refl _
  | succ steps ih =>
    intro state l
    have hc := call_grows T fuel state l
    unfold runLoop
    split
    · rename_i l1 h; rw [h] at hc; exact hc
    · rename_i l1 h; rw [h] at hc; exact hc
    · rename_i s1 l1 h; rw [h] at hc; exact hc.trans (ih s1 l1)

theorem runLoop_call_grows (T : RangeTables) (fuel steps : Nat) (state : StateFn)
    (l : LogLexer) :
    (state.call T fuel l).tokens <+: (runLoop T fuel (steps + 1) state l).1.Tokens := by
  unfold runLoop
  split
  · rename_i l1 h; rw [h]; exact List.prefix_refl _
  · rename_i l1 h; rw [h]; exact List.prefix_refl _
  · rename_i s1 l1 h; rw [h]; exact runLoop_grows T fuel steps s1 l1

theorem lexPrivmsgLoop_long_word (T : RangeTables) (fuel rounds : Nat) (l : LogLexer)
    (lead rest : Bytes) (a : Nat) (ha : a < 0x80) (hw : isWordRune T a = true)
    (hlead : runesAll (isBlankRune T) lead.length lead = true)
    (hv : View l.buf [] (lead ++ (List.replicate iosize a ++ rest)))
    (hfuel : iosize + lead.length < fuel) :
    ∃ st, lexPrivmsgLoop T fuel (rounds + 1) l = lexPrivmsgTail T fuel rounds st ∧
      st.Tokens = l.Tokens ++ [⟨.TokWord, List.replicate iosize a⟩] := by
  have hrep : List.replicate iosize a = a :: List.replicate 4095 a := rfl
  have hspace : IsSpace T a = false := by
    simp only [isWordRune, Bool.and_eq_true, Bool.not_eq_true'] at hw
    exact hw.2
  have hdec : DecodeRune (List.replicate iosize a ++ rest) = (a, 1) := by
    rw [hrep]; exact DecodeRune_ascii a _ ha
  obtain ⟨b1, h1, v1⟩ := ignoreWhile_stop (isBlankRune T) (List.replicate iosize a ++ rest)
    (by rw [hdec]; exact RuneError_ne_ascii a ha)
    (by rw [hdec]; simp [isBlankRune, hspace])
    lead.length lead l.buf [] 0 fuel hlead hv (by simp [iosize])
    (by have := runeCount_le lead.length lead; omega)
  have v1w : Win b1 [] (List.replicate iosize a ++ rest) := by
    have := v1.2
    split at this <;> exact this
  obtain ⟨b2, h2, v2⟩ := acceptWhile_overflow (isWordRune T) a ha hw
    (by simp [isWordRune]) rest iosize b1 [] 0 fuel v1w (by simp) (by omega)
  refine ⟨LogLexer.emit { l with buf := b2 } .TokWord, ?_, ?_⟩
  · rw [lexPrivmsgLoop_succ]
    simp only [h1, h2]
    rw [if_pos (show 0 + iosize > 0 by simp [iosize])]
  · rw [emit_win _ .TokWord _ _ v2]
    rfl

/-- A word of the speaker that is longer than the window: the first token sent
for it holds its first `iosize` bytes only. -/
theorem long_word_first_token (T : RangeTables) (name nick stamp status lead rest : Bytes)
    (a : Nat) (fuel : Nat) (ha : a < 0x80) (hw : isWordRune T a = true)
    (hst : isStamp stamp = true) (hstatus : statusOK status = true) (hne : nick ≠ [])
    (hrun : runesAll (isNickRune T) nick.length nick = true) (hlen : nick.length + 4 ≤ iosize)
    (hlead : runesAll (isBlankRune T) lead.length lead = true)
    (hfuel : iosize + lead.length + nick.length + 3 ≤ fuel) :
    ((InitLogLexer name (stamp ++ 0x3C :: (status ++ (nick ++ 0x3E ::
        (lead ++ (List.replicate iosize a ++ rest))))) nick).Run T fuel).pending.head?
      = some ⟨.TokWord, List.replicate iosize a⟩ := by
  have hs := InitLogLexer_start name (stamp ++ 0x3C :: (status ++ (nick ++ 0x3E ::
        (lead ++ (List.replicate iosize a ++ rest))))) nick
  obtain ⟨b, vb, hb⟩ := privmsg_head T fuel _ stamp status nick _ hst hstatus hne hrun hlen hs
    ⟨by omega, by omega⟩
  obtain ⟨s, rfl⟩ : ∃ s, fuel = s + 3 := ⟨fuel - 3, by omega⟩
  obtain ⟨st, hst1, hst2⟩ := lexPrivmsgLoop_long_word T (s + 3) (s + 2)
    { InitLogLexer name (stamp ++ 0x3C :: (status ++ (nick ++ 0x3E ::
        (lead ++ (List.replicate iosize a ++ rest))))) nick with buf := b }
    lead rest a ha hw hlead vb (by omega)
  have hcall := runLoop_call_grows T (s + 3) s .lexPrivmsg
    { InitLogLexer name (stamp ++ 0x3C :: (status ++ (nick ++ 0x3E ::
        (lead ++ (List.replicate iosize a ++ rest))))) nick with buf := b }
  have hdef : StateFn.call T (s + 3) .lexPrivmsg
    { InitLogLexer name (stamp ++ 0x3C :: (status ++ (nick ++ 0x3E ::
        (lead ++ (List.replicate iosize a ++ rest))))) nick with buf := b }
      = lexPrivmsgTail T (s + 3) (s + 2) st := hst1
  rw [hdef] at hcall
  have hg := (lexPrivmsgTail_grows T (s + 3) (s + 2)
    (lexPrivmsgLoop_grows T (s + 3) (s + 2)) st).trans hcall
  rw [hst2] at hg
  have hnick : (InitLogLexer name (stamp ++ 0x3C :: (status ++ (nick ++ 0x3E ::
        (lead ++ (List.replicate iosize a ++ rest))))) nick).Nick = nick := rfl
  have hrun := hb (s + 1)
  rw [hnick, if_pos rfl] at hrun
  have key : [⟨.TokWord, List.replicate iosize a⟩] <+:
      (runLoop T (s + 3) (s + 3) .lexDate (InitLogLexer name (stamp ++ 0x3C ::
        (status ++ (nick ++ 0x3E :: (lead ++ (List.replicate iosize a ++ rest))))) nick)).1.Tokens := by
    have e : s + 3 = s + 1 + 2 := rfl
    nth_rewrite 2 [e]
    rw [hrun]
    exact hg
  obtain ⟨tail, htail⟩ := key
  unfold LogLexer.Run
  simp only
  rw [← htail]
  rfl

theorem long_line_shape (tail : Bytes) :
    ascii "12:00:00< alice> " ++ List.replicate 4100 0x61 ++ tail
      = ascii "12:00:00" ++ 0x3C :: ([0x20] ++ (ascii "alice" ++ 0x3E ::
          ([0x20] ++ (List.replicate iosize 0x61 ++ (List.replicate 4 0x61 ++ tail))))) := by
  have h1 : ascii "12:00:00< alice> "
      = ascii "12:00:00" ++ 0x3C :: ([0x20] ++ (ascii "alice" ++ 0x3E :: [0x20])) := by decide
  have h2 : List.replicate 4100 0x61 = List.replicate iosize 0x61 ++ List.replicate 4 0x61 :=
    List.replicate_add 4096 4 0x61
  rw [h1, h2]
  simp only [List.append_assoc, List.cons_append, List.nil_append]

/-- The line `12:00:00< alice> ` followed by a word of 4100 letters `a` and by
`tail`: the first token sent holds 4096 of the letters. -/
theorem long_word_example (tail : Bytes) :
    ((InitLogLexer (ascii "log") (ascii "12:00:00< alice> " ++ List.replicate 4100 0x61 ++ tail)
        (ascii "alice")).Run RangeTables.latin1 5000).pending.head?
      = some ⟨.TokWord, List.replicate 4096 0x61⟩ := by
  rw [long_line_shape]
  exact long_word_first_token RangeTables.latin1 (ascii "log") (ascii "alice") (ascii "12:00:00")
    [0x20] [0x20] (List.replicate 4 0x61 ++ tail) 0x61 5000 (by decide) (by decide) (by decide)
    (by decide) (by decide) (by decide) (by decide) (by decide) (by decide)

/-! ### The same steps after an earlier decoding failure

`runefailed` is never reset: once a rune has failed to decode, the buffer keeps
the flag. The steps below are those of `next_ok`, `acceptWhile_stop`,
`lexDate_nick` and `lexNick_ok` on a window in `Win`, whatever the flag is. -/

theorem next_any (b : Buffer) (pend rest : Bytes) (hv : Win b pend rest)
    (hp : pend.length + 4 ≤ iosize) (hd : (DecodeRune rest).1 ≠ RuneError) :
    b.next.1 = (DecodeRune rest).1 ∧
    Win b.next.2 (pend ++ rest.take (DecodeRune rest).2) (rest.drop (DecodeRune rest).2) ∧
    b.next.2.last_rune_len = (DecodeRune rest).2 ∧ b.next.2.runefailed = b.runefailed := by
  obtain ⟨pre, win, post, hl, hrest⟩ := hv
  obtain ⟨pre1, win1, post1, h1, h2, h3, h4, _⟩ := refill_layout b pre pend win post hl hp
  have hrest1 : win1 ++ b.refill.rd.data = rest := by rw [h2, hrest]
  have hdec : DecodeRune win1 = DecodeRune rest := by
    rcases h3 with h3 | h3
    · rw [← hrest1, DecodeRune_append_four _ _ h3]
    · rw [← hrest1, h3, List.append_nil]
  have hd1 : (DecodeRune win1).1 ≠ RuneError := by rw [hdec]; exact hd
  obtain ⟨e1, e2, e3, e4, e5⟩ := decode_ok b.refill pre1 pend win1 post1 h1 hd1
  have hn := DecodeRune_len_le win1
  rw [next_eq]
  rw [hdec] at e1 e2 e3 hn
  have ht : rest.take (DecodeRune rest).2 = win1.take (DecodeRune rest).2 := by
    generalize (DecodeRune rest).2 = n at hn
    rw [← hrest1, List.take_append_of_le_length hn]
  have hdr : rest.drop (DecodeRune rest).2 = win1.drop (DecodeRune rest).2 ++ b.refill.rd.data := by
    generalize (DecodeRune rest).2 = n at hn
    rw [← hrest1, List.drop_append_of_le_length hn]
  refine ⟨e1, ⟨pre1, List.drop (DecodeRune rest).2 win1, post1, ?_, ?_⟩, e3, by rw [e4, h4]⟩
  · rw [ht]
    exact e2
  · rw [e5, hdr]

theorem backup_any (b : Buffer) (pend t rest : Bytes) (h : Win b (pend ++ t) rest)
    (hl : b.last_rune_len = t.length) : Win b.backup pend (t ++ rest) := by
  obtain ⟨pre, win, post, hlay, hrest⟩ := h
  refine ⟨pre, t ++ win, post, backup_layout b pre pend t win post hlay hl, ?_⟩
  show (t ++ win) ++ b.rd.data = _
  rw [List.append_assoc, hrest]

theorem peek_any (b : Buffer) (pend rest : Bytes) (hv : Win b pend rest)
    (hp : pend.length + 4 ≤ iosize) (hd : (DecodeRune rest).1 ≠ RuneError) :
    b.peek.1 = (DecodeRune rest).1 ∧ Win b.peek.2 pend rest ∧
      b.peek.2.runefailed = b.runefailed := by
  obtain ⟨h1, h2, h3, h4⟩ := next_any b pend rest hv hp hd
  refine ⟨h1, ?_, h4⟩
  have hn : (DecodeRune rest).2 ≤ rest.length := DecodeRune_len_le rest
  have := backup_any b.next.2 pend (rest.take (DecodeRune rest).2) (rest.drop (DecodeRune rest).2)
    h2 (by rw [h3, List.length_take]; omega)
  rw [List.take_append_drop] at this
  exact this

theorem acceptWhile_stop_any (p : Nat → Bool) (rest : Bytes)
    (hd : (DecodeRune rest).1 ≠ RuneError) (hstop : p (DecodeRune rest).1 = false) :
    ∀ (n : Nat) (run : Bytes) (b : Buffer) (pend : Bytes) (k fuel : Nat),
    runesAll p n run = true → Win b pend (run ++ rest) →
    pend.length + run.length + 4 ≤ iosize → runeCount n run < fuel →
    ∃ b1, Buffer.acceptWhile p fuel k b = some (k + runeCount n run, b1) ∧
      Win b1 (pend ++ run) rest ∧ b1.runefailed = b.runefailed := by
  intro n
  induction n with
  | zero =>
    intro run b pend k fuel hrun hv hsz hfuel
    cases run with
    | cons c cs => simp [runesAll] at hrun
    | nil =>
      cases fuel with
      | zero => simp [runeCount] at hfuel
      | succ f =>
        simp only [List.nil_append, List.length_nil, Nat.add_zero, List.append_nil] at hv hsz ⊢
        obtain ⟨h1, h2, h3⟩ := peek_any b pend rest hv hsz hd
        refine ⟨b.peek.2, ?_, h2, h3⟩
        unfold Buffer.acceptWhile
        have h1' : b.next.1 = (DecodeRune rest).1 := h1
        simp only [h1', hstop, Bool.false_eq_true, if_false, runeCount, Nat.add_zero]
        rfl
  | succ m ih =>
    intro run b pend k fuel hrun hv hsz hfuel
    cases run with
    | nil =>
      cases fuel with
      | zero => simp [runeCount] at hfuel
      | succ f =>
        simp only [List.nil_append, List.length_nil, Nat.add_zero, List.append_nil] at hv hsz ⊢
        obtain ⟨h1, h2, h3⟩ := peek_any b pend rest hv hsz hd
        refine ⟨b.peek.2, ?_, h2, h3⟩
        unfold Buffer.acceptWhile
        have h1' : b.next.1 = (DecodeRune rest).1 := h1
        simp only [h1', hstop, Bool.false_eq_true, if_false, runeCount, Nat.add_zero]
        rfl
    | cons c cs =>
      obtain ⟨m', hm, hd1, hp1, hrest1⟩ := runesAll_cons p (m + 1) c cs hrun
      have hm' : m' = m := by omega
      rw [hm'] at hrest1
      have hdec : DecodeRune (c :: cs ++ rest) = DecodeRune (c :: cs) :=
        DecodeRune_append_ok _ _ hd1
      have hlen := DecodeRune_len_le (c :: cs)
      have hpos := DecodeRune_pos (c :: cs) (by simp)
      generalize hdn : DecodeRune (c :: cs) = d at hdec hd1 hp1 hrest1 hlen hpos
      cases fuel with
      | zero => omega
      | succ f =>
        have hnx := next_any b pend (c :: cs ++ rest) hv (by omega) (by rw [hdec]; exact hd1)
        rw [hdec] at hnx
        obtain ⟨e1, e2, _, e4⟩ := hnx
        rw [List.take_append_of_le_length hlen, List.drop_append_of_le_length hlen] at e2
        have hcnt : runeCount (m + 1) (c :: cs) = 1 + runeCount m ((c :: cs).drop d.2) := by
          simp only [runeCount, hdn]
        have hsz' : (pend ++ List.take d.2 (c :: cs)).length
            + (List.drop d.2 (c :: cs)).length + 4 ≤ iosize := by
          simp only [List.length_append, List.length_take, List.length_drop]
          simp only [List.length_cons] at hsz hlen ⊢
          omega
        obtain ⟨b1, hb1, hv1, hr1⟩ := ih ((c :: cs).drop d.2) b.next.2
          (pend ++ (c :: cs).take d.2) (k + 1) f hrest1 e2 hsz' (by omega)
        refine ⟨b1, ?_, ?_, by rw [hr1, e4]⟩
        · unfold Buffer.acceptWhile
          simp only [e1, hp1, if_true, hb1, hcnt]
          congr 2; omega
        · rw [List.append_assoc, List.take_append_drop] at hv1
          exact hv1

theorem lexDateGroup_colon_any (T : RangeTables) (fuel i : Nat) (hi : i ≠ 2) (l : LogLexer)
    (pend rest : Bytes) (a b : Nat) (ha : isAsciiDigit a = true) (hb : isAsciiDigit b = true)
    (hv : Win l.buf pend (a :: b :: 0x3A :: rest)) (hsz : pend.length + 6 ≤ iosize)
    (hfuel : 3 ≤ fuel) :
    ∃ b1, lexDateGroup T fuel i l = some { l with buf := b1 } ∧ Win b1 [] rest ∧
      b1.runefailed = l.buf.runefailed := by
  obtain ⟨hrun, hcnt⟩ := digits_run T a b ha hb
  have hstopd : DecodeRune (0x3A :: rest) = (0x3A, 1) := DecodeRune_ascii _ _ (by decide)
  obtain ⟨b1, hb1, hv1, hr1⟩ := acceptWhile_stop_any (isDateRune T) (0x3A :: rest)
    (by rw [hstopd]; decide) (by rw [hstopd]; simp [isDateRune, IsDigit, MaxLatin1])
    2 [a, b] l.buf pend 0 fuel hrun hv (by simp; omega) (by omega)
  rw [hcnt] at hb1
  obtain ⟨e1, e2, _, e4⟩ := next_any b1 (pend ++ [a, b]) (0x3A :: rest) hv1
    (by simp; omega) (by rw [hstopd]; decide)
  rw [hstopd] at e1 e2
  refine ⟨b1.next.2.ignoreToken, ?_, ?_, ?_⟩
  · unfold lexDateGroup
    simp only [hb1, Nat.zero_add, ne_eq, not_true_eq_false, if_false, hi, not_false_eq_true,
      if_true, e1]
  · have := ignoreToken_win _ _ _ e2
    simpa using this
  · show b1.next.2.runefailed = _
    rw [e4, hr1]

theorem lexDateGroup_last_any (T : RangeTables) (fuel : Nat) (l : LogLexer)
    (pend rest : Bytes) (a b : Nat) (ha : isAsciiDigit a = true) (hb : isAsciiDigit b = true)
    (hd : (DecodeRune rest).1 ≠ RuneError) (hstop : isDateRune T (DecodeRune rest).1 = false)
    (hv : Win l.buf pend (a :: b :: rest)) (hsz : pend.length + 6 ≤ iosize)
    (hfuel : 3 ≤ fuel) :
    ∃ b1, lexDateGroup T fuel 2 l = some { l with buf := b1 } ∧ Win b1 [] rest ∧
      b1.runefailed = l.buf.runefailed := by
  obtain ⟨hrun, hcnt⟩ := digits_run T a b ha hb
  obtain ⟨b1, hb1, hv1, hr1⟩ := acceptWhile_stop_any (isDateRune T) rest hd hstop
    2 [a, b] l.buf pend 0 fuel hrun hv (by simp; omega) (by omega)
  rw [hcnt] at hb1
  refine ⟨b1.ignoreToken, ?_, ignoreToken_win _ _ _ hv1, hr1⟩
  unfold lexDateGroup
  simp only [hb1, Nat.zero_add, ne_eq, not_true_eq_false, if_false]

theorem lexDate_groups_any (T : RangeTables) (fuel : Nat) (l : LogLexer) (pend stamp rest : Bytes)
    (hs : isStamp stamp = true)
    (hd : (DecodeRune rest).1 ≠ RuneError) (hstop : isDateRune T (DecodeRune rest).1 = false)
    (hv : Win l.buf pend (stamp ++ rest)) (hsz : pend.length + 6 ≤ iosize)
    (hfuel : 3 ≤ fuel) :
    ∃ b0 b1 b2, lexDateGroup T fuel 0 l = some { l with buf := b0 } ∧
      lexDateGroup T fuel 1 { l with buf := b0 } = some { l with buf := b1 } ∧
      lexDateGroup T fuel 2 { l with buf := b1 } = some { l with buf := b2 } ∧
      Win b2 [] rest ∧ b2.runefailed = l.buf.runefailed := by
  obtain ⟨a, b, c, d, e, f, rfl, ha, hb, hc, hdd, he, hf⟩ := isStamp_eq stamp hs
  simp only [List.cons_append, List.nil_append] at hv
  obtain ⟨b0, h0, v0, r0⟩ := lexDateGroup_colon_any T fuel 0 (by decide) l pend _ a b ha hb hv
    hsz hfuel
  obtain ⟨b1, h1, v1, r1⟩ := lexDateGroup_colon_any T fuel 1 (by decide) { l with buf := b0 } []
    _ c d hc hdd v0 (by simp [iosize]) hfuel
  obtain ⟨b2, h2, v2, r2⟩ := lexDateGroup_last_any T fuel { l with buf := b1 } [] rest e f he hf
    hd hstop v1 (by simp [iosize]) hfuel
  exact ⟨b0, b1, b2, h0, h1, h2, v2, by rw [r2, r1, r0]⟩

theorem lexDate_nick_any (T : RangeTables) (fuel : Nat) (l : LogLexer) (pend stamp rest : Bytes)
    (hs : isStamp stamp = true) (hv : Win l.buf pend (stamp ++ 0x3C :: rest))
    (hsz : pend.length + 6 ≤ iosize) (hfuel : 3 ≤ fuel) :
    ∃ b, lexDate T fuel l = .next (some .lexNick) { l with buf := b } ∧ Win b [0x3C] rest ∧
      b.runefailed = l.buf.runefailed := by
  have hdec : DecodeRune (0x3C :: rest) = (0x3C, 1) := DecodeRune_ascii _ _ (by decide)
  obtain ⟨b0, b1, b2, h0, h1, h2, v2, r2⟩ := lexDate_groups_any T fuel l pend stamp (0x3C :: rest)
    hs (by rw [hdec]; decide) (by rw [hdec]; simp [isDateRune, IsDigit, MaxLatin1]) hv hsz hfuel
  obtain ⟨e1, e2, _, e4⟩ := next_any b2 [] (0x3C :: rest) v2 (by simp [iosize])
    (by rw [hdec]; decide)
  rw [hdec] at e1 e2
  refine ⟨b2.next.2, ?_, by simpa using e2, by rw [e4, r2]⟩
  unfold lexDate
  simp only [h0, h1, h2, e1]
  simp [IsSpace, MaxLatin1]

/-- What `errorfEOF` sends: one `Error` token, whatever the error is. -/
theorem errorfEOF_tokens (l : LogLexer) (err : Option GoError) :
    ∃ msg, (l.errorfEOF err).2 = { l with Tokens := l.Tokens ++ [⟨.TokError, msg⟩] } := by
  unfold LogLexer.errorfEOF
  split
  · exact ⟨_, rfl⟩
  · exact ⟨_, rfl⟩
  · exact ⟨_, rfl⟩

theorem lexNick_any (T : RangeTables) (fuel : Nat) (l : LogLexer) (status nick rest : Bytes)
    (hst : statusOK status = true) (hne : nick ≠ [])
    (hrun : runesAll (isNickRune T) nick.length nick = true) (hlen : nick.length + 4 ≤ iosize)
    (hv : Win l.buf [0x3C] (status ++ (nick ++ 0x3E :: rest)))
    (hfuel : nick.length < fuel) :
    ∃ b msg, lexNick T fuel l
        = .next (some (if nick = l.Nick then .lexPrivmsg else .lexIgnoredLine))
            { l with buf := b, Tokens := l.Tokens ++
                (if l.buf.runefailed then [⟨.TokError, msg⟩] else []) } ∧
      Win b [] rest ∧ b.runefailed = l.buf.runefailed := by
  obtain ⟨s1, s2, s3, _⟩ := statusOK_eq status hst
  have hdecs : DecodeRune (status ++ (nick ++ 0x3E :: rest)) = DecodeRune status :=
    DecodeRune_append_ok _ _ s1
  obtain ⟨e1, e2, _, e4⟩ := next_any l.buf [0x3C] _ hv (by simp [iosize])
    (by rw [hdecs]; exact s1)
  rw [hdecs] at e1 e2
  rw [s2, List.take_left' rfl, List.drop_left' rfl] at e2
  have v2 := ignoreToken_win _ _ _ e2
  have hdec : DecodeRune (0x3E :: rest) = (0x3E, 1) := DecodeRune_ascii _ _ (by decide)
  have hcnt := runeCount_le nick.length nick
  have hpos := runeCount_pos _ _ _ hrun hne
  obtain ⟨b3, hb3, v3, r3⟩ := acceptWhile_stop_any (isNickRune T) (0x3E :: rest)
    (by rw [hdec]; decide) (by rw [hdec]; exact isNickRune_gt T) nick.length nick
    l.buf.next.2.ignoreToken [] 0 fuel hrun v2 (by simpa using hlen) (by omega)
  simp only [List.nil_append] at v3
  have r3' : b3.runefailed = l.buf.runefailed := by rw [r3]; exact e4
  have htv := tokenValue_win b3 nick _ v3
  have v4 := ignoreToken_win _ _ _ v3
  obtain ⟨f1, f2, _, f4⟩ := next_any b3.ignoreToken [] (0x3E :: rest) v4 (by simp [iosize])
    (by rw [hdec]; decide)
  rw [hdec] at f1 f2
  have v6 := ignoreToken_win _ _ _ f2
  have r6 : b3.ignoreToken.next.2.ignoreToken.runefailed = l.buf.runefailed := by
    show b3.ignoreToken.next.2.runefailed = _
    rw [f4]
    exact r3'
  have hn1 : ¬ (0 + runeCount nick.length nick < 1) := by omega
  cases hrf : l.buf.runefailed with
  | false =>
    rw [hrf] at r3'
    refine ⟨b3.ignoreToken.next.2.ignoreToken, [], ?_, v6, by rw [r6, hrf]⟩
    unfold lexNick
    simp only [e1, s3, if_false, hb3, r3', Bool.false_eq_true, htv, hn1, f1, ne_eq,
      not_true_eq_false, List.append_nil]
    split <;> rfl
  | true =>
    rw [hrf] at r3'
    obtain ⟨msg, hmsg⟩ := errorfEOF_tokens { l with buf := b3 } none
    refine ⟨b3.ignoreToken.next.2.ignoreToken, msg, ?_, v6, by rw [r6, hrf]⟩
    unfold lexNick
    simp only [e1, s3, if_false, hb3, r3', if_true, hmsg, htv, hn1, f1, ne_eq,
      not_true_eq_false]
    split <;> rfl

theorem InitLogLexer_win (name content nick : Bytes) :
    Win (InitLogLexer name content nick).buf [] content := by
  refine ⟨[], [], List.replicate iosize 0, ⟨?_, ?_, rfl, rfl, rfl⟩, ?_⟩
  · simp [InitLogLexer, newBuffer]
  · simp [InitLogLexer, newBuffer]
  · simp [InitLogLexer, newBuffer]

/-- C1 (amended): on a transcript of well-formed lines, each ended by a newline,
in the format the code accepts (`HH:MM:SS<Snick> message` with one status rune
`S`, `HH:MM:SS!text`, or `HH:MM:SS` and a space before a text that starts with
a space or `*`), where words and nicks are at most `iosize - 4` bytes long,
the tokenizer sends, line by line and in order, `Word(w1), ..., Word(wk),
EndOfLine` for each message of the speaker, the `wi` being the maximal runs of
non-blank runes of the message byte for byte, and nothing for any other
line; the next token is `EndOfStream`, and the channel is closed. -/
theorem C1_wellformed_lines_tokens (T : RangeTables) (name nick : Bytes) (lines : List Line)
    (fuel : Nat) (hwf : ∀ ln ∈ lines, ln.wf T = true)
    (hfuel : (transcript lines).length < fuel) :
    ∃ v tail, (InitLogLexer name (transcript lines) nick).Run T fuel
      = ⟨lines.flatMap (Line.tokens nick) ++ ⟨.TokEOF, v⟩ :: tail, true⟩ := by
  exact Run_wellformed T name nick lines fuel hwf hfuel

/-- C1, witness: a message of the speaker between a system line and a message
of somebody else. -/
theorem C1_wellformed_lines_tokens_witness :
    (∀ ln ∈ [Line.system (ascii "11:59:59") (ascii " join"),
        Line.privmsg (ascii "12:00:00") (ascii " ") (ascii "alice") (ascii " ")
          [(ascii "hello", ascii "  "), (ascii "world", [])],
        Line.privmsg (ascii "12:00:01") (ascii "@") (ascii "bob") (ascii " ")
          [(ascii "hi", [])]], ln.wf RangeTables.latin1 = true) ∧
    (transcript [Line.system (ascii "11:59:59") (ascii " join"),
        Line.privmsg (ascii "12:00:00") (ascii " ") (ascii "alice") (ascii " ")
          [(ascii "hello", ascii "  "), (ascii "world", [])],
        Line.privmsg (ascii "12:00:01") (ascii "@") (ascii "bob") (ascii " ")
          [(ascii "hi", [])]]).length < 100 ∧
    ∃ v tail, (InitLogLexer (ascii "log") (transcript [Line.system (ascii "11:59:59") (ascii " join"),
        Line.privmsg (ascii "12:00:00") (ascii " ") (ascii "alice") (ascii " ")
          [(ascii "hello", ascii "  "), (ascii "world", [])],
        Line.privmsg (ascii "12:00:01") (ascii "@") (ascii "bob") (ascii " ")
          [(ascii "hi", [])]]) (ascii "alice")).Run RangeTables.latin1 100
      = ⟨[Line.system (ascii "11:59:59") (ascii " join"),
        Line.privmsg (ascii "12:00:00") (ascii " ") (ascii "alice") (ascii " ")
          [(ascii "hello", ascii "  "), (ascii "world", [])],
        Line.privmsg (ascii "12:00:01") (ascii "@") (ascii "bob") (ascii " ")
          [(ascii "hi", [])]].flatMap (Line.tokens (ascii "alice")) ++ ⟨.TokEOF, v⟩ :: tail, true⟩ :=
  ⟨by decide!, by decide!,
    C1_wellformed_lines_tokens RangeTables.latin1 (ascii "log") (ascii "alice") _ 100
      (by decide!) (by decide!)⟩

/-- C7 (amended): on a line `HH:MM:SS<Snick>...` read from the start of a line
(the window is at the first byte of the line and the pending token holds at
most the last two bytes of the line before), whether or not a rune failed to
decode earlier in the file, where `S` is one status rune other than `>`,
newline and U+FFFD and `nick` a non-empty run of nick runes of at most
`iosize - 4` bytes, `lexDate` enters `lexNick`, and `lexNick` enters
`lexPrivmsg` when `nick`, the text between the status rune and `>`, is the
configured speaker and `lexIgnoredLine` when it is not; the read point is just
after `>`. No token is sent when no rune failed to decode before; after such a
failure `lexNick` sends one `Error` token and goes on all the same. -/
theorem C7_nick_between_status_and_gt (T : RangeTables) (fuel : Nat) (l : LogLexer)
    (pend stamp status nick rest : Bytes) (hst : isStamp stamp = true)
    (hstatus : statusOK status = true) (hne : nick ≠ [])
    (hrun : RuneRun (isNickRune T) nick) (hlen : nick.length + 4 ≤ iosize)
    (hs : Win l.buf pend (stamp ++ 0x3C :: (status ++ (nick ++ 0x3E :: rest))))
    (hp : pend.length ≤ 2) (hfuel : 3 ≤ fuel ∧ nick.length < fuel) :
    ∃ l1 l2 msg, lexDate T fuel l = .next (some .lexNick) l1 ∧
      lexNick T fuel l1
        = .next (some (if nick = l.Nick then .lexPrivmsg else .lexIgnoredLine)) l2 ∧
      l2.Tokens = l.Tokens ++ (if l.buf.runefailed then [⟨.TokError, msg⟩] else []) ∧
      l2.Nick = l.Nick ∧ Win l2.buf [] rest ∧ l2.buf.runefailed = l.buf.runefailed := by
  obtain ⟨b1, h1, v1, r1⟩ := lexDate_nick_any T fuel l pend stamp _ hst hs
    (by simp [iosize]; omega) hfuel.1
  obtain ⟨b2, msg, h2, v2, r2⟩ := lexNick_any T fuel { l with buf := b1 } status nick rest
    hstatus hne hrun hlen v1 hfuel.2
  refine ⟨_, _, msg, h1, h2, ?_, rfl, v2, ?_⟩
  · show l.Tokens ++ (if b1.runefailed then _ else _) = _
    rw [r1]
  · show b2.runefailed = _
    rw [r2]
    exact r1

/-- C7, witness: the first line `12:00:00<@alice> hi` of a transcript. -/
theorem C7_nick_between_status_and_gt_witness :
    isStamp (ascii "12:00:00") = true ∧ statusOK (ascii "@") = true ∧ ascii "alice" ≠ [] ∧
    RuneRun (isNickRune RangeTables.latin1) (ascii "alice") ∧
    (ascii "alice").length + 4 ≤ iosize ∧
    Win (InitLogLexer (ascii "log")
          (ascii "12:00:00" ++ 0x3C :: (ascii "@" ++ (ascii "alice" ++ 0x3E :: ascii " hi\n")))
          (ascii "alice")).buf []
      (ascii "12:00:00" ++ 0x3C :: (ascii "@" ++ (ascii "alice" ++ 0x3E :: ascii " hi\n"))) ∧
    ([] : Bytes).length ≤ 2 ∧ (3 ≤ 10 ∧ (ascii "alice").length < 10) ∧
    ∃ l1 l2 msg,
      lexDate RangeTables.latin1 10 (InitLogLexer (ascii "log")
          (ascii "12:00:00" ++ 0x3C :: (ascii "@" ++ (ascii "alice" ++ 0x3E :: ascii " hi\n")))
          (ascii "alice")) = .next (some .lexNick) l1 ∧
      lexNick RangeTables.latin1 10 l1
        = .next (some (if ascii "alice" = (InitLogLexer (ascii "log")
            (ascii "12:00:00" ++ 0x3C :: (ascii "@" ++ (ascii "alice" ++ 0x3E :: ascii " hi\n")))
            (ascii "alice")).Nick then .lexPrivmsg else .lexIgnoredLine)) l2 ∧
      l2.Tokens = (InitLogLexer (ascii "log")
          (ascii "12:00:00" ++ 0x3C :: (ascii "@" ++ (ascii "alice" ++ 0x3E :: ascii " hi\n")))
          (ascii "alice")).Tokens ++ (if (InitLogLexer (ascii "log")
          (ascii "12:00:00" ++ 0x3C :: (ascii "@" ++ (ascii "alice" ++ 0x3E :: ascii " hi\n")))
          (ascii "alice")).buf.runefailed then [⟨.TokError, msg⟩] else []) ∧
      l2.Nick = (InitLogLexer (ascii "log")
          (ascii "12:00:00" ++ 0x3C :: (ascii "@" ++ (ascii "alice" ++ 0x3E :: ascii " hi\n")))
          (ascii "alice")).Nick ∧
      Win l2.buf [] (ascii " hi\n") ∧
      l2.buf.runefailed = (InitLogLexer (ascii "log")
          (ascii "12:00:00" ++ 0x3C :: (ascii "@" ++ (ascii "alice" ++ 0x3E :: ascii " hi\n")))
          (ascii "alice")).buf.runefailed :=
  ⟨by decide!, by decide!, by decide!, by decide!, by decide!, InitLogLexer_win _ _ _,
    by decide, by decide!,
    C7_nick_between_status_and_gt RangeTables.latin1 10 _ [] (ascii "12:00:00") (ascii "@")
      (ascii "alice") (ascii " hi\n") (by decide!) (by decide!) (by decide!) (by decide!)
      (by decide!) (InitLogLexer_win _ _ _) (by decide) (by decide!)⟩

/-- C7, after a decoding failure: on `12:00:00!` U+FFFD, newline,
`12:00:01<@alice> hi` the first line sends an `Error` token and sets
`runefailed`; on the second line the nick `alice` is parsed all the same:
for the speaker `alice` the tokenizer sends one more `Error` token from
`lexNick` and then the word of the message, and for the speaker `bob` it sends
that `Error` token and ignores the line. -/
theorem nick_after_decoding_failure :
    ((InitLogLexer (ascii "log") (ascii "12:00:00!" ++ [0xEF, 0xBF, 0xBD, 0x0A]
        ++ ascii "12:00:01<@alice> hi\n") (ascii "alice")).Run RangeTables.latin1 50).pending.take 5
      = [⟨.TokError, ascii "Unable to decode rune 'efbfbd0a' at log:1:13"⟩,
         ⟨.TokError, ascii "Unable to decode rune 'efbfbd0a' at log:2:3"⟩,
         ⟨.TokWord, ascii "hi"⟩, ⟨.TokEOL, []⟩, ⟨.TokEOF, []⟩] ∧
    ((InitLogLexer (ascii "log") (ascii "12:00:00!" ++ [0xEF, 0xBF, 0xBD, 0x0A]
        ++ ascii "12:00:01<@alice> hi\n") (ascii "bob")).Run RangeTables.latin1 50).pending.take 3
      = [⟨.TokError, ascii "Unable to decode rune 'efbfbd0a' at log:1:13"⟩,
         ⟨.TokError, ascii "Unable to decode rune 'efbfbd0a' at log:2:3"⟩,
         ⟨.TokEOF, ascii "\n"⟩] := by
  decide!

/-- C10 (amended): on a transcript of well-formed lines (format and lengths as
in C1) whose last line is a message of the speaker cut by the end of the file,
with no newline, the tokenizer sends the tokens of the lines before, then
one `Word` for each word of the last message, the last word included, then
`EndOfStream`, with no `Error` token before it. It goes on sending
`EndOfStream` tokens and never closes the channel. -/
theorem C10_message_cut_by_eof (T : RangeTables) (name nick : Bytes) (lines : List Line)
    (stamp status lead : Bytes) (words : List (Bytes × Bytes)) (fuel : Nat)
    (hwf : ∀ ln ∈ lines, ln.wf T = true)
    (hlast : (Line.privmsg stamp status nick lead words).wf T = true)
    (hfuel : (transcript lines ++ (Line.privmsg stamp status nick lead words).bytes).length
      < fuel) :
    ∃ m, (InitLogLexer name
        (transcript lines ++ (Line.privmsg stamp status nick lead words).bytes) nick).Run T fuel
      = ⟨lines.flatMap (Line.tokens nick) ++ (words.map (fun ws => ⟨.TokWord, ws.1⟩)
          ++ ⟨.TokEOF, []⟩ :: List.replicate m ⟨.TokEOF, []⟩), false⟩ := by
  exact Run_message_eof T name nick lines stamp status lead words fuel hwf hlast hfuel

/-- C10, witness: a message `hello wor` cut by the end of the file after a
system line. -/
theorem C10_message_cut_by_eof_witness :
    (∀ ln ∈ [Line.system (ascii "11:59:59") (ascii " join")], ln.wf RangeTables.latin1 = true) ∧
    (Line.privmsg (ascii "12:00:00") (ascii " ") (ascii "alice") (ascii " ")
      [(ascii "hello", ascii " "), (ascii "wor", [])]).wf RangeTables.latin1 = true ∧
    ∃ m, (InitLogLexer (ascii "log")
        (transcript [Line.system (ascii "11:59:59") (ascii " join")]
          ++ (Line.privmsg (ascii "12:00:00") (ascii " ") (ascii "alice") (ascii " ")
            [(ascii "hello", ascii " "), (ascii "wor", [])]).bytes)
        (ascii "alice")).Run RangeTables.latin1 100
      = ⟨[Line.system (ascii "11:59:59") (ascii " join")].flatMap (Line.tokens (ascii "alice"))
          ++ ([(ascii "hello", ascii " "), (ascii "wor", [])].map (fun ws => ⟨.TokWord, ws.1⟩)
          ++ ⟨.TokEOF, []⟩ :: List.replicate m ⟨.TokEOF, []⟩), false⟩ :=
  ⟨by decide!, by decide!,
    C10_message_cut_by_eof RangeTables.latin1 (ascii "log") (ascii "alice") _ (ascii "12:00:00")
      (ascii " ") (ascii " ") _ 100 (by decide!) (by decide!) (by decide!)⟩

/-- C1 (counterexample): the line `12:00:00 <alice> hello world` of the speaker
`alice`, in the format of the specification and ended by a newline, yields one
`Error` token and neither `Word` nor `EndOfLine`: after the timestamp `lexDate`
takes a space only before a second space or `*`. And on the line
`12:00:00< alice> ` followed by one word of 4100 letters `a` and a newline, in
the format the code accepts, the first token is a `Word` of 4096 letters only:
the word does not fit the window and is cut, so the tokens of the line are not
the one `Word` of the message followed by `EndOfLine`. -/
theorem C1_spec_line_rejected_long_word_cut :
    (InitLogLexer (ascii "log") (ascii "12:00:00 <alice> hello world\n") (ascii "alice")).Run
        RangeTables.latin1 50
      = ⟨[⟨.TokError, ascii "Invalid char, got < expected \"*\" or SPACE at log:1:9"⟩], true⟩ ∧
    ((InitLogLexer (ascii "log") (ascii "12:00:00< alice> " ++ List.replicate 4100 0x61 ++ [0x0A])
        (ascii "alice")).Run RangeTables.latin1 5000).pending.head?
      = some ⟨.TokWord, List.replicate 4096 0x61⟩ :=
  ⟨by decide!, long_word_example [0x0A]⟩

/-- C3 (counterexample): training on the single line `12:00:00 <alice> hello world`
with speaker `alice` and prefix length 2 from the empty store ends with the
error of the tokenizer and leaves nothing under the key of the (empty, empty)
prefix. -/
theorem C3_spec_line_trains_nothing :
    (train RangeTables.latin1 50 ⟨2, DB.empty⟩ (ascii "log")
        (ascii "12:00:00 <alice> hello world") (ascii "alice")).2
      = .ret (some (.text (ascii "Invalid char, got < expected \"*\" or SPACE at log:1:9"))) ∧
    (train RangeTables.latin1 50 ⟨2, DB.empty⟩ (ascii "log")
        (ascii "12:00:00 <alice> hello world") (ascii "alice")).1.CorpusDB
          (Prefix.bytes [[], []]) = none := by
  decide!

/-- The result of training on the line `12:00:00< alice> hello world`, with or
without a newline at its end. -/
theorem train_hello_world (c : Chan) (tail : List Token) (v : Bytes)
    (hc : c.pending = ⟨.TokWord, ascii "hello"⟩ :: ⟨.TokWord, ascii "world"⟩ :: tail)
    (htail : tail = ⟨.TokEOF, v⟩ :: tail.tail ∨
      tail = ⟨.TokEOL, []⟩ :: ⟨.TokEOF, v⟩ :: tail.tail.tail) :
    ((MarkovChain.mk 2 DB.empty).PopulateCorpus c).2 = .ret none ∧
    ascii "hello" ∈ createSuffix
      ((((MarkovChain.mk 2 DB.empty).PopulateCorpus c).1.CorpusDB (Prefix.bytes [[], []])).getD [])
      ∧
    ascii "world" ∈ createSuffix
      ((((MarkovChain.mk 2 DB.empty).PopulateCorpus c).1.CorpusDB
        (Prefix.bytes [[], ascii "hello"])).getD []) := by
  have hb1 : Prefix.buildNext (makePrefix 2) (ascii "hello") = some [[], ascii "hello"] := by
    decide
  have hb2 : Prefix.buildNext [[], ascii "hello"] (ascii "world")
      = some [ascii "hello", ascii "world"] := by decide
  have hk : Prefix.bytes [[], ascii "hello"] ≠ Prefix.bytes (makePrefix 2) := by decide
  have hs1 : ascii "hello" ∈ createSuffix (ascii "hello") := by decide
  have hs2 : ascii "world" ∈ createSuffix (ascii "world") := by decide
  have hp : Prefix.bytes [[], []] = Prefix.bytes (makePrefix 2) := by decide
  have hput1 : DB.Put DB.empty (Prefix.bytes (makePrefix 2)) (suffixUpdater (ascii "hello"))
      = .ok (putWord DB.empty (Prefix.bytes (makePrefix 2)) (ascii "hello")) :=
    Put_suffixUpdater _ _ _ (by decide) (by decide)
  have hput2 : DB.Put (putWord DB.empty (Prefix.bytes (makePrefix 2)) (ascii "hello"))
      (Prefix.bytes [[], ascii "hello"]) (suffixUpdater (ascii "world"))
      = .ok (putWord (putWord DB.empty (Prefix.bytes (makePrefix 2)) (ascii "hello"))
          (Prefix.bytes [[], ascii "hello"]) (ascii "world")) :=
    Put_suffixUpdater _ _ _ (by decide) (by decide)
  rcases htail with ht | ht
  · rw [ht] at hc
    simp only [MarkovChain.PopulateCorpus, hc, populateLoop, hput1, hput2, hb1, hb2, hp]
    simp [putWord, DB.empty, hk, hk.symm, hs1, hs2]
  · rw [ht] at hc
    simp only [MarkovChain.PopulateCorpus, hc, populateLoop, hput1, hput2, hb1, hb2, hp]
    simp [putWord, DB.empty, hk, hk.symm, hs1, hs2]

theorem hello_world_line_wf (T : RangeTables) :
    (Line.privmsg (ascii "12:00:00") (ascii " ") (ascii "alice") (ascii " ")
      [(ascii "hello", ascii " "), (ascii "world", [])]).wf T = true := by
  simp [Line.wf, ascii, isStamp, isAsciiDigit, statusOK, DecodeRune, RuneError, runesAll,
    isNickRune, IsLetter, IsDigit, IsSpace, MaxLatin1, inRange, isBlankRune, isWordRune, wordsOK,
    wordOK, iosize]

/-- C3 (amended): training on the single line `12:00:00< alice> hello world`, the
format the code accepts (`<` right after the timestamp, then one status rune,
here a space, before the nick), with speaker `alice` and prefix length 2 from
the empty store, returns without error, whether or not a newline ends the
line, and leaves `hello` in the continuation list of the (empty, empty) prefix
and `world` in the one of the (empty, hello) prefix. -/
theorem C3_training_on_accepted_line (T : RangeTables) (fuel : Nat) :
    ((train T (fuel + 40) ⟨2, DB.empty⟩ (ascii "log")
        (ascii "12:00:00< alice> hello world") (ascii "alice")).2 = .ret none ∧
      ascii "hello" ∈ createSuffix (((train T (fuel + 40) ⟨2, DB.empty⟩ (ascii "log")
        (ascii "12:00:00< alice> hello world") (ascii "alice")).1.CorpusDB
          (Prefix.bytes [[], []])).getD []) ∧
      ascii "world" ∈ createSuffix (((train T (fuel + 40) ⟨2, DB.empty⟩ (ascii "log")
        (ascii "12:00:00< alice> hello world") (ascii "alice")).1.CorpusDB
          (Prefix.bytes [[], ascii "hello"])).getD [])) ∧
    ((train T (fuel + 40) ⟨2, DB.empty⟩ (ascii "log")
        (ascii "12:00:00< alice> hello world\n") (ascii "alice")).2 = .ret none ∧
      ascii "hello" ∈ createSuffix (((train T (fuel + 40) ⟨2, DB.empty⟩ (ascii "log")
        (ascii "12:00:00< alice> hello world\n") (ascii "alice")).1.CorpusDB
          (Prefix.bytes [[], []])).getD []) ∧
      ascii "world" ∈ createSuffix (((train T (fuel + 40) ⟨2, DB.empty⟩ (ascii "log")
        (ascii "12:00:00< alice> hello world\n") (ascii "alice")).1.CorpusDB
          (Prefix.bytes [[], ascii "hello"])).getD [])) := by
  constructor
  · obtain ⟨m, hm⟩ := Run_message_eof T (ascii "log") (ascii "alice") [] (ascii "12:00:00")
      (ascii " ") (ascii " ") [(ascii "hello", ascii " "), (ascii "world", [])] (fuel + 40)
      (fun ln h => absurd h (by simp)) (hello_world_line_wf T)
      (by
        have : (transcript [] ++ (Line.privmsg (ascii "12:00:00") (ascii " ") (ascii "alice")
          (ascii " ") [(ascii "hello", ascii " "), (ascii "world", [])]).bytes).length = 28 := by
          decide
        omega)
    have hbytes : transcript [] ++ (Line.privmsg (ascii "12:00:00") (ascii " ") (ascii "alice")
        (ascii " ") [(ascii "hello", ascii " "), (ascii "world", [])]).bytes
        = ascii "12:00:00< alice> hello world" := by decide
    rw [hbytes] at hm
    unfold train
    exact train_hello_world _ (⟨.TokEOF, []⟩ :: List.replicate m ⟨.TokEOF, []⟩) []
      (by rw [hm]; rfl) (Or.inl rfl)
  · obtain ⟨v, tail, hv⟩ := Run_wellformed T (ascii "log") (ascii "alice")
      [Line.privmsg (ascii "12:00:00") (ascii " ") (ascii "alice") (ascii " ")
        [(ascii "hello", ascii " "), (ascii "world", [])]] (fuel + 40)
      (fun ln h => by
        simp only [List.mem_singleton] at h
        rw [h]; exact hello_world_line_wf T)
      (by
        have : (transcript [Line.privmsg (ascii "12:00:00") (ascii " ") (ascii "alice")
          (ascii " ") [(ascii "hello", ascii " "), (ascii "world", [])]]).length = 29 := by
          decide
        omega)
    have hbytes : transcript [Line.privmsg (ascii "12:00:00") (ascii " ") (ascii "alice")
        (ascii " ") [(ascii "hello", ascii " "), (ascii "world", [])]]
        = ascii "12:00:00< alice> hello world\n" := by decide
    rw [hbytes] at hv
    unfold train
    exact train_hello_world _ (⟨.TokEOL, []⟩ :: ⟨.TokEOF, v⟩ :: tail) v
      (by rw [hv]; simp [Line.tokens]) (Or.inr rfl)

/-- C6 (the code at the failing input): `NewSubGenerator` with `create` set, on a
new store and a transcript whose second line is malformed. `PopulateCorpus`
returns the error of the tokenizer, yet `NewSubGenerator` returns nil, the
model is registered under its name, and the half-populated store, with
`hello` under the key of the (empty, empty) prefix, stays on disk. -/
theorem C6_failed_population_is_kept :
    (train RangeTables.latin1 50 ⟨2, DB.empty⟩ (ascii "log")
        (ascii "12:00:00< alice> hello\n1a:00:00 x\n") (ascii "alice")).2
      = .ret (some (.text (ascii "Invalid date format, got a expected DIGIT at log:2:-22"))) ∧
    ((Generator.NewSubGenerator RangeTables.latin1 50 ⟨fun _ => none, ascii "db/", none⟩
        (fun p => if p = ascii "log" then some (ascii "12:00:00< alice> hello\n1a:00:00 x\n")
          else none)
        (fun _ => none) (ascii "al") (ascii "alice") (ascii "log") 2 true).get?.map
      fun r => (r.1, ((r.2.1.all (ascii "al")).bind fun mc => mc.CorpusDB).bind
          (fun db => db (Prefix.bytes [[], []])),
        (r.2.2 (ascii "db/al")).bind fun db => db (Prefix.bytes [[], []])))
      = some (none, some (ascii "hello"), some (ascii "hello")) := by
  decide!

/-- C8 (the code at the failing input): on the transcript `12:00:00  x`, a system
line that no newline ends, the tokenizer sends no token at all and never
closes the channel, whatever the fuel: at the end of the file the test of
`ignoreWhile` in `lexIgnoredLine` accepts U+FFFD for ever. -/
theorem C8_skipped_last_line_never_ends (T : RangeTables) (fuel : Nat) :
    (InitLogLexer (ascii "log") (ascii "12:00:00  x") (ascii "alice")).Run T (fuel + 3)
      = ⟨[], false⟩ := by
  have h := Run_system_eof T (ascii "log") (ascii "alice") [] (ascii "12:00:00") (ascii " x") 2
    (fuel + 3) (fun ln h => absurd h (by simp)) (by decide) (by decide) (by decide)
    (by simp [ascii, DecodeRune, IsSpace, MaxLatin1]) (by simp [transcript])
  have hbytes : transcript [] ++ (ascii "12:00:00" ++ 0x20 :: ascii " x") = ascii "12:00:00  x" := by
    decide
  rw [hbytes] at h
  simpa using h

/-- C9 (the code at the failing input): a malformed date on the second line of
a transcript. The `Error` tokens carry line 2 and the columns -10, -9, -9
and -5, where the offending character is at offset 1 of its line: `newline`
stores `cur_point + bufstart` as the start of the line, which is its offset
in the file plus the index of the read point in the window. -/
theorem C9_column_on_second_line :
    (InitLogLexer (ascii "log") (ascii "12:00:00  x\n1a:00:00 y\n") (ascii "alice")).Run
        RangeTables.latin1 50
      = ⟨[⟨.TokError, ascii "Invalid date format, got a expected DIGIT at log:2:-10"⟩,
          ⟨.TokError, ascii "Invalid date format, got a expected \":\" at log:2:-9"⟩,
          ⟨.TokError, ascii "Invalid date format, got : expected DIGIT at log:2:-9"⟩,
          ⟨.TokError, ascii "Invalid char, got : expected \"<\" or SPACE at log:2:-5"⟩], true⟩ := by
  decide!

/-- C7 (counterexample): on the line `12:00:00 <alice> hi` of the specification
`lexDate` returns the nil state after an `Error` token, so neither `lexNick` nor
`lexPrivmsg` is entered; and on `12:00:00<alice> hi` the rune after `<` is taken
for the status, the nick parsed is `lice`: nothing of the message is sent for
the speaker `alice`, and its word is sent for the speaker `lice`. -/
theorem C7_spec_nick_line_rejected :
    (lexDate RangeTables.latin1 50
        (InitLogLexer (ascii "log") (ascii "12:00:00 <alice> hi\n") (ascii "alice"))).state = none ∧
    (lexDate RangeTables.latin1 50
        (InitLogLexer (ascii "log") (ascii "12:00:00 <alice> hi\n") (ascii "alice"))).tokens
      = [⟨.TokError, ascii "Invalid char, got < expected \"*\" or SPACE at log:1:9"⟩] ∧
    ((InitLogLexer (ascii "log") (ascii "12:00:00<alice> hi\n") (ascii "alice")).Run
        RangeTables.latin1 50).pending.take 1 = [⟨.TokEOF, ascii "\n"⟩] ∧
    ((InitLogLexer (ascii "log") (ascii "12:00:00<alice> hi\n") (ascii "lice")).Run
        RangeTables.latin1 50).pending.take 2 = [⟨.TokWord, ascii "hi"⟩, ⟨.TokEOL, []⟩] := by
  decide!

/-- C10 (counterexample): the transcript `12:00:00 <alice> hello wor`, a message of
the speaker `alice` in the format of the specification that the end of the
file cuts, yields one `Error` token and no `Word`. And on the transcript
`12:00:00< alice> ` followed by 4100 letters `a`, in the format the code
accepts, the first token received is a `Word` of 4096 letters only, not the
pending word. -/
theorem C10_spec_cut_line_rejected_long_word_cut :
    (InitLogLexer (ascii "log") (ascii "12:00:00 <alice> hello wor") (ascii "alice")).Run
        RangeTables.latin1 50
      = ⟨[⟨.TokError, ascii "Invalid char, got < expected \"*\" or SPACE at log:1:9"⟩], true⟩ ∧
    ((InitLogLexer (ascii "log") (ascii "12:00:00< alice> " ++ List.replicate 4100 0x61)
        (ascii "alice")).Run RangeTables.latin1 5000).pending.head?
      = some ⟨.TokWord, List.replicate 4096 0x61⟩ := by
  refine ⟨by decide!, ?_⟩
  have h := long_word_example []
  rwa [List.append_nil] at h

/-- C5 (the code at the failing input): on the transcript `1a:00:00 x` the
tokenizer, whose consumer keeps receiving, sends four `Error` tokens before it
closes the channel: the calls of `errorfEOFValid` and `errorfEOF` inside the loop
of `lexDate` drop the nil state they return and lexing goes on. -/
theorem C5_malformed_date_four_errors :
    (InitLogLexer (ascii "log") (ascii "1a:00:00 x\n") (ascii "alice")).Run RangeTables.latin1 50
      = ⟨[⟨.TokError, ascii "Invalid date format, got a expected DIGIT at log:1:1"⟩,
          ⟨.TokError, ascii "Invalid date format, got a expected \":\" at log:1:2"⟩,
          ⟨.TokError, ascii "Invalid date format, got : expected DIGIT at log:1:2"⟩,
          ⟨.TokError, ascii "Invalid char, got : expected \"<\" or SPACE at log:1:6"⟩], true⟩ := by
  decide!

/-! ### The generator on any store -/

theorem bytesSplit_ne_nil (s : Bytes) : bytesSplit s 32 ≠ [] := by
  induction s with
  | nil => simp [bytesSplit]
  | cons c t ih =>
    unfold bytesSplit
    split_ifs
    · simp
    · split <;> simp

theorem bytesSplit_no_sep (s : Bytes) : ∀ w ∈ bytesSplit s 32, 32 ∉ w := by
  induction s with
  | nil => simp [bytesSplit]
  | cons c t ih =>
    unfold bytesSplit
    split_ifs with hc
    · intro w hw
      rcases List.mem_cons.1 hw with rfl | hw
      · simp
      · exact ih w hw
    · split
      · rename_i h; exact absurd h (bytesSplit_ne_nil t)
      · rename_i w0 ws h
        rw [h] at ih
        intro w hw
        rcases List.mem_cons.1 hw with rfl | hw
        · intro hmem
          rcases List.mem_cons.1 hmem with e | e
          · exact hc e.symm
          · exact ih w0 (by simp) e
        · exact ih w (List.mem_cons_of_mem _ hw)

theorem pick_mem (s : Suffix) (draw : Nat) (hs : s ≠ []) :
    ∃ w, s.pick draw = some w ∧ w ∈ s := by
  have hpos : 0 < s.length := List.length_pos.2 hs
  have hlt : draw % s.length < s.length := Nat.mod_lt _ hpos
  refine ⟨s.get ⟨draw % s.length, hlt⟩, ?_, List.get_mem _ _ _⟩
  unfold Suffix.pick
  rw [if_neg (by omega)]
  exact List.get?_eq_get hlt

theorem generateLoopReads_snd (db : DB) (draws : Nat → Nat) :
    ∀ (n k : Nat) (pfx : Prefix) (words : List Bytes) (reads : Nat),
    (generateLoopReads db draws n k pfx words reads).2 = generateLoop db draws n k pfx words := by
  intro n
  induction n with
  | zero => intro k pfx words reads; rfl
  | succ n ih =>
    intro k pfx words reads
    simp only [generateLoopReads, generateLoop, DB.Get]
    cases hp : Suffix.pick (createSuffix ((db pfx.bytes).getD [])) (draws k) with
    | none => rfl
    | some word =>
      simp only
      by_cases hl : word.length = 0
      · simp only [hl, if_true]
      · simp only [hl, if_false]
        cases hb : pfx.buildNext word with
        | none => rfl
        | some pfx1 => exact ih _ _ _ _

/-- The loop of `Generate` on any store, from a window of `N` entries: it returns
at most `n` more words, each of them non-empty and without a space, after at
most `n` reads. -/
theorem generateLoop_bounded (db : DB) (draws : Nat → Nat) :
    ∀ (n k : Nat) (pfx : Prefix) (words : List Bytes) (reads : Nat),
    pfx ≠ [] → (∀ w ∈ words, GoodWord w) →
    ∃ out : List Bytes,
      generateLoop db draws n k pfx words = .ret (.ok out) ∧
      out.length ≤ words.length + n ∧ (∀ w ∈ out, GoodWord w) ∧
      (generateLoopReads db draws n k pfx words reads).1 ≤ reads + n := by
  intro n
  induction n with
  | zero =>
    intro k pfx words reads _ hw
    exact ⟨words, rfl, by omega, hw, by simp [generateLoopReads]⟩
  | succ n ih =>
    intro k pfx words reads hp hw
    obtain ⟨w, hpick, hmem⟩ := pick_mem (createSuffix ((db pfx.bytes).getD [])) (draws k)
      (bytesSplit_ne_nil _)
    have hsp : 32 ∉ w := bytesSplit_no_sep _ w hmem
    by_cases hlen : w.length = 0
    · refine ⟨words, ?_, by omega, hw, ?_⟩
      · simp [generateLoop, DB.Get, hpick, hlen]
      · simp only [generateLoopReads, DB.Get, hpick, hlen, if_true]
        omega
    · have hne : w ≠ [] := fun e => hlen (by rw [e]; rfl)
      have hb := buildNext_eq pfx w hp
      obtain ⟨out, h1, h2, h3, h4⟩ := ih (k + 1) (pfx.drop 1 ++ [w]) (words ++ [w]) (reads + 1)
        (by simp)
        (by
          intro x hx
          rcases List.mem_append.1 hx with hx | hx
          · exact hw x hx
          · rw [List.mem_singleton.1 hx]; exact ⟨hne, hsp⟩)
      refine ⟨out, ?_, ?_, h3, ?_⟩
      · simp only [generateLoop, DB.Get, hpick, hlen, if_false, hb]
        exact h1
      · simp only [List.length_append, List.length_singleton] at h2
        omega
      · simp only [generateLoopReads, DB.Get, hpick, hlen, if_false, hb]
        omega

theorem makePrefix_ne_nil (N : Nat) (hN : 1 ≤ N) : makePrefix N ≠ [] := by
  intro h
  have := congrArg List.length h
  simp [makePrefix] at this
  omega

/-- C12: `Generate` returns the empty string and a nil error when `maxWords` is 0
and, for every `maxWords`, when the store holds no value for the key of the
all-empty prefix; for every store, every prefix length and every sequence of
random choices. -/
theorem C12_generate_empty (N : Nat) (db : DB) (maxWords : Int) (draws : Nat → Nat)
    (h : maxWords = 0 ∨ db (makePrefix N).bytes = none) :
    (MarkovChain.mk N db).Generate maxWords draws = .ret ([], none) := by
  rcases h with h | h
  · subst h
    rfl
  · unfold MarkovChain.Generate MarkovChain.generateWords
    cases hm : maxWords.toNat with
    | zero => rfl
    | succ n =>
      have hpick : Suffix.pick (createSuffix []) (draws 0) = some [] := by
        simp [createSuffix, bytesSplit, Suffix.pick, Nat.mod_one]
      simp [generateLoop, DB.Get, h, hpick, bytesJoin]

theorem C12_generate_empty_witness :
    (MarkovChain.mk 2 DB.empty).Generate 5 (fun _ => 0) = .ret ([], none) :=
  C12_generate_empty 2 DB.empty 5 (fun _ => 0) (Or.inr rfl)

/-- C13: on every store, for every prefix length `N ≥ 1`, every `maxWords ≥ 0` and
every sequence of random choices, `Generate` returns, with a nil error, the
space-join of at most `maxWords` words, each of them non-empty and without a
space (so that splitting a non-empty result on single spaces gives these words
back), and it makes at most `maxWords` calls of `CorpusDB.Get`. -/
theorem C13_generate_bounded (N : Nat) (hN : 1 ≤ N) (db : DB) (maxWords : Int)
    (hmax : 0 ≤ maxWords) (draws : Nat → Nat) :
    ∃ words : List Bytes,
      (MarkovChain.mk N db).Generate maxWords draws = .ret (bytesJoin words [32], none) ∧
      (words.length : Int) ≤ maxWords ∧
      (∀ w ∈ words, w ≠ [] ∧ 32 ∉ w) ∧
      (words ≠ [] → bytesSplit (bytesJoin words [32]) 32 = words) ∧
      (((MarkovChain.mk N db).generateReads maxWords draws : Nat) : Int) ≤ maxWords := by
  obtain ⟨out, h1, h2, h3, h4⟩ := generateLoop_bounded db draws maxWords.toNat 0 (makePrefix N) [] 0
    (makePrefix_ne_nil N hN) (by simp)
  refine ⟨out, ?_, ?_, h3, ?_, ?_⟩
  · unfold MarkovChain.Generate MarkovChain.generateWords
    simp only [h1]
  · simp only [List.length_nil, Nat.zero_add] at h2
    omega
  · intro hne
    exact bytesSplit_bytesJoin out hne (fun w hw => (h3 w hw).2)
  · unfold MarkovChain.generateReads
    simp only [Nat.zero_add] at h4
    have h5 : (generateLoopReads db draws maxWords.toNat 0 (makePrefix N) [] 0).1
        ≤ maxWords.toNat := h4
    show ((generateLoopReads db draws maxWords.toNat 0 (makePrefix N) [] 0).1 : Int) ≤ maxWords
    omega

theorem C13_generate_bounded_witness :
    ∃ words : List Bytes,
      (MarkovChain.mk 2 (fun _ => some (ascii "a  b"))).Generate 3 (fun _ => 0)
        = .ret (bytesJoin words [32], none) ∧
      (words.length : Int) ≤ 3 ∧
      (∀ w ∈ words, w ≠ [] ∧ 32 ∉ w) ∧
      (words ≠ [] → bytesSplit (bytesJoin words [32]) 32 = words) ∧
      (((MarkovChain.mk 2 (fun _ => some (ascii "a  b"))).generateReads 3 (fun _ => 0) : Nat) : Int)
        ≤ 3 :=
  C13_generate_bounded 2 (by decide) (fun _ => some (ascii "a  b")) 3 (by decide) (fun _ => 0)

/-! ### Recording and picking continuations -/

theorem recordWords_some (key : Bytes) (ws : List Bytes) :
    ∀ (v : Bytes), recordWords key ws (some v)
      = some (ws.foldl (fun acc w => acc ++ [32] ++ w) v) := by
  induction ws with
  | nil => intro v; rfl
  | cons w t ih =>
    intro v
    have h := ih (v ++ [32] ++ w)
    simp only [recordWords, List.foldl_cons, suffixUpdater] at h ⊢
    simpa using h

theorem foldl_join (ws : List Bytes) :
    ∀ (pre : List Bytes), pre ≠ [] →
      ws.foldl (fun acc w => acc ++ [32] ++ w) (bytesJoin pre [32]) = bytesJoin (pre ++ ws) [32] := by
  induction ws with
  | nil => intro pre _; simp
  | cons w t ih =>
    intro pre hpre
    rw [List.foldl_cons, ← bytesJoin_snoc pre w hpre, ih (pre ++ [w]) (by simp)]
    simp

theorem recordWords_nil_key (key : Bytes) (ws : List Bytes) (hne : ws ≠ []) :
    recordWords key ws none = some (bytesJoin ws [32]) := by
  cases ws with
  | nil => exact absurd rfl hne
  | cons w t =>
    have h1 : recordWords key (w :: t) none = recordWords key t (some w) := by
      simp [recordWords, suffixUpdater]
    rw [h1, recordWords_some]
    have h2 := foldl_join t [w] (by simp)
    simpa [bytesJoin] using h2

theorem pick_lt (s : Suffix) (i : Nat) (hi : i < s.length) : s.pick i = s.get? i := by
  unfold Suffix.pick
  rw [if_neg (by omega), Nat.mod_eq_of_lt hi]

theorem pickWeight_eq_count (s : Suffix) (w : Bytes) : pickWeight s w = s.count w := by
  unfold pickWeight
  induction s using List.reverseRecOn with
  | nil => rfl
  | append_singleton l a ih =>
    rw [List.length_append, List.length_singleton, List.range_succ, List.filter_append,
      List.length_append, List.count_append]
    congr 1
    · rw [← ih]
      congr 1
      apply List.filter_congr
      intro i hi
      have hi' : i < l.length := List.mem_range.1 hi
      rw [pick_lt _ i (by simp; omega), pick_lt _ i hi', List.get?_eq_getElem?,
        List.get?_eq_getElem?, List.getElem?_append_left hi']
    · have hp : Suffix.pick (l ++ [a]) l.length = some a := by
        rw [pick_lt _ _ (by simp)]
        simp
      by_cases h : a = w
      · subst h
        simp [hp]
      · simp only [List.filter_cons, hp, Option.some.injEq, h, decide_False, Bool.false_eq_true,
          if_false, List.filter_nil, List.length_nil, List.count_singleton]
        simp [h]

/-- C14: for a non-empty list `ws` of non-empty words without a space, applying
`suffixUpdater` for each word of `ws` in turn to an absent (nil) value gives the
space-join of `ws`; `createSuffix` of that value is `ws` itself, same order and
same multiplicities; the index `i` picks the `i`-th word of `ws`, so the number
of indices that pick a word `w` is the number of times `w` is in `ws`. -/
theorem C14_recorded_words_roundtrip (key : Bytes) (ws : List Bytes) (hne : ws ≠ [])
    (hws : ∀ w ∈ ws, w ≠ [] ∧ 32 ∉ w) :
    recordWords key ws none = some (bytesJoin ws [32]) ∧
    createSuffix (bytesJoin ws [32]) = ws ∧
    (∀ draw, Suffix.pick (createSuffix (bytesJoin ws [32])) draw = ws.get? (draw % ws.length)) ∧
    (∀ w, pickWeight (createSuffix (bytesJoin ws [32])) w = ws.count w) := by
  have hs : createSuffix (bytesJoin ws [32]) = ws :=
    bytesSplit_bytesJoin ws hne (fun w hw => (hws w hw).2)
  refine ⟨recordWords_nil_key key ws hne, hs, ?_, ?_⟩
  · intro draw
    rw [hs]
    unfold Suffix.pick
    rw [if_neg (by have := List.length_pos.2 hne; omega)]
  · intro w
    rw [hs]
    exact pickWeight_eq_count ws w

theorem C14_recorded_words_roundtrip_witness :
    recordWords (ascii "k") [ascii "a", ascii "b", ascii "a", ascii "a"] none
      = some (bytesJoin [ascii "a", ascii "b", ascii "a", ascii "a"] [32]) ∧
    createSuffix (bytesJoin [ascii "a", ascii "b", ascii "a", ascii "a"] [32])
      = [ascii "a", ascii "b", ascii "a", ascii "a"] ∧
    (∀ draw, Suffix.pick (createSuffix (bytesJoin [ascii "a", ascii "b", ascii "a", ascii "a"] [32]))
      draw = [ascii "a", ascii "b", ascii "a", ascii "a"].get?
        (draw % [ascii "a", ascii "b", ascii "a", ascii "a"].length)) ∧
    (∀ w, pickWeight (createSuffix (bytesJoin [ascii "a", ascii "b", ascii "a", ascii "a"] [32])) w
      = [ascii "a", ascii "b", ascii "a", ascii "a"].count w) :=
  C14_recorded_words_roundtrip (ascii "k") [ascii "a", ascii "b", ascii "a", ascii "a"]
    (by decide) (by decide)

/-! ### The prefix window -/

theorem populatePrefixes_length (N : Nat) :
    ∀ (ts : List Token) (pfix : Prefix) (db : DB), pfix.length = N → 1 ≤ N →
    ∀ p ∈ populatePrefixes N ts pfix db, p.length = N := by
  intro ts
  induction ts with
  | nil =>
    intro pfix db hp _ p hmem
    simp only [populatePrefixes, List.mem_singleton] at hmem
    rw [hmem]; exact hp
  | cons t ts ih =>
    intro pfix db hp hN p hmem
    have hne : pfix ≠ [] := by
      intro e; rw [e] at hp; simp at hp; omega
    unfold populatePrefixes at hmem
    rcases List.mem_cons.1 hmem with rfl | hmem
    · exact hp
    · cases hty : t.Typ with
      | TokWord =>
        rcases Put_suffixUpdater_cases db pfix.bytes t.Value with hput | ⟨e, hput⟩
        · simp only [hty, hput, buildNext_eq pfix t.Value hne] at hmem
          exact ih _ _ (by simp; omega) hN p hmem
        · simp [hty, hput] at hmem
      | TokEOL =>
        simp only [hty] at hmem
        exact ih _ _ (by simp [makePrefix]) hN p hmem
      | TokEOF => simp [hty] at hmem
      | TokError => simp [hty] at hmem

theorem populateLoop_no_panic (N : Nat) (closed : Bool) :
    ∀ (ts : List Token) (pfix : Prefix) (db : DB), pfix.length = N → 1 ≤ N →
    (populateLoop N ts closed pfix db).2 ≠ .panic := by
  intro ts
  induction ts with
  | nil =>
    intro pfix db _ _
    unfold populateLoop
    split <;> simp
  | cons t ts ih =>
    intro pfix db hp hN
    have hne : pfix ≠ [] := by
      intro e; rw [e] at hp; simp at hp; omega
    unfold populateLoop
    cases hty : t.Typ with
    | TokWord =>
      rcases Put_suffixUpdater_cases db pfix.bytes t.Value with hput | ⟨e, hput⟩
      · simp only [hput, buildNext_eq pfix t.Value hne]
        exact ih _ _ (by simp; omega) hN
      · simp [hput]
    | TokEOL => exact ih _ _ (by simp [makePrefix]) hN
    | TokEOF => simp
    | TokError => simp

theorem generatePrefixes_length (N : Nat) (db : DB) (draws : Nat → Nat) :
    ∀ (n k : Nat) (pfx : Prefix), pfx.length = N → 1 ≤ N →
    ∀ p ∈ generatePrefixes db draws n k pfx, p.length = N := by
  intro n
  induction n with
  | zero =>
    intro k pfx hp _ p hmem
    simp only [generatePrefixes, List.mem_singleton] at hmem
    rw [hmem]; exact hp
  | succ n ih =>
    intro k pfx hp hN p hmem
    have hne : pfx ≠ [] := by
      intro e; rw [e] at hp; simp at hp; omega
    unfold generatePrefixes at hmem
    rcases List.mem_cons.1 hmem with rfl | hmem
    · exact hp
    · simp only [DB.Get] at hmem
      cases hpick : Suffix.pick (createSuffix ((db pfx.bytes).getD [])) (draws k) with
      | none => simp [hpick] at hmem
      | some word =>
        simp only [hpick] at hmem
        by_cases hl : word.length = 0
        · simp [hl] at hmem
        · simp only [hl, if_false, buildNext_eq pfx word hne] at hmem
          exact ih _ _ (by simp; omega) hN p hmem

/-- C17: for every prefix length `N ≥ 1`, `make(prefix, N)` is `N` empty entries;
advancing a window `p` of `N` entries with a word `w` does not fail and gives
the last `N - 1` entries of `p` followed by `w`, again `N` entries; every value
that the window variable of `PopulateCorpus` and of `Generate` takes has `N`
entries, and neither loop panics. -/
theorem C17_window_keeps_N_entries (N : Nat) (hN : 1 ≤ N) :
    ((makePrefix N).length = N ∧ ∀ w ∈ makePrefix N, w = []) ∧
    (∀ (p : Prefix) (w : Bytes), p.length = N →
      p.buildNext w = some (p.drop 1 ++ [w]) ∧ (p.drop 1 ++ [w]).length = N) ∧
    (∀ (ts : List Token) (closed : Bool) (db : DB),
      (∀ p ∈ populatePrefixes N ts (makePrefix N) db, p.length = N) ∧
      ((MarkovChain.mk N db).PopulateCorpus ⟨ts, closed⟩).2 ≠ .panic) ∧
    (∀ (db : DB) (maxWords : Int) (draws : Nat → Nat),
      (∀ p ∈ generatePrefixes db draws maxWords.toNat 0 (makePrefix N), p.length = N) ∧
      (MarkovChain.mk N db).Generate maxWords draws ≠ .panic) := by
  have hlen : (makePrefix N).length = N := by simp [makePrefix]
  refine ⟨⟨hlen, ?_⟩, ?_, ?_, ?_⟩
  · intro w hw
    exact (List.mem_replicate.1 hw).2
  · intro p w hp
    have hne : p ≠ [] := by
      intro e; rw [e] at hp; simp at hp; omega
    exact ⟨buildNext_eq p w hne, by simp; omega⟩
  · intro ts closed db
    exact ⟨populatePrefixes_length N ts _ db hlen hN,
      populateLoop_no_panic N closed ts _ db hlen hN⟩
  · intro db maxWords draws
    refine ⟨generatePrefixes_length N db draws _ 0 _ hlen hN, ?_⟩
    obtain ⟨out, h1, _⟩ := generateLoop_bounded db draws maxWords.toNat 0 (makePrefix N) [] 0
      (makePrefix_ne_nil N hN) (by simp)
    unfold MarkovChain.Generate MarkovChain.generateWords
    simp [h1]

theorem C17_window_keeps_N_entries_witness :
    ((makePrefix 2).length = 2 ∧ ∀ w ∈ makePrefix 2, w = []) ∧
    (∀ (p : Prefix) (w : Bytes), p.length = 2 →
      p.buildNext w = some (p.drop 1 ++ [w]) ∧ (p.drop 1 ++ [w]).length = 2) ∧
    (∀ (ts : List Token) (closed : Bool) (db : DB),
      (∀ p ∈ populatePrefixes 2 ts (makePrefix 2) db, p.length = 2) ∧
      ((MarkovChain.mk 2 db).PopulateCorpus ⟨ts, closed⟩).2 ≠ .panic) ∧
    (∀ (db : DB) (maxWords : Int) (draws : Nat → Nat),
      (∀ p ∈ generatePrefixes db draws maxWords.toNat 0 (makePrefix 2), p.length = 2) ∧
      (MarkovChain.mk 2 db).Generate maxWords draws ≠ .panic) :=
  C17_window_keeps_N_entries 2 (by decide)

/-- C20: two prefix windows of the same length whose words, empty ones included,
hold no space byte have the same key `prefix.bytes` if and only if they are
equal word for word. -/
theorem C20_prefix_key_injective (p q : Prefix) (hlen : p.length = q.length)
    (hp : ∀ w ∈ p, 32 ∉ w) (hq : ∀ w ∈ q, 32 ∉ w) :
    p.bytes = q.bytes ↔ p = q := by
  constructor
  · intro h
    by_cases hpe : p = []
    · subst hpe
      exact (List.length_eq_zero.1 hlen.symm).symm
    · have hqe : q ≠ [] := by
        intro e; subst e; exact hpe (List.length_eq_zero.1 hlen)
      have h1 := bytesSplit_bytesJoin p hpe hp
      have h2 := bytesSplit_bytesJoin q hqe hq
      unfold Prefix.bytes at h
      rw [← h1, ← h2, h]
  · intro h
    rw [h]

theorem C20_prefix_key_injective_witness :
    Prefix.bytes [[], ascii "hello"] = Prefix.bytes [ascii "hello", []]
      ↔ [[], ascii "hello"] = [ascii "hello", []] :=
  C20_prefix_key_injective [[], ascii "hello"] [ascii "hello", []] (by decide) (by decide)
    (by decide)

/-- C15 (the code where the supplier fails): `CreateMarkovChain` with `create` set,
on a path where no store exists, with a token-stream supplier that returns an
error. The new store is closed and removed, and the call returns a nil error
together with a model whose store is closed: neither a ready model nor a
non-nil error. -/
theorem C15_failed_supplier_reports_success (prefixlen : Nat) (dbpath : Bytes) (e : GoError)
    (disk : Disk) (h : disk dbpath = none) :
    ∃ r, CreateMarkovChain prefixlen dbpath true (.error e) disk = .ret r ∧
      r.err = none ∧ r.mc.CorpusDB = none ∧ r.disk dbpath = none := by
  refine ⟨⟨⟨prefixlen, none⟩, none,
    fun p => if p = dbpath then none else (if p = dbpath then some DB.empty else disk p)⟩, ?_, ?_⟩
  · simp only [CreateMarkovChain, kvCreate, h, if_true]
  · simp

theorem C15_failed_supplier_reports_success_witness :
    ∃ r, CreateMarkovChain 2 (ascii "db/al") true
        (getLexChan RangeTables.latin1 50 (fun _ => none) (ascii "log") (ascii "alice"))
        (fun _ => none) = .ret r ∧
      r.err = none ∧ r.mc.CorpusDB = none ∧ r.disk (ascii "db/al") = none :=
  C15_failed_supplier_reports_success 2 (ascii "db/al") _ (fun _ => none) rfl

/-- C11 (the code at the failing input): the transcript `12:0`, which ends in the
middle of a timestamp. The first token sent is `EndOfStream`, carrying the
digit read; the `Error` with the premature-end-of-file message comes second:
in the loop of `lexDate` a digit group that is cut short is reported through
`errorfEOFValid`. -/
theorem C11_end_inside_timestamp_is_clean :
    (InitLogLexer (ascii "log") (ascii "12:0") (ascii "alice")).Run RangeTables.latin1 50
      = ⟨[⟨.TokEOF, ascii "0"⟩,
          ⟨.TokError, ascii "logparser : prematured end of file at log:1:4"⟩,
          ⟨.TokEOF, []⟩,
          ⟨.TokError, ascii "logparser : prematured end of file at log:1:4"⟩], true⟩ := by
  decide!

/-! ### The positions of the buffer -/

theorem shift_bufstart (b : Buffer) : b.shift.bufstart = b.bufstart := by
  unfold Buffer.shift
  split <;> rfl

theorem fill_bufstart (b : Buffer) : b.fill.bufstart = b.bufstart := by
  rw [fill_eq]
  exact shift_bufstart b

theorem refill_bufstart (b : Buffer) : b.refill.bufstart = b.bufstart := by
  unfold Buffer.refill
  split
  · exact fill_bufstart b
  · rfl

theorem decode_bufstart (b : Buffer) : b.decode.2.bufstart = b.bufstart := by
  unfold Buffer.decode
  simp only
  split_ifs <;> rfl

theorem next_bufstart (b : Buffer) : b.next.2.bufstart = b.bufstart := by
  rw [next_eq, decode_bufstart, refill_bufstart]

theorem shift_win (b : Buffer) (pend rest : Bytes) (h : Win b pend rest) :
    Win b.shift pend rest := by
  obtain ⟨pre, win, post, hl, hrest⟩ := h
  obtain ⟨post0, h0, hrd, _⟩ := shift_layout b pre pend win post hl
  exact ⟨[], win, post0, h0, by rw [hrd, hrest]⟩

theorem fill_win (b : Buffer) (pend rest : Bytes) (h : Win b pend rest) :
    Win b.fill pend rest := by
  obtain ⟨pre, win, post, hl, hrest⟩ := h
  rw [fill_eq]
  obtain ⟨post0, h0, hrd, _⟩ := shift_layout b pre pend win post hl
  obtain ⟨win1, post1, h1, h2, _⟩ := readMore_full b.shift pend win post0 h0
  exact ⟨[], win1, post1, h1, by rw [h2, hrd, hrest]⟩

/-- The second half of `next` on any window, whether a rune can be decoded or
not: the read point moves past the bytes that `DecodeRune` counts. -/
theorem decode_layout (b : Buffer) (pre pend win post : Bytes) (h : Layout b pre pend win post) :
    b.decode.1 = (DecodeRune win).1 ∧
    Layout b.decode.2 pre (pend ++ win.take (DecodeRune win).2) (win.drop (DecodeRune win).2) post ∧
    b.decode.2.last_rune_len = (DecodeRune win).2 ∧ b.decode.2.rd = b.rd := by
  have hw := layout_slice_win b pre pend win post h
  obtain ⟨hbuf, hlen, hs, hc, he⟩ := h
  have hn := DecodeRune_len_le win
  have hB : b.Buf = pre ++ ((pend ++ List.take (DecodeRune win).2 win)
      ++ (List.drop (DecodeRune win).2 win ++ post)) := by
    rw [hbuf, List.append_assoc, ← List.append_assoc (List.take _ win), List.take_append_drop]
  have hC : b.cur_point + (DecodeRune win).2
      = pre.length + (pend ++ List.take (DecodeRune win).2 win).length := by
    simp only [List.length_append, List.length_take]
    omega
  have hE : b.end_pos = pre.length + (pend ++ List.take (DecodeRune win).2 win).length
      + (List.drop (DecodeRune win).2 win).length := by
    simp only [List.length_append, List.length_take, List.length_drop]
    omega
  unfold Buffer.decode
  simp only [hw]
  split_ifs
  all_goals exact ⟨trivial, ⟨hB, hlen, hs, hC, hE⟩, rfl, rfl⟩

theorem next_win (b : Buffer) (pend rest : Bytes) (h : Win b pend rest) :
    ∃ t u, rest = t ++ u ∧ Win b.next.2 (pend ++ t) u ∧ b.next.2.last_rune_len = t.length := by
  obtain ⟨pre1, win1, post1, h1, h2, _⟩ := refill_full b pend rest h
  obtain ⟨_, e2, e3, e4⟩ := decode_layout b.refill pre1 pend win1 post1 h1
  have hn := DecodeRune_len_le win1
  refine ⟨win1.take (DecodeRune win1).2, win1.drop (DecodeRune win1).2 ++ b.refill.rd.data,
    ?_, ?_, ?_⟩
  · rw [← List.append_assoc, List.take_append_drop, h2]
  · rw [next_eq]
    exact ⟨pre1, _, post1, e2, by rw [e4]⟩
  · rw [next_eq, e3, List.length_take]
    omega

theorem peek_win (b : Buffer) (pend rest : Bytes) (h : Win b pend rest) :
    Win b.peek.2 pend rest := by
  obtain ⟨t, u, hr, ⟨pre, win, post, hl, hrest⟩, hlen⟩ := next_win b pend rest h
  have := backup_layout b.next.2 pre pend t win post hl hlen
  refine ⟨pre, t ++ win, post, this, ?_⟩
  show (t ++ win) ++ b.next.2.rd.data = rest
  rw [List.append_assoc, hrest, hr]

theorem backup_bufstart (b : Buffer) : b.backup.bufstart = b.bufstart := rfl

theorem ignoreToken_bufstart (b : Buffer) (pend rest : Bytes) (h : Win b pend rest) :
    b.ignoreToken.bufstart = b.bufstart + pend.length := by
  obtain ⟨pre, win, post, ⟨_, _, hs, hc, _⟩, _⟩ := h
  show b.bufstart + (b.cur_point - b.start_pos) = _
  omega

/-- What a reachable state of the buffer holds: a part `done` of the file that
is past, of `bufstart` bytes, then the pending token and what is still to read. -/
theorem Reach_win (content : Bytes) (b : Buffer) (h : Reach content b) :
    ∃ done pend rest, Win b pend rest ∧ content = done ++ (pend ++ rest) ∧
      done.length = b.bufstart := by
  induction h with
  | init =>
    refine ⟨[], [], content, ⟨[], [], List.replicate iosize 0, ⟨?_, ?_, rfl, rfl, rfl⟩, ?_⟩, rfl, rfl⟩
    · simp [newBuffer]
    · simp [newBuffer]
    · simp [newBuffer]
  | shift b _ _ ih =>
    obtain ⟨done, pend, rest, hw, hc, hd⟩ := ih
    exact ⟨done, pend, rest, shift_win b pend rest hw, hc, by rw [shift_bufstart, hd]⟩
  | fill b _ _ ih =>
    obtain ⟨done, pend, rest, hw, hc, hd⟩ := ih
    exact ⟨done, pend, rest, fill_win b pend rest hw, hc, by rw [fill_bufstart, hd]⟩
  | next b _ ih =>
    obtain ⟨done, pend, rest, hw, hc, hd⟩ := ih
    obtain ⟨t, u, hr, hw1, _⟩ := next_win b pend rest hw
    exact ⟨done, pend ++ t, u, hw1, by rw [hc, hr, List.append_assoc],
      by rw [next_bufstart, hd]⟩
  | peek b _ ih =>
    obtain ⟨done, pend, rest, hw, hc, hd⟩ := ih
    refine ⟨done, pend, rest, peek_win b pend rest hw, hc, ?_⟩
    show _ = (b.next.2.backup).bufstart
    rw [backup_bufstart, next_bufstart, hd]
  | ignoreToken b _ ih =>
    obtain ⟨done, pend, rest, hw, hc, hd⟩ := ih
    refine ⟨done ++ pend, [], rest, ignoreToken_win b pend rest hw, ?_, ?_⟩
    · rw [hc]; simp
    · rw [ignoreToken_bufstart b pend rest hw, List.length_append, hd]

theorem Reach_ok (content : Bytes) (b : Buffer) (h : Reach content b) :
    b.PosOK ∧ b.OffsetOK content := by
  obtain ⟨done, pend, rest, ⟨pre, win, post, ⟨hbuf, hlen, hs, hc, he⟩, hrest⟩, hcont, hd⟩ :=
    Reach_win content b h
  have hsum : b.Buf.length = pre.length + (pend.length + (win.length + post.length)) := by
    rw [hbuf]; simp
  refine ⟨⟨by omega, by omega, by omega⟩, ?_, ?_⟩
  · rw [hcont, ← hd]; simp
  · have hsl : slice b.Buf b.start_pos b.end_pos = pend ++ win := by
      have := slice_mid pre (pend ++ win) post
      rw [hbuf, hs, he]
      simp only [List.length_append, List.append_assoc] at this ⊢
      rw [← Nat.add_assoc] at this
      exact this
    rw [hsl, ← hd, hcont, List.drop_left' rfl, List.append_assoc, hrest]

/-! ### The tokenizer stays within the reachable states -/

theorem acceptWhile_reach (c : Bytes) (test : Nat → Bool) :
    ∀ (fuel n : Nat) (b : Buffer) (m : Nat) (b1 : Buffer), Reach c b →
    Buffer.acceptWhile test fuel n b = some (m, b1) → Reach c b1 := by
  intro fuel
  induction fuel with
  | zero => intro n b m b1 _ h; simp [Buffer.acceptWhile] at h
  | succ fuel ih =>
    intro n b m b1 hr h
    unfold Buffer.acceptWhile at h
    simp only at h
    split_ifs at h
    · exact ih _ _ _ _ (Reach.next b hr) h
    · simp only [Option.some.injEq, Prod.mk.injEq] at h
      rw [← h.2]
      exact Reach.peek b hr

theorem ignoreWhile_reach (c : Bytes) (test : Nat → Bool) :
    ∀ (fuel n : Nat) (b : Buffer) (m : Nat) (b1 : Buffer), Reach c b →
    Buffer.ignoreWhile test fuel n b = some (m, b1) → Reach c b1 := by
  intro fuel
  induction fuel with
  | zero => intro n b m b1 _ h; simp [Buffer.ignoreWhile] at h
  | succ fuel ih =>
    intro n b m b1 hr h
    unfold Buffer.ignoreWhile at h
    simp only at h
    split_ifs at h
    · exact ih _ _ _ _ (Reach.ignoreToken _ (Reach.next b hr)) h
    · simp only [Option.some.injEq, Prod.mk.injEq] at h
      rw [← h.2]
      exact Reach.peek b hr

theorem tokenValue_reach (c : Bytes) (b : Buffer) (h : Reach c b) : Reach c b.tokenValue.2 :=
  Reach.ignoreToken b h

theorem errorf_reach (c : Bytes) (l : LogLexer) (e : Option GoError)
    (h : Reach c l.buf) : Reach c (l.errorf e).2.buf := h

theorem emit_reach (c : Bytes) (l : LogLexer) (t : TokenType)
    (h : Reach c l.buf) : Reach c (l.emit t).buf :=
  Reach.ignoreToken l.buf h

theorem errorfEOF_reach (c : Bytes) (l : LogLexer) (e : Option GoError)
    (h : Reach c l.buf) : Reach c (l.errorfEOF e).2.buf := by
  unfold LogLexer.errorfEOF
  split <;> exact h

theorem errorfEOFValid_reach (c : Bytes) (l : LogLexer) (e : Option GoError)
    (h : Reach c l.buf) : Reach c (l.errorfEOFValid e).2.buf := by
  unfold LogLexer.errorfEOFValid
  split
  · exact h
  · exact emit_reach c l _ h
  · exact h

theorem newline_reach (c : Bytes) (l : LogLexer)
    (h : Reach c l.buf) : Reach c l.newline.buf := h

theorem lexDateGroup_reach (c : Bytes) (T : RangeTables) (fuel i : Nat) (l l1 : LogLexer)
    (hr : Reach c l.buf) (h : lexDateGroup T fuel i l = some l1) : Reach c l1.buf := by
  unfold lexDateGroup at h
  split at h
  · exact absurd h (by simp)
  · rename_i n b hacc
    have hb : Reach c b := acceptWhile_reach c _ fuel 0 l.buf n b hr hacc
    simp only [Option.some.injEq] at h
    rw [← h]
    simp only
    split_ifs
    all_goals
      repeat (first
        | with_reducible exact hb
        | with_reducible apply Reach.ignoreToken
        | with_reducible apply Reach.next
        | with_reducible apply Reach.peek
        | with_reducible apply tokenValue_reach
        | with_reducible apply errorfEOF_reach
        | with_reducible apply errorfEOFValid_reach
        | with_reducible apply emit_reach
        | with_reducible apply newline_reach)

theorem lexDate_reach (c : Bytes) (T : RangeTables) (fuel : Nat) (l : LogLexer)
    (hr : Reach c l.buf) : Reach c (lexDate T fuel l).lexer.buf := by
  unfold lexDate
  split
  · exact hr
  · rename_i l0 h0
    have g0 := lexDateGroup_reach c T fuel 0 l l0 hr h0
    split
    · exact g0
    · rename_i l1 h1
      have g1 := lexDateGroup_reach c T fuel 1 l0 l1 g0 h1
      split
      · exact g1
      · rename_i l2 h2
        have hb := lexDateGroup_reach c T fuel 2 l1 l2 g1 h2
        simp only
        split_ifs
        all_goals simp only [Step.lexer]
        all_goals
          repeat (first
            | with_reducible exact hb
            | with_reducible apply Reach.ignoreToken
            | with_reducible apply Reach.next
            | with_reducible apply Reach.peek
            | with_reducible apply tokenValue_reach
            | with_reducible apply errorfEOF_reach
            | with_reducible apply errorfEOFValid_reach
            | with_reducible apply emit_reach
            | with_reducible apply newline_reach)

theorem lexIgnoredLine_reach (c : Bytes) (fuel : Nat) (l : LogLexer)
    (hr : Reach c l.buf) : Reach c (lexIgnoredLine fuel l).lexer.buf := by
  unfold lexIgnoredLine
  split
  · exact hr
  · rename_i n b hacc
    have hb : Reach c b := ignoreWhile_reach c _ fuel 0 l.buf n b hr hacc
    simp only [Step.lexer]
    split_ifs
    all_goals
      repeat (first
        | with_reducible exact hb
        | with_reducible apply Reach.ignoreToken
        | with_reducible apply Reach.next
        | with_reducible apply Reach.peek
        | with_reducible apply tokenValue_reach
        | with_reducible apply errorfEOF_reach
        | with_reducible apply errorfEOFValid_reach
        | with_reducible apply emit_reach
        | with_reducible apply newline_reach)

theorem lexNick_reach (c : Bytes) (T : RangeTables) (fuel : Nat) (l : LogLexer)
    (hr : Reach c l.buf) : Reach c (lexNick T fuel l).lexer.buf := by
  have h0 : Reach c (if (l.buf.next).1 = 0x3E then
      (LogLexer.errorfEOF { l with buf := (l.buf.next).2 }
        (some (.text (ascii "Invalid nick, got " ++ EncodeRune (l.buf.next).1
          ++ ascii " expected \" \", \"+\", \"@\"")))).2
      else { l with buf := (l.buf.next).2 } : LogLexer).buf.ignoreToken := by
    have hb := hr
    split_ifs
    all_goals
      repeat (first
        | with_reducible exact hb
        | with_reducible apply Reach.ignoreToken
        | with_reducible apply Reach.next
        | with_reducible apply Reach.peek
        | with_reducible apply tokenValue_reach
        | with_reducible apply errorfEOF_reach
        | with_reducible apply errorfEOFValid_reach
        | with_reducible apply emit_reach
        | with_reducible apply newline_reach)
  unfold lexNick
  simp only
  split
  · exact h0
  · rename_i n b hacc
    have hb : Reach c b := acceptWhile_reach c _ fuel 0 _ n b h0 hacc
    split_ifs
    all_goals simp only [Step.lexer]
    all_goals
      repeat (first
        | with_reducible exact hb
        | with_reducible apply Reach.ignoreToken
        | with_reducible apply Reach.next
        | with_reducible apply Reach.peek
        | with_reducible apply tokenValue_reach
        | with_reducible apply errorfEOF_reach
        | with_reducible apply errorfEOFValid_reach
        | with_reducible apply emit_reach
        | with_reducible apply newline_reach)

theorem lexPrivmsgTail_reach (c : Bytes) (T : RangeTables) (fuel rounds : Nat)
    (ih : ∀ l : LogLexer, Reach c l.buf → Reach c (lexPrivmsgLoop T fuel rounds l).lexer.buf)
    (l : LogLexer) (hb : Reach c l.buf) :
    Reach c (lexPrivmsgTail T fuel rounds l).lexer.buf := by
  unfold lexPrivmsgTail
  simp only
  split_ifs
  · simp only [Step.lexer]
    repeat (first
      | with_reducible exact hb
      | with_reducible apply Reach.ignoreToken
      | with_reducible apply Reach.next
      | with_reducible apply Reach.peek
      | with_reducible apply tokenValue_reach
      | with_reducible apply errorfEOF_reach
      | with_reducible apply errorfEOFValid_reach
      | with_reducible apply emit_reach
      | with_reducible apply newline_reach)
  · apply ih
    repeat (first
      | with_reducible exact hb
      | with_reducible apply Reach.ignoreToken
      | with_reducible apply Reach.next
      | with_reducible apply Reach.peek
      | with_reducible apply tokenValue_reach
      | with_reducible apply errorfEOF_reach
      | with_reducible apply errorfEOFValid_reach
      | with_reducible apply emit_reach
      | with_reducible apply newline_reach)
  · apply ih
    repeat (first
      | with_reducible exact hb
      | with_reducible apply Reach.ignoreToken
      | with_reducible apply Reach.next
      | with_reducible apply Reach.peek
      | with_reducible apply tokenValue_reach
      | with_reducible apply errorfEOF_reach
      | with_reducible apply errorfEOFValid_reach
      | with_reducible apply emit_reach
      | with_reducible apply newline_reach)

theorem lexPrivmsgLoop_reach (c : Bytes) (T : RangeTables) (fuel : Nat) :
    ∀ (rounds : Nat) (l : LogLexer), Reach c l.buf →
    Reach c (lexPrivmsgLoop T fuel rounds l).lexer.buf := by
  intro rounds
  induction rounds with
  | zero => intro l hr; exact hr
  | succ rounds ih =>
    intro l hr
    rw [lexPrivmsgLoop_succ]
    split
    · exact hr
    · rename_i n0 b hign
      have hb0 : Reach c b := ignoreWhile_reach c _ fuel 0 l.buf n0 b hr hign
      split
      · exact hb0
      · rename_i n b1 hacc
        have hb : Reach c b1 := acceptWhile_reach c _ fuel 0 b n b1 hb0 hacc
        apply lexPrivmsgTail_reach c T fuel rounds ih
        split_ifs
        all_goals
          repeat (first
            | with_reducible exact hb
            | with_reducible apply Reach.ignoreToken
            | with_reducible apply Reach.next
            | with_reducible apply Reach.peek
            | with_reducible apply tokenValue_reach
            | with_reducible apply errorfEOF_reach
            | with_reducible apply errorfEOFValid_reach
            | with_reducible apply emit_reach
            | with_reducible apply newline_reach)

theorem call_reach (c : Bytes) (T : RangeTables) (fuel : Nat) (state : StateFn) (l : LogLexer)
    (hr : Reach c l.buf) : Reach c (state.call T fuel l).lexer.buf := by
  cases state
  · exact lexDate_reach c T fuel l hr
  · exact lexIgnoredLine_reach c fuel l hr
  · exact hr
  · exact lexNick_reach c T fuel l hr
  · exact lexPrivmsgLoop_reach c T fuel fuel l hr

theorem runLoop_reach (c : Bytes) (T : RangeTables) (fuel : Nat) :
    ∀ (steps : Nat) (state : StateFn) (l : LogLexer), Reach c l.buf →
    Reach c (runLoop T fuel steps state l).1.buf := by
  intro steps
  induction steps with
  | zero => intro state l hr; exact hr
  | succ steps ih =>
    intro state l hr
    have hc := call_reach c T fuel state l hr
    unfold runLoop
    split
    · rename_i l1 h; rw [h] at hc; exact hc
    · rename_i l1 h; rw [h] at hc; exact hc
    · rename_i s1 l1 h; rw [h] at hc; exact ih s1 l1 hc

/-- C19: every state of the buffer that the tokenizer reaches on a file, whatever
the file holds, has `start_pos ≤ cur_point ≤ end_pos ≤ len(Buf)`, so that the
slices of `fill`, `next` and `tokenValue` are in range, and has in `bufstart` the
offset in the file of the byte at `start_pos`; and the buffer is in such a
state after any number of state functions of `Run`, whatever the fuel. -/
theorem C19_buffer_positions_in_range (content : Bytes) :
    (∀ b, Reach content b → b.PosOK ∧ b.OffsetOK content) ∧
    (∀ (T : RangeTables) (fuel steps : Nat) (name nick : Bytes),
      Reach content (runLoop T fuel steps .lexDate (InitLogLexer name content nick)).1.buf) :=
  ⟨Reach_ok content, fun T fuel steps _ _ =>
    runLoop_reach content T fuel steps .lexDate _ Reach.init⟩

/-! ### The runes that `next` returns, for any size of the window -/

theorem shift_fresh (size : Nat) (b : Buffer) (rest : Bytes) (h : Fresh size b rest) :
    ∃ win post, b.shift.Buf = win ++ post ∧ b.shift.Buf.length = size ∧
      b.shift.start_pos = 0 ∧ b.shift.cur_point = 0 ∧ b.shift.end_pos = win.length ∧
      win ++ b.shift.rd.data = rest := by
  obtain ⟨pre, win, post, hbuf, hlen, hs, hc, he, hrest⟩ := h
  have hlen' : pre.length + (win.length + post.length) = size := by
    rw [← hlen, hbuf]; simp
  unfold Buffer.shift
  by_cases h0 : b.start_pos > 0
  · rw [if_pos h0]
    have hsl : slice b.Buf b.start_pos b.end_pos = win := by
      rw [hbuf, hs, he, slice_mid]
    refine ⟨win, List.drop win.length b.Buf, ?_, ?_, rfl, ?_, ?_, hrest⟩
    · show goCopy b.Buf (slice b.Buf b.start_pos b.end_pos) = _
      rw [hsl]
      unfold goCopy
      rw [List.take_of_length_le (by omega)]
    · show (goCopy b.Buf (slice b.Buf b.start_pos b.end_pos)).length = _
      rw [hsl]
      unfold goCopy
      rw [List.take_of_length_le (by omega)]
      simp only [List.length_append, List.length_drop, hlen]
      omega
    · show b.cur_point - b.start_pos = _
      omega
    · show b.end_pos - b.start_pos = _
      omega
  · rw [if_neg h0]
    have hpre : pre = [] := List.length_eq_zero.1 (by omega)
    subst hpre
    exact ⟨win, post, by simpa using hbuf, hlen, by simpa using hs, by simpa using hc,
      by simpa using he, hrest⟩

theorem fill_fresh (size : Nat) (b : Buffer) (rest : Bytes) (h : Fresh size b rest) :
    ∃ win post, b.fill.Buf = win ++ post ∧ b.fill.Buf.length = size ∧
      b.fill.start_pos = 0 ∧ b.fill.cur_point = 0 ∧ b.fill.end_pos = win.length ∧
      win ++ b.fill.rd.data = rest ∧ (win.length = size ∨ b.fill.rd.data = []) := by
  obtain ⟨win, post, hbuf, hlen, hs, hc, he, hrest⟩ := shift_fresh size b rest h
  rw [fill_eq]
  generalize b.shift = b0 at hbuf hlen hs hc he hrest
  have hlen' : win.length + post.length = size := by
    rw [← hlen, hbuf]; simp
  have hn : b0.Buf.length - b0.end_pos = post.length := by omega
  have htake : List.take b0.end_pos b0.Buf = win := by
    rw [hbuf, he, List.take_left' rfl]
  have hdrop : List.drop b0.end_pos b0.Buf = post := by
    rw [hbuf, he, List.drop_left' rfl]
  have hdl : (List.take post.length b0.rd.data).length ≤ post.length := by
    simp
  refine ⟨win ++ b0.rd.data.take post.length, post.drop (b0.rd.data.take post.length).length,
    ?_, ?_, hs, hc, ?_, ?_, ?_⟩
  · show List.take b0.end_pos b0.Buf ++ goCopy (List.drop b0.end_pos b0.Buf) _ = _
    rw [htake, hdrop, hn, Read_eq]
    unfold goCopy
    rw [List.take_of_length_le hdl]
    simp
  · show (List.take b0.end_pos b0.Buf ++ goCopy (List.drop b0.end_pos b0.Buf) _).length = _
    rw [htake, hdrop, hn, Read_eq]
    unfold goCopy
    rw [List.take_of_length_le hdl]
    simp only [List.length_append, List.length_drop]
    omega
  · show (if (b0.rd.Read (b0.Buf.length - b0.end_pos)).1.length > 0 then _ else _) = _
    rw [hn, Read_eq]
    simp only [List.length_append]
    split_ifs with h1
    · omega
    · omega
  · show _ ++ (b0.rd.Read (b0.Buf.length - b0.end_pos)).2.2.data = _
    rw [hn, Read_eq]
    simp [hrest]
  · show _ ∨ (b0.rd.Read (b0.Buf.length - b0.end_pos)).2.2.data = _
    rw [hn, Read_eq]
    by_cases hle : b0.rd.data.length ≤ post.length
    · right; simp [List.drop_eq_nil_iff.2 hle]
    · left
      simp only [List.length_append, List.length_take]
      omega

/-- One call of `next` followed by `ignoreToken`, on a window of any size from
four bytes on: the rune returned is the one that starts the input, and the
input moves on by its bytes. -/
theorem next_fresh (size : Nat) (hsize : 4 ≤ size) (b : Buffer) (rest : Bytes)
    (h : Fresh size b rest) :
    b.next.1 = (DecodeRune rest).1 ∧
    Fresh size b.next.2.ignoreToken (rest.drop (DecodeRune rest).2) := by
  have key : ∃ pre win post, b.refill.Buf = pre ++ (win ++ post) ∧ b.refill.Buf.length = size ∧
      b.refill.cur_point = pre.length ∧ b.refill.end_pos = pre.length + win.length ∧
      win ++ b.refill.rd.data = rest ∧ (4 ≤ win.length ∨ b.refill.rd.data = []) := by
    unfold Buffer.refill
    by_cases hlt : b.end_pos - b.cur_point < 4
    · rw [if_pos hlt]
      obtain ⟨win, post, h1, h2, _, h4, h5, h6, h7⟩ := fill_fresh size b rest h
      refine ⟨[], win, post, by simpa using h1, h2, by simpa using h4, by simpa using h5, h6, ?_⟩
      rcases h7 with h7 | h7
      · left; omega
      · right; exact h7
    · rw [if_neg hlt]
      obtain ⟨pre, win, post, hbuf, hlen, _, hc, he, hrest⟩ := h
      exact ⟨pre, win, post, hbuf, hlen, hc, he, hrest, Or.inl (by omega)⟩
  obtain ⟨pre, win, post, hbuf, hlen, hc, he, hrest, hsuf⟩ := key
  have hdec : DecodeRune win = DecodeRune rest := by
    rcases hsuf with h3 | h3
    · rw [← hrest, DecodeRune_append_four _ _ h3]
    · rw [← hrest, h3, List.append_nil]
  have hsl : slice b.refill.Buf b.refill.cur_point b.refill.end_pos = win := by
    rw [hbuf, hc, he, slice_mid]
  have hn := DecodeRune_len_le win
  have hnext : b.next.1 = (DecodeRune win).1 ∧ b.next.2.Buf = b.refill.Buf ∧
      b.next.2.cur_point = b.refill.cur_point + (DecodeRune win).2 ∧
      b.next.2.end_pos = b.refill.end_pos ∧ b.next.2.rd = b.refill.rd := by
    rw [next_eq]
    unfold Buffer.decode
    simp only [hsl]
    split_ifs
    all_goals exact ⟨trivial, rfl, rfl, rfl, rfl⟩
  obtain ⟨n1, n2, n3, n4, n5⟩ := hnext
  refine ⟨by rw [n1, hdec], ?_⟩
  refine ⟨pre ++ win.take (DecodeRune win).2, win.drop (DecodeRune win).2, post, ?_, ?_, ?_, ?_,
    ?_, ?_⟩
  · show b.next.2.Buf = _
    rw [n2, hbuf, List.append_assoc, ← List.append_assoc (List.take _ win), List.take_append_drop]
  · show b.next.2.Buf.length = _
    rw [n2, hlen]
  · show b.next.2.cur_point = _
    rw [n3, hc, List.length_append, List.length_take]
    omega
  · show b.next.2.cur_point = _
    rw [n3, hc, List.length_append, List.length_take]
    omega
  · show b.next.2.end_pos = _
    rw [n4, he, List.length_append, List.length_take, List.length_drop]
    omega
  · show _ ++ b.next.2.rd.data = _
    rw [n5, ← hdec, ← hrest, List.drop_append_of_le_length hn]

theorem newBuffer_fresh (size : Nat) (input : Bytes) :
    Fresh size (newBuffer ⟨input⟩ size) input :=
  ⟨[], [], List.replicate size 0, by simp [newBuffer], by simp [newBuffer], rfl, rfl, rfl,
    by simp [newBuffer]⟩

theorem runes_fresh (size : Nat) (hsize : 4 ≤ size) :
    ∀ (k : Nat) (b : Buffer) (rest : Bytes), Fresh size b rest →
    b.runes k = decodeStream k rest := by
  intro k
  induction k with
  | zero => intro b rest _; rfl
  | succ k ih =>
    intro b rest h
    obtain ⟨h1, h2⟩ := next_fresh size hsize b rest h
    simp only [Buffer.runes, decodeStream, h1, ih _ _ h2]

theorem decodeStream_nil (k : Nat) : decodeStream k [] = List.replicate k RuneError := by
  induction k with
  | zero => rfl
  | succ k ih =>
    simp only [decodeStream, DecodeRune_nil, List.drop_nil, ih, List.replicate_succ]

theorem decodeStream_run (p : Nat → Bool) :
    ∀ (n : Nat) (s : Bytes) (k : Nat), runesAll p n s = true →
    decodeStream (runeCount n s + k) s = codePoints n s ++ List.replicate k RuneError := by
  intro n
  induction n with
  | zero =>
    intro s k h
    cases s with
    | nil => simp [runeCount, codePoints, decodeStream_nil]
    | cons c cs => simp [runesAll] at h
  | succ n ih =>
    intro s k h
    cases s with
    | nil => simp [runeCount, codePoints, decodeStream_nil]
    | cons c cs =>
      obtain ⟨m, hm, _, _, hrest⟩ := runesAll_cons p (n + 1) c cs h
      have hm' : m = n := by omega
      rw [hm'] at hrest
      have := ih _ k hrest
      simp only [runeCount, codePoints, List.cons_append]
      rw [Nat.add_assoc, Nat.add_comm 1, decodeStream]
      rw [this]

theorem codePoints_run (p : Nat → Bool) :
    ∀ (n : Nat) (s : Bytes), runesAll p n s = true →
    ∀ r ∈ codePoints n s, r ≠ RuneError := by
  intro n
  induction n with
  | zero =>
    intro s h r hr
    cases s with
    | nil => simp [codePoints] at hr
    | cons c cs => simp [runesAll] at h
  | succ n ih =>
    intro s h r hr
    cases s with
    | nil => simp [codePoints] at hr
    | cons c cs =>
      obtain ⟨m, hm, hd, _, hrest⟩ := runesAll_cons p (n + 1) c cs h
      have hm' : m = n := by omega
      rw [hm'] at hrest
      simp only [codePoints, List.mem_cons] at hr
      rcases hr with rfl | hr
      · exact hd
      · exact ih _ hrest r hr

/-- C18: for a window of any size from four bytes on and any input, the runes
that successive calls of `Buffer.next` return, the pending token being discarded
after each call, are the runes that decoding the input from its start gives,
one after the other, U+FFFD once the input is exhausted. On an input of whole
runes other than U+FFFD these are its code points, in order, followed by
U+FFFD for every further call. -/
theorem C18_next_yields_the_runes (size : Nat) (hsize : 4 ≤ size) (input : Bytes) :
    (∀ k, (newBuffer ⟨input⟩ size).runes k = decodeStream k input) ∧
    (RuneRun (fun _ => true) input →
      (∀ r ∈ codePoints input.length input, r ≠ RuneError) ∧
      ∀ k, (newBuffer ⟨input⟩ size).runes (runeCount input.length input + k)
        = codePoints input.length input ++ List.replicate k RuneError) := by
  have h1 : ∀ k, (newBuffer ⟨input⟩ size).runes k = decodeStream k input :=
    fun k => runes_fresh size hsize k _ input (newBuffer_fresh size input)
  refine ⟨h1, fun hrun => ⟨codePoints_run _ _ _ hrun, fun k => ?_⟩⟩
  rw [h1, decodeStream_run _ _ _ k hrun]

theorem C18_next_yields_the_runes_witness :
    (∀ k, (newBuffer ⟨[0xC3, 0xA9, 0xE2, 0x82, 0xAC, 0x61, 0xF0, 0x9F, 0x98, 0x80]⟩ 4).runes k
      = decodeStream k [0xC3, 0xA9, 0xE2, 0x82, 0xAC, 0x61, 0xF0, 0x9F, 0x98, 0x80]) ∧
    (RuneRun (fun _ => true) [0xC3, 0xA9, 0xE2, 0x82, 0xAC, 0x61, 0xF0, 0x9F, 0x98, 0x80] →
      (∀ r ∈ codePoints [0xC3, 0xA9, 0xE2, 0x82, 0xAC, 0x61, 0xF0, 0x9F, 0x98, 0x80].length
          [0xC3, 0xA9, 0xE2, 0x82, 0xAC, 0x61, 0xF0, 0x9F, 0x98, 0x80], r ≠ RuneError) ∧
      ∀ k, (newBuffer ⟨[0xC3, 0xA9, 0xE2, 0x82, 0xAC, 0x61, 0xF0, 0x9F, 0x98, 0x80]⟩ 4).runes
          (runeCount [0xC3, 0xA9, 0xE2, 0x82, 0xAC, 0x61, 0xF0, 0x9F, 0x98, 0x80].length
            [0xC3, 0xA9, 0xE2, 0x82, 0xAC, 0x61, 0xF0, 0x9F, 0x98, 0x80] + k)
        = codePoints [0xC3, 0xA9, 0xE2, 0x82, 0xAC, 0x61, 0xF0, 0x9F, 0x98, 0x80].length
            [0xC3, 0xA9, 0xE2, 0x82, 0xAC, 0x61, 0xF0, 0x9F, 0x98, 0x80]
          ++ List.replicate k RuneError) :=
  C18_next_yields_the_runes 4 (by decide) [0xC3, 0xA9, 0xE2, 0x82, 0xAC, 0x61, 0xF0, 0x9F, 0x98, 0x80]

/-! ### `lexDate` on digit groups -/

/-- The rune that `next` returns is the one that starts the input, whether it
can be decoded or not. -/
theorem next_fst (b : Buffer) (pend rest : Bytes) (h : Win b pend rest)
    (hp : pend.length + 4 ≤ iosize) : b.next.1 = (DecodeRune rest).1 := by
  obtain ⟨pre1, win1, post1, h1, h2, h3, _⟩ := refill_full b pend rest h
  obtain ⟨e1, _⟩ := decode_layout b.refill pre1 pend win1 post1 h1
  have hdec : DecodeRune win1 = DecodeRune rest := by
    rcases h3 with h3 | h3 | h3
    · rw [← h2, DecodeRune_append_four _ _ h3]
    · rw [← h2, DecodeRune_append_four _ _ (by omega)]
    · rw [← h2, h3, List.append_nil]
  rw [next_eq, e1, hdec]

theorem peek_fst (b : Buffer) (pend rest : Bytes) (h : Win b pend rest)
    (hp : pend.length + 4 ≤ iosize) : b.peek.1 = (DecodeRune rest).1 :=
  next_fst b pend rest h hp

/-- The method `errorfEOF` sends one `Error` token in every case. -/
theorem errorfEOF_error (l : LogLexer) (e : Option GoError) :
    ∃ msg, l.errorfEOF e = (none, { l with Tokens := l.Tokens ++ [⟨.TokError, msg⟩] }) := by
  unfold LogLexer.errorfEOF
  split
  · exact ⟨_, rfl⟩
  · exact ⟨_, rfl⟩
  · exact ⟨_, rfl⟩

/-- The method `errorfEOFValid` sends one `Error` token when no decoding has failed. -/
theorem errorfEOFValid_error (l : LogLexer) (e : Option GoError) (h : l.buf.runefailed = false) :
    ∃ msg, l.errorfEOFValid e = (none, { l with Tokens := l.Tokens ++ [⟨.TokError, msg⟩] }) := by
  unfold LogLexer.errorfEOFValid Buffer.lastError
  rw [h]
  exact ⟨_, rfl⟩

theorem run_length_le (p : Nat → Bool) :
    ∀ (n : Nat) (g : Bytes), runesAll p n g = true → g.length ≤ 4 * runeCount n g := by
  intro n
  induction n with
  | zero =>
    intro g h
    cases g with
    | nil => simp
    | cons c cs => simp [runesAll] at h
  | succ n ih =>
    intro g h
    cases g with
    | nil => simp
    | cons c cs =>
      obtain ⟨m, hm, _, _, hrest⟩ := runesAll_cons p (n + 1) c cs h
      have hm' : m = n := by omega
      rw [hm'] at hrest
      have h1 := ih _ hrest
      have h2 := DecodeRune_le_four (c :: cs)
      rw [List.length_drop] at h1
      simp only [runeCount]
      omega

theorem isDigitGroup_eq (T : RangeTables) (k : Nat) (g : Bytes) (h : isDigitGroup T k g = true) :
    runesAll (isDateRune T) k g = true ∧ runeCount k g = k ∧ g.length ≤ 4 * k := by
  simp only [isDigitGroup, Bool.and_eq_true, beq_iff_eq] at h
  refine ⟨h.1, h.2, ?_⟩
  have := run_length_le _ k g h.1
  rw [h.2] at this
  exact this

/-- The loop `acceptWhile` of a round of `lexDate` on a group of `k` digits that a
rune other than a digit follows. -/
theorem digits_accept (T : RangeTables) (fuel k : Nat) (b : Buffer) (pend g rest : Bytes)
    (hg : isDigitGroup T k g = true) (hd : (DecodeRune rest).1 ≠ RuneError)
    (hstop : isDateRune T (DecodeRune rest).1 = false) (hv : View b pend (g ++ rest))
    (hsz : pend.length + g.length + 4 ≤ iosize) (hfuel : k < fuel) :
    ∃ b1, Buffer.acceptWhile (isDateRune T) fuel 0 b = some (k, b1) ∧ View b1 (pend ++ g) rest := by
  obtain ⟨hrun, hcnt, _⟩ := isDigitGroup_eq T k g hg
  obtain ⟨b1, hb1, hv1⟩ := acceptWhile_stop (isDateRune T) rest hd hstop k g b pend 0 fuel hrun hv
    hsz (by omega)
  rw [hcnt, Nat.zero_add] at hb1
  exact ⟨b1, hb1, hv1⟩

theorem lexDateGroup_two_colon (T : RangeTables) (fuel i : Nat) (hi : i ≠ 2) (l : LogLexer)
    (pend g rest : Bytes) (hg : isDigitGroup T 2 g = true)
    (hv : View l.buf pend (g ++ 0x3A :: rest)) (hsz : pend.length + 16 ≤ iosize)
    (hfuel : 3 ≤ fuel) :
    ∃ b1, lexDateGroup T fuel i l = some { l with buf := b1 } ∧ View b1 [] rest := by
  have hlen := (isDigitGroup_eq T 2 g hg).2.2
  have hstopd : DecodeRune (0x3A :: rest) = (0x3A, 1) := DecodeRune_ascii _ _ (by decide)
  obtain ⟨b1, hb1, hv1⟩ := digits_accept T fuel 2 l.buf pend g (0x3A :: rest) hg
    (by rw [hstopd]; decide) (by rw [hstopd]; simp [isDateRune, IsDigit, MaxLatin1]) hv
    (by omega) (by omega)
  obtain ⟨e1, e2, _⟩ := next_ok b1 (pend ++ g) (0x3A :: rest) hv1
    (by simp; omega) (by rw [hstopd]; decide)
  rw [hstopd] at e1 e2
  refine ⟨b1.next.2.ignoreToken, ?_, ?_⟩
  · unfold lexDateGroup
    simp only [hb1, ne_eq, not_true_eq_false, if_false, hi, not_false_eq_true, if_true, e1]
  · have := ignoreToken_view _ _ _ e2
    simpa using this

theorem lexDateGroup_two_last (T : RangeTables) (fuel : Nat) (l : LogLexer)
    (pend g rest : Bytes) (hg : isDigitGroup T 2 g = true)
    (hd : (DecodeRune rest).1 ≠ RuneError) (hstop : isDateRune T (DecodeRune rest).1 = false)
    (hv : View l.buf pend (g ++ rest)) (hsz : pend.length + 16 ≤ iosize)
    (hfuel : 3 ≤ fuel) :
    ∃ b1, lexDateGroup T fuel 2 l = some { l with buf := b1 } ∧ View b1 [] rest := by
  have hlen := (isDigitGroup_eq T 2 g hg).2.2
  obtain ⟨b1, hb1, hv1⟩ := digits_accept T fuel 2 l.buf pend g rest hg hd hstop hv
    (by omega) (by omega)
  refine ⟨b1.ignoreToken, ?_, ignoreToken_view _ _ _ hv1⟩
  unfold lexDateGroup
  simp only [hb1, ne_eq, not_true_eq_false, if_false]

/-- A round of `lexDate` on a group that does not have exactly two digits and that
a rune other than a digit follows: the first token it sends is an `Error`. -/
theorem lexDateGroup_bad (T : RangeTables) (fuel i k : Nat) (hk : k ≠ 2) (l : LogLexer)
    (pend g rest : Bytes) (hg : isDigitGroup T k g = true)
    (hd : (DecodeRune rest).1 ≠ RuneError) (hstop : isDateRune T (DecodeRune rest).1 = false)
    (hv : View l.buf pend (g ++ rest)) (hsz : pend.length + g.length + 4 ≤ iosize)
    (hfuel : k < fuel) :
    ∃ l1 msg, lexDateGroup T fuel i l = some l1 ∧
      (l.Tokens ++ [⟨.TokError, msg⟩]) <+: l1.Tokens := by
  obtain ⟨b1, hb1, hv1⟩ := digits_accept T fuel k l.buf pend g rest hg hd hstop hv hsz hfuel
  obtain ⟨p1, p2⟩ := peek_ok b1 (pend ++ g) rest hv1 (by simp; omega) hd
  obtain ⟨msg, hmsg⟩ := errorfEOFValid_error { l with buf := b1.peek.2 }
    (some (.text (ascii "Invalid date format, got " ++ EncodeRune b1.peek.1
      ++ ascii " expected DIGIT"))) p2.1
  have hex : ∃ l1, lexDateGroup T fuel i l = some l1 := by
    unfold lexDateGroup
    simp only [hb1]
    exact ⟨_, rfl⟩
  obtain ⟨l1, h⟩ := hex
  refine ⟨l1, msg, h, ?_⟩
  unfold lexDateGroup at h
  simp only [hb1, ne_eq, hk, not_false_eq_true, if_true, hmsg, Option.some.injEq] at h
  rw [← h]
  simp only
  split_ifs
  all_goals
    repeat (first
      | with_reducible exact List.prefix_refl _
      | with_reducible apply errorfEOF_grows)

/-! ### `lexDate` after its digit groups -/

theorem lexDate_sees_group0 (T : RangeTables) (fuel : Nat) (l l0 : LogLexer)
    (h0 : lexDateGroup T fuel 0 l = some l0) : l0.Tokens <+: (lexDate T fuel l).tokens := by
  unfold lexDate
  simp only [h0]
  split
  · exact List.prefix_refl _
  · rename_i l1 h1
    have g1 := lexDateGroup_grows T fuel 1 l0 l1 h1
    split
    · exact g1
    · rename_i l2 h2
      refine (g1.trans (lexDateGroup_grows T fuel 2 l1 l2 h2)).trans ?_
      split_ifs
      all_goals simp only [Step.tokens]
      all_goals
        repeat (first
          | with_reducible exact List.prefix_refl _
          | with_reducible apply errorfEOF_grows)

theorem lexDate_sees_group1 (T : RangeTables) (fuel : Nat) (l l0 l1 : LogLexer)
    (h0 : lexDateGroup T fuel 0 l = some l0) (h1 : lexDateGroup T fuel 1 l0 = some l1) :
    l1.Tokens <+: (lexDate T fuel l).tokens := by
  unfold lexDate
  simp only [h0, h1]
  split
  · exact List.prefix_refl _
  · rename_i l2 h2
    refine (lexDateGroup_grows T fuel 2 l1 l2 h2).trans ?_
    split_ifs
    all_goals simp only [Step.tokens]
    all_goals
      repeat (first
        | with_reducible exact List.prefix_refl _
        | with_reducible apply errorfEOF_grows)

theorem lexDate_sees_group2 (T : RangeTables) (fuel : Nat) (l l0 l1 l2 : LogLexer)
    (h0 : lexDateGroup T fuel 0 l = some l0) (h1 : lexDateGroup T fuel 1 l0 = some l1)
    (h2 : lexDateGroup T fuel 2 l1 = some l2) :
    l2.Tokens <+: (lexDate T fuel l).tokens := by
  unfold lexDate
  simp only [h0, h1, h2]
  split_ifs
  all_goals simp only [Step.tokens]
  all_goals
    repeat (first
      | with_reducible exact List.prefix_refl _
      | with_reducible apply errorfEOF_grows)

/-- The three rounds of `lexDate` on three groups of two digits that `:` separates. -/
theorem lexDate_good_groups (T : RangeTables) (fuel : Nat) (l : LogLexer)
    (pend g0 g1 g2 rest : Bytes) (h0 : isDigitGroup T 2 g0 = true)
    (h1 : isDigitGroup T 2 g1 = true) (h2 : isDigitGroup T 2 g2 = true)
    (hd : firstRune rest ≠ RuneError) (hstop : isDateRune T (firstRune rest) = false)
    (hv : View l.buf pend (g0 ++ 0x3A :: (g1 ++ 0x3A :: (g2 ++ rest))))
    (hsz : pend.length + 16 ≤ iosize) (hfuel : 3 ≤ fuel) :
    ∃ b0 b1 b2, lexDateGroup T fuel 0 l = some { l with buf := b0 } ∧
      lexDateGroup T fuel 1 { l with buf := b0 } = some { l with buf := b1 } ∧
      lexDateGroup T fuel 2 { l with buf := b1 } = some { l with buf := b2 } ∧
      View b2 [] rest := by
  obtain ⟨b0, e0, v0⟩ := lexDateGroup_two_colon T fuel 0 (by decide) l pend g0 _ h0 hv hsz hfuel
  obtain ⟨b1, e1, v1⟩ := lexDateGroup_two_colon T fuel 1 (by decide) { l with buf := b0 } [] g1 _
    h1 v0 (by simp [iosize]) hfuel
  obtain ⟨b2, e2, v2⟩ := lexDateGroup_two_last T fuel { l with buf := b1 } [] g2 rest h2 hd hstop
    v1 (by simp [iosize]) hfuel
  exact ⟨b0, b1, b2, e0, e1, e2, v2⟩

/-- The switch at the end of `lexDate`, after a well-formed timestamp that a rune
`c1` other than a digit follows, `c2` being the rune after `c1`. -/
theorem lexDate_switch (T : RangeTables) (fuel : Nat) (l : LogLexer)
    (pend g0 g1 g2 rest : Bytes) (h0 : isDigitGroup T 2 g0 = true)
    (h1 : isDigitGroup T 2 g1 = true) (h2 : isDigitGroup T 2 g2 = true)
    (hd : firstRune rest ≠ RuneError) (hstop : isDateRune T (firstRune rest) = false)
    (hv : View l.buf pend (g0 ++ 0x3A :: (g1 ++ 0x3A :: (g2 ++ rest))))
    (hsz : pend.length + 16 ≤ iosize) (hfuel : 3 ≤ fuel) :
    ∃ b3 msg, lexDate T fuel l =
      if IsSpace T (firstRune rest) then
        if IsSpace T (firstRune (afterRune rest)) then
          .next (some .lexIgnoredLine) { l with buf := b3 }
        else if firstRune (afterRune rest) = 0x2A then .next (some .lexAction) { l with buf := b3 }
        else .next none { l with buf := b3, Tokens := l.Tokens ++ [⟨.TokError, msg⟩] }
      else if firstRune rest = 0x3C then .next (some .lexNick) { l with buf := b3 }
      else if firstRune rest = 0x21 then .next (some .lexIgnoredLine) { l with buf := b3 }
      else .next none { l with buf := b3, Tokens := l.Tokens ++ [⟨.TokError, msg⟩] } := by
  obtain ⟨b0, b1, b2, e0, e1, e2, v2⟩ := lexDate_good_groups T fuel l pend g0 g1 g2 rest h0 h1 h2
    hd hstop hv hsz hfuel
  obtain ⟨n1, n2, _⟩ := next_ok b2 [] rest v2 (by simp [iosize]) hd
  have n1' : b2.next.1 = firstRune rest := n1
  have hlen : (List.take (DecodeRune rest).2 rest).length ≤ 4 := by
    have := DecodeRune_le_four rest
    rw [List.length_take]; omega
  have p1 : b2.next.2.peek.1 = firstRune (afterRune rest) :=
    peek_fst b2.next.2 _ _ n2.2 (by simp only [List.nil_append, iosize]; omega)
  by_cases hs1 : IsSpace T (firstRune rest) = true
  · by_cases hs2 : IsSpace T (firstRune (afterRune rest)) = true
    · refine ⟨b2.next.2.peek.2, [], ?_⟩
      unfold lexDate
      simp only [e0, e1, e2, n1', hs1, if_true, p1, hs2]
    · by_cases hs3 : firstRune (afterRune rest) = 0x2A
      · refine ⟨b2.next.2.peek.2, [], ?_⟩
        unfold lexDate
        simp only [e0, e1, e2, n1', hs1, if_true, p1, hs2, hs3, Bool.false_eq_true, if_false]
      · obtain ⟨msg, hmsg⟩ := errorfEOF_error { l with buf := b2.next.2.peek.2 }
          (some (.text (ascii "Invalid char, got " ++ EncodeRune (firstRune (afterRune rest))
            ++ ascii " expected \"*\" or SPACE")))
        refine ⟨b2.next.2.peek.2, msg, ?_⟩
        unfold lexDate
        simp only [e0, e1, e2, n1', hs1, if_true, p1, hs2, hs3, Bool.false_eq_true, if_false,
          hmsg]
  · by_cases hs2 : firstRune rest = 0x3C
    · refine ⟨b2.next.2, [], ?_⟩
      unfold lexDate
      simp only [e0, e1, e2, n1']
      rw [if_neg hs1, if_neg hs1, if_pos hs2, if_pos hs2]
    · by_cases hs3 : firstRune rest = 0x21
      · refine ⟨b2.next.2, [], ?_⟩
        unfold lexDate
        simp only [e0, e1, e2, n1']
        rw [if_neg hs1, if_neg hs1, if_neg hs2, if_neg hs2, if_pos hs3, if_pos hs3]
      · obtain ⟨msg, hmsg⟩ := errorfEOF_error { l with buf := b2.next.2 }
          (some (.text (ascii "Invalid char, got " ++ EncodeRune (firstRune rest)
            ++ ascii " expected \"<\" or SPACE")))
        refine ⟨b2.next.2, msg, ?_⟩
        unfold lexDate
        simp only [e0, e1, e2, n1', hs1, Bool.false_eq_true, if_false, hs2, hs3, hmsg]

theorem IsSpace_star (T : RangeTables) : IsSpace T 0x2A = false := by
  simp [IsSpace, MaxLatin1]

theorem IsSpace_lt (T : RangeTables) : IsSpace T 0x3C = false := by
  simp [IsSpace, MaxLatin1]

theorem IsSpace_bang (T : RangeTables) : IsSpace T 0x21 = false := by
  simp [IsSpace, MaxLatin1]

/-- The first round of `lexDate` whose group does not have two digits, after
`i` well-formed groups: the next token is an `Error`. -/
theorem lexDate_bad_group (T : RangeTables) (fuel : Nat) (l : LogLexer) (hfuel : 3 ≤ fuel)
    (k : Nat) (g rest : Bytes) (hk : k ≠ 2) (hg : isDigitGroup T k g = true)
    (hd : firstRune rest ≠ RuneError) (hstop : isDateRune T (firstRune rest) = false)
    (hkf : k < fuel) (hsz : g.length + 32 ≤ iosize)
    (hs : LineStart l (g ++ rest) ∨
      (∃ g0, isDigitGroup T 2 g0 = true ∧ LineStart l (g0 ++ 0x3A :: (g ++ rest))) ∨
      (∃ g0 g1, isDigitGroup T 2 g0 = true ∧ isDigitGroup T 2 g1 = true ∧
        LineStart l (g0 ++ 0x3A :: (g1 ++ 0x3A :: (g ++ rest))))) :
    ∃ msg, (l.Tokens ++ [⟨.TokError, msg⟩]) <+: (lexDate T fuel l).tokens := by
  rcases hs with hs | ⟨g0, h0, hs⟩ | ⟨g0, g1, h0, h1, hs⟩
  · obtain ⟨pend, hv, hp⟩ := hs
    obtain ⟨l1, msg, e1, t1⟩ := lexDateGroup_bad T fuel 0 k hk l pend g rest hg hd hstop hv
      (by simp only [iosize] at hsz ⊢; omega) hkf
    exact ⟨msg, t1.trans (lexDate_sees_group0 T fuel l l1 e1)⟩
  · obtain ⟨pend, hv, hp⟩ := hs
    obtain ⟨b0, e0, v0⟩ := lexDateGroup_two_colon T fuel 0 (by decide) l pend g0 _ h0 hv
      (by simp only [iosize]; omega) hfuel
    obtain ⟨l1, msg, e1, t1⟩ := lexDateGroup_bad T fuel 1 k hk { l with buf := b0 } [] g rest hg
      hd hstop v0 (by simp only [iosize, List.length_nil] at hsz ⊢; omega) hkf
    exact ⟨msg, t1.trans (lexDate_sees_group1 T fuel l _ l1 e0 e1)⟩
  · obtain ⟨pend, hv, hp⟩ := hs
    obtain ⟨b0, e0, v0⟩ := lexDateGroup_two_colon T fuel 0 (by decide) l pend g0 _ h0 hv
      (by simp only [iosize]; omega) hfuel
    obtain ⟨b1, e1, v1⟩ := lexDateGroup_two_colon T fuel 1 (by decide) { l with buf := b0 } [] g1 _
      h1 v0 (by simp [iosize]) hfuel
    obtain ⟨l2, msg, e2, t2⟩ := lexDateGroup_bad T fuel 2 k hk { l with buf := b1 } [] g rest hg
      hd hstop v1 (by simp only [iosize, List.length_nil] at hsz ⊢; omega) hkf
    exact ⟨msg, t2.trans (lexDate_sees_group2 T fuel l _ _ l2 e0 e1 e2)⟩

/-- C16 (amended): at the start of a line, with nothing failed before, on three
groups of exactly two digits separated by `:` that a rune `c1` other than a
digit follows, `c2` being the rune after `c1`: `lexDate` sends no token and
moves to `lexIgnoredLine` when `c1` and `c2` are white space (`unicode.IsSpace`),
to `lexAction`, which moves on to `lexIgnoredLine`, when `c1` is white space and
`c2` is `*`, to `lexNick` when `c1` is `<` and to `lexIgnoredLine` when `c1` is `!`;
in every other case it sends one `Error` token and returns the nil state. And
when one of the three groups does not have exactly two digits, the groups
before it being well formed, and a rune other than a digit follows it, the next
token sent is an `Error`. -/
theorem C16_lexDate_transitions (T : RangeTables) (fuel : Nat) (l : LogLexer) (hfuel : 3 ≤ fuel) :
    (∀ (g0 g1 g2 rest : Bytes), isDigitGroup T 2 g0 = true → isDigitGroup T 2 g1 = true →
      isDigitGroup T 2 g2 = true → firstRune rest ≠ RuneError →
      isDateRune T (firstRune rest) = false →
      LineStart l (g0 ++ 0x3A :: (g1 ++ 0x3A :: (g2 ++ rest))) →
      (IsSpace T (firstRune rest) = true → IsSpace T (firstRune (afterRune rest)) = true →
        ∃ l1, lexDate T fuel l = .next (some .lexIgnoredLine) l1 ∧ l1.Tokens = l.Tokens) ∧
      (IsSpace T (firstRune rest) = true → firstRune (afterRune rest) = 0x2A →
        ∃ l1, lexDate T fuel l = .next (some .lexAction) l1 ∧ l1.Tokens = l.Tokens ∧
          lexAction l1 = .next (some .lexIgnoredLine) l1) ∧
      (firstRune rest = 0x3C →
        ∃ l1, lexDate T fuel l = .next (some .lexNick) l1 ∧ l1.Tokens = l.Tokens) ∧
      (firstRune rest = 0x21 →
        ∃ l1, lexDate T fuel l = .next (some .lexIgnoredLine) l1 ∧ l1.Tokens = l.Tokens) ∧
      ((IsSpace T (firstRune rest) = true →
          IsSpace T (firstRune (afterRune rest)) = false ∧ firstRune (afterRune rest) ≠ 0x2A) →
        (IsSpace T (firstRune rest) = false →
          firstRune rest ≠ 0x3C ∧ firstRune rest ≠ 0x21) →
        ∃ l1 msg, lexDate T fuel l = .next none l1 ∧
          l1.Tokens = l.Tokens ++ [⟨.TokError, msg⟩])) ∧
    (∀ (k : Nat) (g rest : Bytes), k ≠ 2 → isDigitGroup T k g = true →
      firstRune rest ≠ RuneError → isDateRune T (firstRune rest) = false →
      k < fuel → g.length + 32 ≤ iosize →
      (LineStart l (g ++ rest) ∨
        (∃ g0, isDigitGroup T 2 g0 = true ∧ LineStart l (g0 ++ 0x3A :: (g ++ rest))) ∨
        (∃ g0 g1, isDigitGroup T 2 g0 = true ∧ isDigitGroup T 2 g1 = true ∧
          LineStart l (g0 ++ 0x3A :: (g1 ++ 0x3A :: (g ++ rest))))) →
      ∃ msg, (l.Tokens ++ [⟨.TokError, msg⟩]) <+: (lexDate T fuel l).tokens) := by
  constructor
  · intro g0 g1 g2 rest h0 h1 h2 hd hstop hs
    obtain ⟨pend, hv, hp⟩ := hs
    obtain ⟨b3, msg, hsw⟩ := lexDate_switch T fuel l pend g0 g1 g2 rest h0 h1 h2 hd hstop hv
      (by simp only [iosize]; omega) hfuel
    refine ⟨?_, ?_, ?_, ?_, ?_⟩
    · intro hs1 hs2
      rw [if_pos hs1, if_pos hs2] at hsw
      exact ⟨_, hsw, rfl⟩
    · intro hs1 hs2
      have hs3 : ¬ IsSpace T (firstRune (afterRune rest)) = true := by
        rw [hs2, IsSpace_star]; simp
      rw [if_pos hs1, if_neg hs3, if_pos hs2] at hsw
      exact ⟨_, hsw, rfl, rfl⟩
    · intro hc
      have hs1 : ¬ IsSpace T (firstRune rest) = true := by
        rw [hc, IsSpace_lt]; simp
      rw [if_neg hs1, if_pos hc] at hsw
      exact ⟨_, hsw, rfl⟩
    · intro hc
      have hs1 : ¬ IsSpace T (firstRune rest) = true := by
        rw [hc, IsSpace_bang]; simp
      have hc2 : ¬ firstRune rest = 0x3C := by rw [hc]; decide
      rw [if_neg hs1, if_neg hc2, if_pos hc] at hsw
      exact ⟨_, hsw, rfl⟩
    · intro ha hb
      by_cases hs1 : IsSpace T (firstRune rest) = true
      · obtain ⟨a1, a2⟩ := ha hs1
        rw [if_pos hs1, if_neg (by rw [a1]; simp), if_neg a2] at hsw
        exact ⟨_, msg, hsw, rfl⟩
      · obtain ⟨a1, a2⟩ := hb (by simpa using hs1)
        rw [if_neg hs1, if_neg a1, if_neg a2] at hsw
        exact ⟨_, msg, hsw, rfl⟩
  · intro k g rest hk hg hd hstop hkf hsz hs
    exact lexDate_bad_group T fuel l hfuel k g rest hk hg hd hstop hkf hsz hs

theorem C16_lexDate_transitions_witness :
    (∃ l1, lexDate RangeTables.latin1 50 (InitLogLexer (ascii "log")
        (ascii "12" ++ 0x3A :: (ascii "00" ++ 0x3A :: (ascii "00" ++ ascii "  x\n")))
        (ascii "alice")) = .next (some .lexIgnoredLine) l1 ∧
      l1.Tokens = (InitLogLexer (ascii "log")
        (ascii "12" ++ 0x3A :: (ascii "00" ++ 0x3A :: (ascii "00" ++ ascii "  x\n")))
        (ascii "alice")).Tokens) ∧
    (∃ msg, ((InitLogLexer (ascii "log") (ascii "1" ++ ascii "a:00:00 x\n")
        (ascii "alice")).Tokens ++ [⟨.TokError, msg⟩]) <+:
      (lexDate RangeTables.latin1 50 (InitLogLexer (ascii "log") (ascii "1" ++ ascii "a:00:00 x\n")
        (ascii "alice"))).tokens) :=
  ⟨((C16_lexDate_transitions RangeTables.latin1 50 _ (by decide)).1
      (ascii "12") (ascii "00") (ascii "00") (ascii "  x\n") (by decide) (by decide) (by decide)
      (by decide) (by decide) (InitLogLexer_start _ _ _)).1 (by decide) (by decide),
    (C16_lexDate_transitions RangeTables.latin1 50 _ (by decide)).2
      1 (ascii "1") (ascii "a:00:00 x\n") (by decide) (by decide) (by decide) (by decide)
      (by decide) (by decide) (Or.inl (InitLogLexer_start _ _ _))⟩

/-- C16 (counterexample): after the timestamp of the line `12:00:00`, two tabs and
`x`, which is none of the four shapes of the claim, `lexDate` sends no `Error`: it
moves to `lexIgnoredLine`, since the test is `unicode.IsSpace`. And on the input
`12:00:0`, whose third group has one digit, the next token is `EndOfStream`
carrying the digit, not an `Error`: the input ends in the group. -/
theorem C16_tabs_accepted_cut_group_clean :
    (lexDate RangeTables.latin1 50
        (InitLogLexer (ascii "log") (ascii "12:00:00\t\tx\n") (ascii "alice"))).state
      = some .lexIgnoredLine ∧
    (lexDate RangeTables.latin1 50
        (InitLogLexer (ascii "log") (ascii "12:00:00\t\tx\n") (ascii "alice"))).tokens = [] ∧
    (lexDate RangeTables.latin1 50
        (InitLogLexer (ascii "log") (ascii "12:00:0") (ascii "alice"))).tokens
      = [⟨.TokEOF, ascii "0"⟩,
         ⟨.TokError, ascii "logparser : prematured end of file at log:1:7"⟩] := by
  decide!

end MarkovBot
